import Mathlib

/-!
Verification of the LogicFlow propositional-logic engine.

This file shallowly embeds the expression engine of the repository
(`src/utils/logic.ts`, second and most complete iteration, lines 701-1319,
together with the STTT tableau engine `src/utils/sttt.ts`) and proves or
refutes the specification claims about it.

Conventions of the embedding:
* JavaScript strings are Lean `String`s; character scanning works on
  `String.data` (`List Char`).  `toUpperCase` is modelled for ASCII letters
  (formula alphabets are ASCII letters, digits and the fixed connective
  symbols), and `replace(/\s+/g, '')` as a filter on whitespace characters.
* A JavaScript object used as a string-keyed record is an association list
  `List (String × Bool)`; assignment (`o[k] = v`) updates the value in place
  when the key exists and appends otherwise, which reproduces JavaScript's
  insertion-order semantics for `Object.values`.
* Functions whose TypeScript originals recurse on data that shrinks in a way
  Lean cannot see structurally (the character scanner, the recursive-descent
  routines of class `Parser`, the tableau solver) take an explicit fuel
  argument so that every definition stays a computable structural recursion;
  the fuel supplied by the public wrappers is large enough for every actual
  run, and theorems never depend on a particular fuel value without proof.
-/

namespace LogicFlow

/-- ASCII uppercasing of one character, the effect of `toUpperCase` on the
characters that can occur in formulas. -/
def charUpper (c : Char) : Char :=
  if 'a' ≤ c ∧ c ≤ 'z' then Char.ofNat (c.toNat - 32) else c

/-- Whitespace characters removed by `replace(/\s+/g, '')`. -/
def isWS (c : Char) : Bool :=
  c = ' ' ∨ c = '\t' ∨ c = '\n' ∨ c = '\r'

/-- The preprocessing `input.toUpperCase().replace(/\s+/g, '')` of `tokenize`. -/
def normalizeChars (s : List Char) : List Char :=
  (s.map charUpper).filter (fun c => !isWS c)

/-- Token kinds of the tokenizer (interface `Token` in `logic.ts`). -/
inductive TokType where
  | VAR | NOT | AND | OR | IMPLIES | IFF | XOR
  | LPAREN | RPAREN | LBRACKET | RBRACKET | LBRACE | RBRACE | EOF
deriving DecidableEq, Repr

/-- One token: a kind together with its `value` string. -/
structure Token where
  type : TokType
  value : String
deriving DecidableEq, Repr

/-- The `OPS` keys sorted by `(a, b) => b.length - a.length` (a stable sort,
so keys of equal length keep their object-insertion order), paired with the
canonical symbol `OPS[key]`. -/
def opKeysSorted : List (String × String) :=
  [("IMPLIES", "→"),
   ("<->", "↔"), ("<=>", "↔"), ("IFF", "↔"), ("AND", "∧"), ("NOT", "¬"), ("XOR", "⊕"),
   ("->", "→"), ("=>", "→"), ("&&", "∧"), ("||", "∨"), ("OR", "∨"),
   ("&", "∧"), ("|", "∨"), ("!", "¬"), ("~", "¬"), ("-", "¬"), ("^", "⊕")]

/-- Map a canonical operator symbol to its token type (the `if` chain in the
tokenizer's multi-character branch). -/
def symbolType (s : String) : TokType :=
  if s = "¬" then .NOT
  else if s = "∧" then .AND
  else if s = "∨" then .OR
  else if s = "→" then .IMPLIES
  else if s = "↔" then .IFF
  else if s = "⊕" then .XOR
  else .VAR

/-- First `OPS` key (in sorted order) that is a prefix of the remaining
characters, with its canonical symbol. -/
def matchOp (cs : List Char) : Option (String × String) :=
  opKeysSorted.find? (fun kv => kv.1.data.isPrefixOf cs)

/-- The single characters recognized by the tokenizer's symbol branch:
`Object.values(SYMBOLS)` together with the explicit bracket list. -/
def symbolChars : List Char :=
  ['¬', '∧', '∨', '→', '↔', '⊕', '(', ')', '[', ']', '\x7b', '\x7d']

/-- Token for one recognized symbol character. -/
def symbolCharToken (c : Char) : Token :=
  let t : TokType :=
    if c = '¬' then .NOT
    else if c = '∧' then .AND
    else if c = '∨' then .OR
    else if c = '→' then .IMPLIES
    else if c = '↔' then .IFF
    else if c = '⊕' then .XOR
    else if c = '(' then .LPAREN
    else if c = ')' then .RPAREN
    else if c = '[' then .LBRACKET
    else if c = ']' then .RBRACKET
    else if c = '\x7b' then .LBRACE
    else if c = '\x7d' then .RBRACE
    else .VAR
  ⟨t, String.mk [c]⟩

/-- Is `c` an uppercase letter (`/[A-Z]/.test(char)`)? -/
def isUpperAZ (c : Char) : Bool := 'A' ≤ c ∧ c ≤ 'Z'

/-- The scanning loop of `tokenize` (second iteration, `logic.ts` 750-802),
with fuel; each step consumes at least one character, so fuel equal to the
length of the character list suffices. -/
def tokenizeF : Nat → List Char → List Token
  | 0, _ => []
  | _, [] => []
  | fuel + 1, c :: rest =>
    match matchOp (c :: rest) with
    | some (key, symbol) =>
      ⟨symbolType symbol, symbol⟩ :: tokenizeF fuel (List.drop key.length (c :: rest))
    | none =>
      if c ∈ symbolChars then
        symbolCharToken c :: tokenizeF fuel rest
      else if isUpperAZ c || c = '1' || c = '0' then
        ⟨.VAR, String.mk [c]⟩ :: tokenizeF fuel rest
      else if c = '-' then
        ⟨.NOT, "-"⟩ :: tokenizeF fuel rest
      else
        tokenizeF fuel rest

/-- The end-of-input sentinel pushed by `tokenize`. -/
def eofToken : Token := ⟨.EOF, ""⟩

/-- `tokenize` of `logic.ts` (second iteration): normalize, scan, append EOF. -/
def tokenize (input : String) : List Token :=
  let str := normalizeChars input.data
  tokenizeF str.length str ++ [eofToken]

/-- Is the token an opening bracket (`LPAREN`/`LBRACKET`/`LBRACE`)? -/
def isOpenTok (t : Token) : Bool :=
  t.type = .LPAREN ∨ t.type = .LBRACKET ∨ t.type = .LBRACE

/-- Is the token a closing bracket (`RPAREN`/`RBRACKET`/`RBRACE`)? -/
def isCloseTok (t : Token) : Bool :=
  t.type = .RPAREN ∨ t.type = .RBRACKET ∨ t.type = .RBRACE

/-- Is the token a binary operator (the validator's `isBinOp`)? -/
def isBinOpTok (t : Token) : Bool :=
  t.type = .AND ∨ t.type = .OR ∨ t.type = .IMPLIES ∨ t.type = .IFF ∨ t.type = .XOR

/-- The validator's `isVar`: a `VAR` token or a `0`/`1` constant. -/
def isVarTok (t : Token) : Bool :=
  t.type = .VAR ∨ t.value = "1" ∨ t.value = "0"

/-- The `bracketMap` of `validateSyntax`, keyed by the closing value. -/
def bracketMatch (v : String) : String :=
  if v = ")" then "(" else if v = "]" then "[" else if v = "\x7d" then "\x7b" else ""

/-- The bracket-stack update of one `validateSyntax` iteration: either a
`Grouping mismatch` error or the new stack (JavaScript pushes/pops at the
array end; the list head is the stack top here). -/
def bracketStep (curr : Token) (stack : List String) : Except String (List String) :=
  if isOpenTok curr then .ok (curr.value :: stack)
  else if isCloseTok curr then
    match stack with
    | [] => .error ("Grouping mismatch: Unexpected '" ++ curr.value ++ "'.")
    | top :: stack' =>
      if top ≠ bracketMatch curr.value then
        .error ("Grouping mismatch: Unexpected '" ++ curr.value ++ "'.")
      else .ok stack'
  else .ok stack

/-- Checks 1-3 of one `validateSyntax` iteration (adjacent operators, missing
operator, empty group). -/
def pairChecks (curr next : Token) : Option String :=
  if isBinOpTok curr ∧ isBinOpTok next then
    some ("Mathematical syntax error: Adjacent operators '" ++ curr.value ++ "' and '"
      ++ next.value ++ "'. Expected a variable or negation.")
  else if isVarTok curr ∧ isVarTok next then
    some ("Missing operator between '" ++ curr.value ++ "' and '" ++ next.value
      ++ "'. Did you mean '" ++ curr.value ++ " ∧ " ++ next.value ++ "'?")
  else if isOpenTok curr ∧ isCloseTok next then
    some "Empty brackets found. Logic requires a value inside."
  else none

/-- The pair-scanning loop of `validateSyntax` (`for i in 0 .. length-2`),
carrying the bracket stack.  Returns the first error, if any, and the final
stack. -/
def validateLoop : List Token → List String → Option String × List String
  | curr :: next :: rest, stack =>
    match bracketStep curr stack with
    | .error e => (some e, stack)
    | .ok stack' =>
      match pairChecks curr next with
      | some e => (some e, stack')
      | none => validateLoop (next :: rest) stack'
  | _, stack => (none, stack)

/-- Operator types that may not end the expression (check 5 of
`validateSyntax`). -/
def isTrailingBad (t : TokType) : Bool :=
  t = .AND ∨ t = .OR ∨ t = .IMPLIES ∨ t = .IFF ∨ t = .XOR ∨ t = .NOT

/-- `validateSyntax` of `logic.ts` (second iteration, lines 808-862). -/
def validateSyntax (tokens : List Token) : Option String :=
  if tokens.length = 0 ∨ (tokens.length = 1 ∧ (tokens.headD eofToken).type = .EOF) then
    some "Empty expression"
  else
    match validateLoop tokens [] with
    | (some e, _) => some e
    | (none, top :: _) => some ("Missing closing bracket for '" ++ top ++ "'.")
    | (none, []) =>
      match tokens.get? (tokens.length - 2) with
      | some last =>
        if isTrailingBad last.type then
          some ("Expression ends incomplete. '" ++ last.value ++ "' requires a following value.")
        else none
      | none => none

/-- Binary connective kinds of AST nodes. -/
inductive BinKind where
  | AND | OR | XOR | IMPLIES | IFF
deriving DecidableEq, Repr

/-- The `ASTNode` record of `types.ts`: `type` is split into the three
constructors (`VAR`, `NOT`, binary), and `id`, `expression` and `depth`
are carried on every node exactly as in the source. -/
inductive ASTNode where
  | var (id : String) (value : String) (expression : String) (depth : Nat)
  | not (id : String) (operand : ASTNode) (expression : String) (depth : Nat)
  | bin (id : String) (kind : BinKind) (left right : ASTNode) (expression : String) (depth : Nat)
deriving DecidableEq, Repr

/-- The `id` field of a node. -/
def ASTNode.id : ASTNode → String
  | .var i _ _ _ => i
  | .not i _ _ _ => i
  | .bin i _ _ _ _ _ => i

/-- The `expression` field of a node. -/
def ASTNode.expression : ASTNode → String
  | .var _ _ e _ => e
  | .not _ _ e _ => e
  | .bin _ _ _ _ e _ => e

/-- The `depth` field of a node. -/
def ASTNode.depth : ASTNode → Nat
  | .var _ _ _ d => d
  | .not _ _ _ d => d
  | .bin _ _ _ _ _ d => d

/-- Overwrite the `expression` field (the in-place mutation
`node.expression = ...` performed by `parseFactor` for bracketed groups). -/
def ASTNode.setExpr : ASTNode → String → ASTNode
  | .var i v _ d, e => .var i v e d
  | .not i o _ d, e => .not i o e d
  | .bin i k l r _ d, e => .bin i k l r e d

/-- Node ids produced by `Parser.generateId`. -/
def genId (n : Nat) : String := "node-" ++ toString n

/-- The parser's `peek`: `this.tokens[this.pos] || { type: 'EOF', value: '' }`. -/
def peekT (ts : List Token) : Token := ts.headD eofToken

/-- The parser's `consume` viewed as dropping the front token. -/
def consumeT (ts : List Token) : List Token := ts.tail

/-- Result of one parser routine: the node built, the remaining tokens, the
next value of `nodeIdCounter`, and an instrumentation flag recording whether
the defensive factor fallback (or fuel exhaustion) was hit anywhere in the
call; the flag has no influence on the computed node. -/
structure PRes where
  node : ASTNode
  rest : List Token
  ctr : Nat
  fb : Bool
deriving DecidableEq, Repr

/-- Placeholder result used when fuel runs out (never reached with the fuel
supplied by `parseTokens`; flagged via `fb`).  The placeholder draws its id
from the counter like every real node, so the freshness discipline of
`Parser.generateId` is preserved by the embedding on all paths. -/
def fuelOut (ts : List Token) (ctr : Nat) : PRes :=
  ⟨.var (genId ctr) "?" "?" 0, ts, ctr + 1, true⟩

mutual

/-- The `parseIFF` routine of class `Parser` (`logic.ts` 884-896). -/
def parseIFF : Nat → List Token → Nat → PRes
  | 0, ts, ctr => fuelOut ts ctr
  | fuel + 1, ts, ctr =>
    let r := parseImplies fuel ts ctr
    parseIFFLoop fuel r.node r.rest r.ctr r.fb
  termination_by structural fuel => fuel

/-- The `while` loop of `parseIFF`. -/
def parseIFFLoop : Nat → ASTNode → List Token → Nat → Bool → PRes
  | 0, left, ts, ctr, _ => ⟨left, ts, ctr, true⟩
  | fuel + 1, left, ts, ctr, fb =>
    if (peekT ts).type = .IFF then
      let r := parseImplies fuel (consumeT ts) ctr
      let e := left.expression ++ " ↔ " ++ r.node.expression
      parseIFFLoop fuel (.bin (genId r.ctr) .IFF left r.node e (max left.depth r.node.depth + 1))
        r.rest (r.ctr + 1) (fb || r.fb)
    else ⟨left, ts, ctr, fb⟩
  termination_by structural fuel => fuel

/-- The `parseImplies` routine (`logic.ts` 898-910). -/
def parseImplies : Nat → List Token → Nat → PRes
  | 0, ts, ctr => fuelOut ts ctr
  | fuel + 1, ts, ctr =>
    let r := parseXor fuel ts ctr
    parseImpliesLoop fuel r.node r.rest r.ctr r.fb
  termination_by structural fuel => fuel

/-- The `while` loop of `parseImplies`. -/
def parseImpliesLoop : Nat → ASTNode → List Token → Nat → Bool → PRes
  | 0, left, ts, ctr, _ => ⟨left, ts, ctr, true⟩
  | fuel + 1, left, ts, ctr, fb =>
    if (peekT ts).type = .IMPLIES then
      let r := parseXor fuel (consumeT ts) ctr
      let e := left.expression ++ " → " ++ r.node.expression
      parseImpliesLoop fuel
        (.bin (genId r.ctr) .IMPLIES left r.node e (max left.depth r.node.depth + 1))
        r.rest (r.ctr + 1) (fb || r.fb)
    else ⟨left, ts, ctr, fb⟩
  termination_by structural fuel => fuel

/-- The `parseXor` routine (`logic.ts` 912-924). -/
def parseXor : Nat → List Token → Nat → PRes
  | 0, ts, ctr => fuelOut ts ctr
  | fuel + 1, ts, ctr =>
    let r := parseOr fuel ts ctr
    parseXorLoop fuel r.node r.rest r.ctr r.fb
  termination_by structural fuel => fuel

/-- The `while` loop of `parseXor`. -/
def parseXorLoop : Nat → ASTNode → List Token → Nat → Bool → PRes
  | 0, left, ts, ctr, _ => ⟨left, ts, ctr, true⟩
  | fuel + 1, left, ts, ctr, fb =>
    if (peekT ts).type = .XOR then
      let r := parseOr fuel (consumeT ts) ctr
      let e := left.expression ++ " ⊕ " ++ r.node.expression
      parseXorLoop fuel (.bin (genId r.ctr) .XOR left r.node e (max left.depth r.node.depth + 1))
        r.rest (r.ctr + 1) (fb || r.fb)
    else ⟨left, ts, ctr, fb⟩
  termination_by structural fuel => fuel

/-- The `parseOr` routine (`logic.ts` 926-938). -/
def parseOr : Nat → List Token → Nat → PRes
  | 0, ts, ctr => fuelOut ts ctr
  | fuel + 1, ts, ctr =>
    let r := parseAnd fuel ts ctr
    parseOrLoop fuel r.node r.rest r.ctr r.fb
  termination_by structural fuel => fuel

/-- The `while` loop of `parseOr`. -/
def parseOrLoop : Nat → ASTNode → List Token → Nat → Bool → PRes
  | 0, left, ts, ctr, _ => ⟨left, ts, ctr, true⟩
  | fuel + 1, left, ts, ctr, fb =>
    if (peekT ts).type = .OR then
      let r := parseAnd fuel (consumeT ts) ctr
      let e := left.expression ++ " ∨ " ++ r.node.expression
      parseOrLoop fuel (.bin (genId r.ctr) .OR left r.node e (max left.depth r.node.depth + 1))
        r.rest (r.ctr + 1) (fb || r.fb)
    else ⟨left, ts, ctr, fb⟩
  termination_by structural fuel => fuel

/-- The `parseAnd` routine (`logic.ts` 940-952). -/
def parseAnd : Nat → List Token → Nat → PRes
  | 0, ts, ctr => fuelOut ts ctr
  | fuel + 1, ts, ctr =>
    let r := parseNot fuel ts ctr
    parseAndLoop fuel r.node r.rest r.ctr r.fb
  termination_by structural fuel => fuel

/-- The `while` loop of `parseAnd`. -/
def parseAndLoop : Nat → ASTNode → List Token → Nat → Bool → PRes
  | 0, left, ts, ctr, _ => ⟨left, ts, ctr, true⟩
  | fuel + 1, left, ts, ctr, fb =>
    if (peekT ts).type = .AND then
      let r := parseNot fuel (consumeT ts) ctr
      let e := left.expression ++ " ∧ " ++ r.node.expression
      parseAndLoop fuel (.bin (genId r.ctr) .AND left r.node e (max left.depth r.node.depth + 1))
        r.rest (r.ctr + 1) (fb || r.fb)
    else ⟨left, ts, ctr, fb⟩
  termination_by structural fuel => fuel

/-- The `parseNot` routine (`logic.ts` 954-965): strict right recursion, the
expression string uses the exact consumed token value. -/
def parseNot : Nat → List Token → Nat → PRes
  | 0, ts, ctr => fuelOut ts ctr
  | fuel + 1, ts, ctr =>
    if (peekT ts).type = .NOT then
      let tok := peekT ts
      let r := parseNot fuel (consumeT ts) ctr
      ⟨.not (genId r.ctr) r.node (tok.value ++ r.node.expression) (r.node.depth + 1),
        r.rest, r.ctr + 1, r.fb⟩
    else parseFactor fuel ts ctr
  termination_by structural fuel => fuel

/-- The `parseFactor` routine (`logic.ts` 967-997), including the bracket
wrapping of the group's expression string and the defensive fallback that
consumes one token and synthesizes a `'?'` variable node. -/
def parseFactor : Nat → List Token → Nat → PRes
  | 0, ts, ctr => fuelOut ts ctr
  | fuel + 1, ts, ctr =>
    let token := peekT ts
    if isOpenTok token then
      let r := parseIFF fuel (consumeT ts) ctr
      let close := peekT r.rest
      let expectedClose : TokType :=
        if token.type = .LPAREN then .RPAREN
        else if token.type = .LBRACKET then .RBRACKET else .RBRACE
      let openChar : String :=
        if token.type = .LPAREN then "(" else if token.type = .LBRACKET then "[" else "\x7b"
      let closeChar : String :=
        if token.type = .LPAREN then ")" else if token.type = .LBRACKET then "]" else "\x7d"
      if close.type = expectedClose then
        ⟨r.node.setExpr (openChar ++ r.node.expression ++ closeChar), consumeT r.rest, r.ctr, r.fb⟩
      else
        ⟨.var (genId r.ctr) "?" "?" 0, consumeT r.rest, r.ctr + 1, true⟩
    else if token.type = .VAR then
      ⟨.var (genId ctr) token.value token.value 0, consumeT ts, ctr + 1, false⟩
    else
      ⟨.var (genId ctr) "?" "?" 0, consumeT ts, ctr + 1, true⟩
  termination_by structural fuel => fuel

end

/-- Fuel supplied to the parser: generous bound on the number of routine
invocations of a run over `ts` (each token funds at most the eight-routine
descent plus loop steps). -/
def parseFuel (ts : List Token) : Nat := 16 * (ts.length + 1)

/-- `new Parser(tokens).parse()`: run `parseIFF` from position 0 with a fresh
id counter (the trailing-token inspection in `parse` has an empty body and is
omitted; it does not modify the result). -/
def parseTokens (ts : List Token) : PRes := parseIFF (parseFuel ts) ts 0

/-- Association-list lookup in a string-keyed JavaScript record. -/
def rget (m : List (String × Bool)) (k : String) : Option Bool :=
  match m with
  | [] => none
  | (k', v) :: t => if k' = k then some v else rget t k

/-- Record assignment `o[k] = v`: update in place when present (keeping the
key's insertion position), append otherwise. -/
def rset (m : List (String × Bool)) (k : String) (v : Bool) : List (String × Bool) :=
  match m with
  | [] => [(k, v)]
  | (k', v') :: t => if k' = k then (k, v) :: t else (k', v') :: rset t k v

/-- `evaluateAST` (`logic.ts` 1001-1020): constants `1`/`0`, otherwise
`context[node.value] ?? false`; standard boolean semantics of the
connectives. -/
def evaluateAST : ASTNode → List (String × Bool) → Bool
  | .var _ v _ _, ctx =>
    if v = "1" then true
    else if v = "0" then false
    else (rget ctx v).getD false
  | .not _ o _ _, ctx => !evaluateAST o ctx
  | .bin _ k l r _ _, ctx =>
    let lv := evaluateAST l ctx
    let rv := evaluateAST r ctx
    match k with
    | .AND => lv && rv
    | .OR => lv || rv
    | .XOR => lv != rv
    | .IMPLIES => !lv || rv
    | .IFF => lv == rv

/-- Append `node` unless a node with the same `expression` is already listed
(the dedup step of `extractSubExpressions`). -/
def addIfNewExpr (list : List ASTNode) (node : ASTNode) : List ASTNode :=
  if list.any (fun n => n.expression = node.expression) then list else list ++ [node]

/-- `extractSubExpressions` (`logic.ts` 1022-1031): children first (left,
right, operand), then the node itself, deduplicated by expression string. -/
def extractSubExpressions : ASTNode → List ASTNode → List ASTNode
  | node@(.var _ _ _ _), list => addIfNewExpr list node
  | node@(.not _ o _ _), list => addIfNewExpr (extractSubExpressions o list) node
  | node@(.bin _ _ l r _ _), list =>
    addIfNewExpr (extractSubExpressions r (extractSubExpressions l list)) node

/-- `getDirectDependencies` (`logic.ts` 1033-1039). -/
def getDirectDependencies : ASTNode → List String
  | .var _ _ _ _ => []
  | .not _ o _ _ => [o.id]
  | .bin _ _ l r _ _ => [l.id, r.id]

/-- The `negationHandling` setting. -/
inductive NegationHandling where
  | preserve | normalize | simplify
deriving DecidableEq, Repr

/-- The `truthValues` display setting (`'0/1' | 'F/T'`). -/
inductive TruthValues where
  | zeroOne | ft
deriving DecidableEq, Repr

/-- The `rowOrder` setting: `asc` is `'0→1'`, `desc` is `'1→0'`. -/
inductive RowOrder where
  | asc | desc
deriving DecidableEq, Repr

/-- The `logic` part of `AppSettings`. -/
structure LogicSettings where
  negationHandling : NegationHandling
  truthValues : TruthValues
  rowOrder : RowOrder
deriving DecidableEq, Repr

/-- The `table` part of `AppSettings`. -/
structure TableSettings where
  stickyHeaders : Bool
  showSubExpressions : Bool
  highlightDependencies : Bool
  dense : Bool
deriving DecidableEq, Repr

/-- `AppSettings` of `types.ts`. -/
structure AppSettings where
  logic : LogicSettings
  table : TableSettings
deriving DecidableEq, Repr

/-- `DEFAULT_SETTINGS` of `types.ts` (note the default row order `'1→0'`). -/
def defaultSettings : AppSettings :=
  ⟨⟨.preserve, .zeroOne, .desc⟩, ⟨true, true, true, false⟩⟩

/-- The character replacement `expr.replace(/[-!~]/g, '¬')`. -/
def normalizeNegChars (s : List Char) : List Char :=
  s.map (fun c => if c = '-' ∨ c = '!' ∨ c = '~' then '¬' else c)

/-- One pass of `normalized.replace(/¬¬/g, '')`: removes non-overlapping
occurrences of `¬¬` left to right. -/
def removeDoubleNegOnce : List Char → List Char
  | '¬' :: '¬' :: t => removeDoubleNegOnce t
  | c :: t => c :: removeDoubleNegOnce t
  | [] => []

/-- The fixpoint loop of `formatLabel`'s simplify branch; each productive
iteration shortens the string, so fuel equal to the length suffices. -/
def removeDoubleNegLoop : Nat → List Char → List Char
  | 0, s => s
  | fuel + 1, s =>
    let s' := removeDoubleNegOnce s
    if s' = s then s else removeDoubleNegLoop fuel s'

/-- `formatLabel` (`logic.ts` 719-736). -/
def formatLabel (expr : String) (settings : AppSettings) : String :=
  match settings.logic.negationHandling with
  | .preserve => expr
  | .normalize => String.mk (normalizeNegChars expr.data)
  | .simplify =>
    let n := removeDoubleNegLoop expr.data.length (normalizeNegChars expr.data)
    if n = [] then "¬¬" else String.mk n

/-- `TableColumn` of `types.ts`. -/
structure TableColumn where
  id : String
  label : String
  expression : String
  isInput : Bool
  isOutput : Bool
  astId : Option String := none
  dependencyIds : Option (List String) := none
deriving DecidableEq, Repr

/-- `TruthTableRow` of `types.ts`; `values` is the row's string-keyed record. -/
structure TruthTableRow where
  id : String
  values : List (String × Bool)
  index : Nat
deriving DecidableEq, Repr

/-- `Classification` of `types.ts`. -/
inductive Classification where
  | Tautology | Contradiction | Contingency
deriving DecidableEq, Repr

/-- `ImplicationForms` of `types.ts`. -/
structure ImplicationForms where
  original : String
  converse : String
  inverse : String
  contrapositive : String
deriving DecidableEq, Repr

/-- `KMapCell` of `types.ts`. -/
structure KMapCell where
  value : Bool
  mintermIndex : Nat
deriving DecidableEq, Repr

/-- `KMapGroupCell` of `types.ts`. -/
structure KMapGroupCell where
  r : Nat
  c : Nat
deriving DecidableEq, Repr

/-- `KMapGroup` of `types.ts`. -/
structure KMapGroup where
  cells : List KMapGroupCell
  color : String
  term : String
deriving DecidableEq, Repr

/-- `KMapData` of `types.ts` (the `variables` field keeps its source name via
a guillemet identifier, since `variables` is reserved in Lean). -/
structure KMapData where
  grid : List (List KMapCell)
  rowLabels : List String
  colLabels : List String
  «variables» : List String
  groups : List KMapGroup
  minimizedExpression : String
deriving DecidableEq, Repr

/-- `RightAwayResult` of `types.ts`. -/
structure RightAwayResult where
  isApplicable : Bool
  «variable» : Option String := none
  resultValue : Option Bool := none
  explanation : Option String := none
deriving DecidableEq, Repr

/-- `ComplexityMetrics` of `types.ts`. -/
structure ComplexityMetrics where
  operators : Nat
  depth : Nat
  totalRows : Nat
deriving DecidableEq, Repr

/-- `SimplificationStep` of `types.ts`. -/
structure SimplificationStep where
  expression : String
  rule : String
deriving DecidableEq, Repr

/-- `STTTProofType` of `types.ts`. -/
inductive STTTProofType where
  | Tautology | Contradiction | Contingency | Implication | Equivalence
deriving DecidableEq, Repr

/-- `STTTStep` of `types.ts`. -/
structure STTTStep where
  id : String
  description : String
  targetNodeExpression : String
  value : Bool
  reason : String
deriving DecidableEq, Repr

/-- `STTTContradiction` of `types.ts`. -/
structure STTTContradiction where
  «variable» : String
  val1 : Bool
  val2 : Bool
deriving DecidableEq, Repr

/-- Branch status of a tableau branch. -/
inductive BranchStatus where
  | Open | Closed | Complete
deriving DecidableEq, Repr

/-- `STTTBranch` of `types.ts`.  The `children` array only ever holds zero or
exactly two branches in the source (`createChildBranch` starts with `[]`, and
both `solveBranch` and `generateEquivalenceReport` assign a two-element
array), so a branch is either childless (`mk0`, children `[]`) or has exactly
two children (`mk2`). -/
inductive STTTBranch where
  | mk0 (id : String) (parentId : Option String) (steps : List STTTStep)
      (assignments : List (String × Bool)) (status : BranchStatus)
      (contradiction : Option STTTContradiction)
  | mk2 (id : String) (parentId : Option String) (steps : List STTTStep)
      (assignments : List (String × Bool)) (status : BranchStatus)
      (child1 child2 : STTTBranch)
      (contradiction : Option STTTContradiction)
deriving DecidableEq, Repr

/-- The `id` field of a branch. -/
def STTTBranch.id : STTTBranch → String
  | .mk0 i _ _ _ _ _ => i
  | .mk2 i _ _ _ _ _ _ _ => i

/-- The `parentId` field of a branch. -/
def STTTBranch.parentId : STTTBranch → Option String
  | .mk0 _ p _ _ _ _ => p
  | .mk2 _ p _ _ _ _ _ _ => p

/-- The `steps` field of a branch. -/
def STTTBranch.steps : STTTBranch → List STTTStep
  | .mk0 _ _ s _ _ _ => s
  | .mk2 _ _ s _ _ _ _ _ => s

/-- The `assignments` field of a branch. -/
def STTTBranch.assignments : STTTBranch → List (String × Bool)
  | .mk0 _ _ _ a _ _ => a
  | .mk2 _ _ _ a _ _ _ _ => a

/-- The `status` field of a branch. -/
def STTTBranch.status : STTTBranch → BranchStatus
  | .mk0 _ _ _ _ st _ => st
  | .mk2 _ _ _ _ st _ _ _ => st

/-- The `children` field of a branch, as an optional pair. -/
def STTTBranch.children : STTTBranch → Option (STTTBranch × STTTBranch)
  | .mk0 _ _ _ _ _ _ => none
  | .mk2 _ _ _ _ _ c1 c2 _ => some (c1, c2)

/-- The `contradiction` field of a branch. -/
def STTTBranch.contradiction : STTTBranch → Option STTTContradiction
  | .mk0 _ _ _ _ _ c => c
  | .mk2 _ _ _ _ _ _ _ c => c

/-- Mutation `branch.status = st`. -/
def STTTBranch.setStatus : STTTBranch → BranchStatus → STTTBranch
  | .mk0 i p s a _ c, st => .mk0 i p s a st c
  | .mk2 i p s a _ c1 c2 c, st => .mk2 i p s a st c1 c2 c

/-- Mutation `branch.assignments = m`. -/
def STTTBranch.setAssignments : STTTBranch → List (String × Bool) → STTTBranch
  | .mk0 i p s _ st c, a => .mk0 i p s a st c
  | .mk2 i p s _ st c1 c2 c, a => .mk2 i p s a st c1 c2 c

/-- Mutation `branch.steps.push(step)`. -/
def STTTBranch.pushStep : STTTBranch → STTTStep → STTTBranch
  | .mk0 i p s a st c, step => .mk0 i p (s ++ [step]) a st c
  | .mk2 i p s a st c1 c2 c, step => .mk2 i p (s ++ [step]) a st c1 c2 c

/-- Mutation `branch.contradiction = x`. -/
def STTTBranch.setContra : STTTBranch → STTTContradiction → STTTBranch
  | .mk0 i p s a st _, x => .mk0 i p s a st (some x)
  | .mk2 i p s a st c1 c2 _, x => .mk2 i p s a st c1 c2 (some x)

/-- Mutation `branch.children = [b1, b2]`. -/
def STTTBranch.setChildren : STTTBranch → STTTBranch → STTTBranch → STTTBranch
  | .mk0 i p s a st c, b1, b2 => .mk2 i p s a st b1 b2 c
  | .mk2 i p s a st _ _ c, b1, b2 => .mk2 i p s a st b1 b2 c

/-- Tableau proof outcome. -/
inductive ProofResult where
  | Proven | Disproven
deriving DecidableEq, Repr

/-- `STTTReport` of `types.ts`; `initialAssumptions` entries are
`(expr, val)` pairs. -/
structure STTTReport where
  target : STTTProofType
  rootBranch : STTTBranch
  result : ProofResult
  counterExample : Option (List (String × Bool)) := none
  textSummary : String
  proofTitle : String
  initialAssumptions : List (String × Bool)
deriving DecidableEq, Repr

/-- `AnalysisResult` of `types.ts` (the fields the engine populates). -/
structure AnalysisResult where
  ast : ASTNode
  columns : List TableColumn
  rows : List TruthTableRow
  «variables» : List String
  classification : Classification
  mainConnective : String
  implicationForms : Option ImplicationForms := none
  kMapData : Option KMapData := none
  rightAway : Option RightAwayResult := none
  complexity : ComplexityMetrics
  simplificationSteps : List SimplificationStep := []
  sttt : Option STTTReport := none
deriving DecidableEq, Repr

/-- The TypeScript `node.type` string of a node (`'VAR'` or the operator). -/
def ASTNode.typeName : ASTNode → String
  | .var _ _ _ _ => "VAR"
  | .not _ _ _ _ => "NOT"
  | .bin _ .AND _ _ _ _ => "AND"
  | .bin _ .OR _ _ _ _ => "OR"
  | .bin _ .XOR _ _ _ _ => "XOR"
  | .bin _ .IMPLIES _ _ _ _ => "IMPLIES"
  | .bin _ .IFF _ _ _ _ => "IFF"

/-- Is the node a `VAR` node? -/
def ASTNode.isVarCtor : ASTNode → Bool
  | .var _ _ _ _ => true
  | _ => false

/-- Lexicographic comparison of character lists (the default JavaScript
string `sort()` order, code-unit-wise). -/
def charListLt : List Char → List Char → Bool
  | [], [] => false
  | [], _ :: _ => true
  | _ :: _, [] => false
  | a :: as, b :: bs => if a < b then true else if b < a then false else charListLt as bs

/-- Insertion step of a lexicographic ascending string sort
(`Array.from(set).sort()`). -/
def strSortInsert (x : String) : List String → List String
  | [] => [x]
  | y :: t => if charListLt x.data y.data then x :: y :: t else y :: strSortInsert x t

/-- Lexicographic ascending sort of strings. -/
def sortStrings (l : List String) : List String :=
  l.foldl (fun acc x => strSortInsert x acc) []

/-- `extractVariablesFromExpression` (`logic.ts` 1163-1170): the `VAR` token
values other than the constants, first-occurrence deduplicated, sorted. -/
def extractVariablesFromExpression (expression : String) : List String :=
  let tokens := tokenize expression
  let vars := tokens.foldl
    (fun acc t =>
      if t.type = .VAR ∧ t.value ≠ "0" ∧ t.value ≠ "1" ∧ ¬ acc.contains t.value then
        acc ++ [t.value]
      else acc) []
  sortStrings vars

/-- `slice(1, -1)` of the outermost parentheses (the `clean` helper of
`generateImplicationForms`). -/
def cleanParens (s : String) : String :=
  if s.data.head? = some '(' ∧ s.data.getLast? = some ')' then
    String.mk ((s.data.drop 1).dropLast)
  else s

/-- `generateImplicationForms` (`logic.ts` 1311-1319). -/
def generateImplicationForms (node : ASTNode) : Option ImplicationForms :=
  match node with
  | .bin _ .IMPLIES l r _ _ =>
    let P := l.expression
    let Q := r.expression
    let pClean := cleanParens P
    let qClean := cleanParens Q
    some ⟨P ++ " → " ++ Q, Q ++ " → " ++ P,
      "¬(" ++ pClean ++ ") → ¬(" ++ qClean ++ ")",
      "¬(" ++ qClean ++ ") → ¬(" ++ pClean ++ ")"⟩
  | _ => none

/-- `countOperators` inside `analyzeLogic` (`logic.ts` 1242-1249). -/
def countOperators : ASTNode → Nat
  | .var _ _ _ _ => 0
  | .not _ o _ _ => 1 + countOperators o
  | .bin _ _ l r _ _ => 1 + countOperators l + countOperators r

/-- The `areNegations` helper of the RightAway analysis (`logic.ts`
1258-1262). -/
def areNegations (n1 n2 : ASTNode) : Bool :=
  (match n1 with
   | .not _ o _ _ => o.expression = n2.expression
   | _ => false) ||
  (match n2 with
   | .not _ o _ _ => o.expression = n1.expression
   | _ => false)

/-- The RightAway analysis of `analyzeLogic` (`logic.ts` 1257-1270). -/
def rightAwayOf (ast : ASTNode) : Option RightAwayResult :=
  match ast with
  | .bin _ .OR l r _ _ =>
    if areNegations l r then
      some { isApplicable := true, resultValue := some true,
             explanation := some "Excluded Middle Law (A ∨ ¬A) is always True." }
    else none
  | .bin _ .AND l r _ _ =>
    if areNegations l r then
      some { isApplicable := true, resultValue := some false,
             explanation := some "Contradiction Law (A ∧ ¬A) is always False." }
    else none
  | .bin _ .IMPLIES l r _ _ =>
    if l.expression = r.expression then
      some { isApplicable := true, resultValue := some true,
             explanation := some "Self-implication (A → A) is always True." }
    else none
  | _ => none

/-- Add to a `Set<number>` modelled as an insertion-ordered duplicate-free
list. -/
def natSetAdd (l : List Nat) (x : Nat) : List Nat :=
  if l.contains x then l else l ++ [x]

/-- Lookup in a `Map<number, boolean>` modelled as an association list. -/
def natMapGet (m : List (Nat × Bool)) (k : Nat) : Option Bool :=
  match m with
  | [] => none
  | (k', v) :: t => if k' = k then some v else natMapGet t k

/-- `Map.set`: update in place when present, append otherwise. -/
def natMapSet (m : List (Nat × Bool)) (k : Nat) (v : Bool) : List (Nat × Bool) :=
  match m with
  | [] => [(k, v)]
  | (k', v') :: t => if k' = k then (k, v) :: t else (k', v') :: natMapSet t k v

/-- `getGrayCode` (`logic.ts` 1065-1069). -/
def getGrayCode (n : Nat) : List String :=
  if n = 1 then ["0", "1"]
  else if n = 2 then ["00", "01", "11", "10"]
  else []

/-- `parseInt(bits, 2)` for a binary digit string. -/
def parseBin (s : String) : Nat :=
  s.data.foldl (fun a c => a * 2 + (if c = '1' then 1 else 0)) 0

/-- Candidate rectangle dimensions of `solveKMap`. -/
structure KSize where
  h : Nat
  w : Nat
  area : Nat
deriving DecidableEq, Repr

/-- Fueled base-2 logarithm (`Nat.log2` made structurally recursive; fuel
equal to the argument suffices since the argument halves each step). -/
def log2F : Nat → Nat → Nat
  | 0, _ => 0
  | fuel + 1, n => if n ≥ 2 then log2F fuel (n / 2) + 1 else 0

/-- `Number.isInteger(Math.log2(n))` for a natural number: `n` is a positive
power of two. -/
def isIntLog2 (n : Nat) : Bool := n ≠ 0 ∧ 2 ^ log2F n n = n

/-- The size-candidate generation of `solveKMap` (`for h of [4,2,1] …`). -/
def kSizes (rows cols : Nat) : List KSize :=
  ([4, 2, 1] : List Nat).flatMap (fun h =>
    ([4, 2, 1] : List Nat).filterMap (fun w =>
      if h ≤ rows ∧ w ≤ cols ∧ isIntLog2 (h * w) then some ⟨h, w, h * w⟩ else none))

/-- Stable insertion (descending by area) for `sizes.sort((a, b) => b.area - a.area)`. -/
def insertByAreaDesc (x : KSize) : List KSize → List KSize
  | [] => [x]
  | y :: t => if y.area < x.area then x :: y :: t else y :: insertByAreaDesc x t

/-- Stable descending sort by area. -/
def sortSizes (l : List KSize) : List KSize :=
  l.foldl (fun acc x => insertByAreaDesc x acc) []

/-- `generateTerm` (`logic.ts` 1145-1159): the product term of the bit
positions that are constant across all minterms of a group. -/
def generateTerm (minterms : List Nat) (rowVars colVars : List String)
    (numRows numCols : Nat) : String :=
  let allVars := rowVars ++ colVars
  let totalBits := allVars.length
  let term := (List.range totalBits).foldl
    (fun term i =>
      match minterms.map (fun m => (m >>> (totalBits - 1 - i)) % 2) with
      | [] => term
      | b :: rest =>
        if rest.all (fun x => x = b) then
          term ++ (if b = 1 then allVars.getD i "" else "¬" ++ allVars.getD i "")
        else term) ""
  if term = "" then "1" else term

/-- The grid cell at `(r, c)` (`grid[rr][cc]`). -/
def cellAt (grid : List (List KMapCell)) (r c : Nat) : KMapCell :=
  (grid.getD r []).getD c ⟨false, 0⟩

/-- The fixed group color palette of `solveKMap`. -/
def kmapColors : List String :=
  ["bg-red-500/20 border-red-500", "bg-blue-500/20 border-blue-500",
   "bg-green-500/20 border-green-500", "bg-yellow-500/20 border-yellow-500",
   "bg-purple-500/20 border-purple-500", "bg-orange-500/20 border-orange-500"]

/-- One candidate placement of `solveKMap`'s inner loop: accept the
wraparound rectangle at `(r, c)` when all its cells are true and it covers a
new minterm. -/
def kmapPlace (grid : List (List KMapCell)) (rows cols : Nat)
    (rowVars colVars : List String) (rowGray colGray : List String) (size : KSize)
    (st : List KMapGroup × List Nat) (r c : Nat) : List KMapGroup × List Nat :=
  let (groups, covered) := st
  let positions := (List.range size.h).flatMap (fun i =>
    (List.range size.w).map (fun j => ((r + i) % rows, (c + j) % cols)))
  let allOnes := positions.all (fun p => (cellAt grid p.1 p.2).value)
  if allOnes then
    let currentMinterms := positions.foldl
      (fun acc p => natSetAdd acc (cellAt grid p.1 p.2).mintermIndex) []
    let coversNew := currentMinterms.any (fun m => ¬ covered.contains m)
    if coversNew then
      let term := generateTerm currentMinterms rowVars colVars rowGray.length colGray.length
      let cells := positions.map (fun p => (⟨p.1, p.2⟩ : KMapGroupCell))
      (groups ++ [⟨cells, kmapColors.getD (groups.length % kmapColors.length) "", term⟩],
       currentMinterms.foldl natSetAdd covered)
    else st
  else st

/-- `solveKMap` (`logic.ts` 1105-1143): greedy covering by decreasing
rectangle area over all wraparound placements. -/
def solveKMap (grid : List (List KMapCell)) (onMinterms : List Nat)
    (rowVars colVars : List String) (rowGray colGray : List String) :
    List KMapGroup × String :=
  let rows := grid.length
  let cols := (grid.headD []).length
  let sizes := sortSizes (kSizes rows cols)
  let (groups, _) := sizes.foldl
    (fun st size =>
      (List.range rows).foldl
        (fun st r =>
          (List.range cols).foldl
            (fun st c => kmapPlace grid rows cols rowVars colVars rowGray colGray size st r c)
            st)
        st)
    ([], onMinterms.filter (fun _ => false))
  (groups, String.intercalate " ∨ " (groups.map (·.term)))

/-- `generateKMap` (`logic.ts` 1071-1103). -/
def generateKMap (vars : List String) (rows : List TruthTableRow) : Option KMapData :=
  let numVars := vars.length
  if numVars < 2 ∨ 4 < numVars then none
  else
    let rowVars := if numVars = 4 then vars.take 2 else vars.take 1
    let colVars := if numVars = 4 then vars.drop 2 else vars.drop 1
    let rowGray := getGrayCode rowVars.length
    let colGray := getGrayCode colVars.length
    let st := rows.foldl
      (fun st row =>
        let mm := st.1
        let on2 := st.2
        let minterm := (vars.enum).foldl
          (fun acc iv =>
            if (rget row.values iv.2).getD false then
              acc ||| (1 <<< (vars.length - 1 - iv.1))
            else acc) 0
        let resultVal := ((row.values.getLast?).map (·.2)).getD false
        (natMapSet mm minterm resultVal, if resultVal then natSetAdd on2 minterm else on2))
      ([], [])
    let mintermMap := st.1
    let onMinterms := st.2
    let grid := (List.range rowGray.length).map (fun r =>
      (List.range colGray.length).map (fun c =>
        let mi := parseBin ((rowGray.getD r "") ++ (colGray.getD c ""))
        ⟨(natMapGet mintermMap mi).getD false, mi⟩))
    let gm := solveKMap grid onMinterms rowVars colVars rowGray colGray
    some { grid := grid, rowLabels := rowGray, colLabels := colGray,
           «variables» := vars, groups := gm.1,
           minimizedExpression :=
             if gm.2 = "" then (if onMinterms.length = 0 then "0" else "1") else gm.2 }

/-- The per-row variable context of `analyzeLogic`'s row loop:
`context[v] = ((valIndex >> (n - 1 - idx)) & 1) === 1`. -/
def buildContext (declaredVariables : List String) (valIndex : Nat) : List (String × Bool) :=
  (declaredVariables.enum).foldl
    (fun ctx iv =>
      rset ctx iv.2 ((valIndex >>> (declaredVariables.length - 1 - iv.1)) % 2 = 1))
    []

/-- The per-row column evaluation of `analyzeLogic` (`logic.ts` 1221-1228). -/
def computeRowValues (finalColumns : List TableColumn) (subExprNodes : List ASTNode)
    (ast : ASTNode) (context : List (String × Bool)) : List (String × Bool) :=
  finalColumns.foldl
    (fun acc col =>
      if col.isInput then rset acc col.expression ((rget context col.expression).getD false)
      else
        match subExprNodes.find? (fun n => some n.id = col.astId) with
        | some node => rset acc col.expression (evaluateAST node context)
        | none =>
          if col.isOutput then rset acc col.expression (evaluateAST ast context) else acc)
    []

/-- The row loop of `analyzeLogic` (`logic.ts` 1212-1232), returning the rows
and the `tautology` / `contradiction` flags. -/
def buildRowsLoop (numRows : Nat) (settings : AppSettings) (declaredVariables : List String)
    (finalColumns : List TableColumn) (subExprNodes : List ASTNode) (ast : ASTNode) :
    List TruthTableRow × Bool × Bool :=
  (List.range numRows).foldl
    (fun st i =>
      let (rows, tautology, contradiction) := st
      let valIndex := if settings.logic.rowOrder = .desc then numRows - 1 - i else i
      let context := buildContext declaredVariables valIndex
      let rowValues := computeRowValues finalColumns subExprNodes ast context
      let finalResult := (rget rowValues ast.expression).getD false
      (rows ++ [⟨"row-" ++ toString i, rowValues, i⟩],
       if finalResult then tautology else false,
       if finalResult then false else contradiction))
    ([], true, true)

/-- `analyzeLogic` (`logic.ts` 1184-1287); a thrown `Error` is an
`Except.error` carrying the message. -/
def analyzeLogic (expression : String) (declaredVariables : List String)
    (settings : AppSettings) : Except String AnalysisResult :=
  let tokens := tokenize expression
  match validateSyntax tokens with
  | some e => .error e
  | none =>
    let ast := (parseTokens tokens).node
    let usedVariables := extractVariablesFromExpression expression
    let undeclared := usedVariables.filter (fun v => ¬ declaredVariables.contains v)
    if undeclared.length > 0 then
      .error ("Variable" ++ (if undeclared.length > 1 then "s" else "") ++ " "
        ++ String.intercalate ", " undeclared ++ " used but not declared.")
    else
      let subExprNodes := extractSubExpressions ast []
      let varColumns : List TableColumn :=
        declaredVariables.map (fun v => ⟨"var-" ++ v, v, v, true, false, none, none⟩)
      let stepColumns : List TableColumn :=
        (subExprNodes.filter (fun n => ¬ n.isVarCtor ∧ n.expression ≠ ast.expression)).map
          (fun n => ⟨n.id, formatLabel n.expression settings, n.expression, false, false,
            some n.id, some (getDirectDependencies n)⟩)
      let resultColumn : TableColumn :=
        ⟨ast.id, formatLabel ast.expression settings, ast.expression, false, true,
          some ast.id, some (getDirectDependencies ast)⟩
      let finalColumns :=
        if settings.table.showSubExpressions then varColumns ++ stepColumns ++ [resultColumn]
        else varColumns ++ [resultColumn]
      let numRows := 2 ^ declaredVariables.length
      let rtc := buildRowsLoop numRows settings declaredVariables finalColumns subExprNodes ast
      let rows := rtc.1
      let tautology := rtc.2.1
      let contradiction := rtc.2.2
      let classification : Classification :=
        if contradiction then .Contradiction
        else if tautology then .Tautology
        else .Contingency
      let forms := generateImplicationForms ast
      let kMapData := generateKMap declaredVariables rows
      .ok { ast := ast, columns := finalColumns, rows := rows,
            «variables» := declaredVariables, classification := classification,
            mainConnective := ast.typeName,
            implicationForms := forms.map (fun f =>
              ⟨formatLabel f.original settings, formatLabel f.converse settings,
               formatLabel f.inverse settings, formatLabel f.contrapositive settings⟩),
            kMapData := kMapData,
            rightAway := rightAwayOf ast,
            complexity := ⟨countOperators ast, ast.depth, rows.length⟩,
            simplificationSteps := [], sttt := none }

/-- `reanalyzeFromRows` (`logic.ts` 1289-1309). -/
def reanalyzeFromRows (current : AnalysisResult) (updatedRows : List TruthTableRow)
    (settings : AppSettings) : AnalysisResult :=
  let resultExpr := current.ast.expression
  let tc := updatedRows.foldl
    (fun tc row =>
      let val := (rget row.values resultExpr).getD false
      (if val then tc.1 else false, if val then false else tc.2))
    (true, true)
  let classification : Classification :=
    if tc.2 then .Contradiction
    else if tc.1 then .Tautology
    else .Contingency
  let kMapData := generateKMap current.«variables» updatedRows
  { current with rows := updatedRows, classification := classification, kMapData := kMapData }

/-- Size of an AST (number of nodes), the termination measure of the tableau
obligation queue. -/
def astSize : ASTNode → Nat
  | .var _ _ _ _ => 1
  | .not _ o _ _ => 1 + astSize o
  | .bin _ _ l r _ _ => 1 + astSize l + astSize r

/-- Total AST size of an obligation queue (`ProcessingNode[]`). -/
def qsize (q : List (ASTNode × Bool)) : Nat := (q.map (fun p => astSize p.1)).sum

/-- `ImplicationResult` of `sttt.ts`. -/
inductive ImplicationResult where
  | deterministic (nodes : List (ASTNode × Bool))
  | branching (b1 b2 : List (ASTNode × Bool))
deriving DecidableEq, Repr

/-- `getImplications` (`sttt.ts` 335-410). -/
def getImplications (node : ASTNode) (val : Bool) : ImplicationResult :=
  match node with
  | .var _ _ _ _ => .deterministic []
  | .not _ o _ _ => .deterministic [(o, !val)]
  | .bin _ k L R _ _ =>
    match k with
    | .AND =>
      if val then .deterministic [(L, true), (R, true)]
      else .branching [(L, false)] [(R, false)]
    | .OR =>
      if val = false then .deterministic [(L, false), (R, false)]
      else .branching [(L, true)] [(R, true)]
    | .IMPLIES =>
      if val = false then .deterministic [(L, true), (R, false)]
      else .branching [(L, false)] [(R, true)]
    | .IFF =>
      if val then .branching [(L, true), (R, true)] [(L, false), (R, false)]
      else .branching [(L, true), (R, false)] [(L, false), (R, true)]
    | .XOR =>
      if val = false then .branching [(L, true), (R, true)] [(L, false), (R, false)]
      else .branching [(L, true), (R, false)] [(L, false), (R, true)]

/-- `createChildBranch` (`sttt.ts` 316-329), with the `crypto.randomUUID()`
source modelled as a stream `u : Nat → String` read at an explicit cursor;
returns the branch together with the advanced cursor. -/
def createChildBranch (u : Nat → String) (c : Nat) (parent : STTTBranch) (label : String) :
    STTTBranch × Nat :=
  (.mk0 (u c) (some parent.id)
    [⟨u (c + 1), "Subcase: " ++ label, "Branch", false, "Branch"⟩]
    parent.assignments .Open none, c + 2)

/-- `solveBranch` (`sttt.ts` 223-314): the core recursive tableau solver.
The `while` loop and the recursive branching calls are one fueled recursion;
each loop step removes at least one AST node from the obligation queue, so
`qsize queue + 1` fuel suffices (`solveBranch_status_terminal` below relies
on exactly this bound).  Out of fuel, the branch is returned unchanged. -/
def solveBranch (u : Nat → String) :
    Nat → STTTBranch → List (ASTNode × Bool) → List String → Nat → STTTBranch × Nat
  | 0, branch, _, _, c => (branch, c)
  | fuel + 1, branch, queue, allVars, c =>
    match queue with
    | [] => (branch.setStatus .Complete, c)
    | (ast, targetValue) :: rest =>
      match rget branch.assignments ast.id with
      | some v =>
        if v ≠ targetValue then
          let b := (branch.setStatus .Closed).setContra ⟨ast.expression, v, targetValue⟩
          let b := b.pushStep ⟨u c,
            "Contradiction! " ++ ast.expression ++ " was " ++ (if v then "True" else "False")
              ++ ", but now forced to " ++ (if targetValue then "True" else "False") ++ ".",
            ast.expression, targetValue, "Forced"⟩
          (b, c + 1)
        else solveBranch u fuel branch rest allVars c
      | none =>
        let branch := branch.setAssignments (rset branch.assignments ast.id targetValue)
        let sc :=
          if branch.steps.length > 0 ∨ branch.id ≠ "root" then
            (branch.pushStep ⟨u c,
              "Force " ++ ast.expression ++ " = " ++ (if targetValue then "True" else "False"),
              ast.expression, targetValue, "Forced"⟩, c + 1)
          else (branch, c)
        let branch := sc.1
        let c := sc.2
        match getImplications ast targetValue with
        | .deterministic nodes => solveBranch u fuel branch (rest ++ nodes) allVars c
        | .branching b1 b2 =>
          let branch := branch.pushStep ⟨u c,
            "Branching required for " ++ ast.expression ++ " = "
              ++ (if targetValue then "True" else "False"),
            ast.expression, targetValue, "Branch"⟩
          let c := c + 1
          let ch1 := createChildBranch u c branch "Case 1"
          let r1 := solveBranch u fuel ch1.1 (rest ++ b1) allVars ch1.2
          let ch2 := createChildBranch u r1.2 branch "Case 2"
          let r2 := solveBranch u fuel ch2.1 (rest ++ b2) allVars ch2.2
          let status : BranchStatus :=
            if r1.1.status = .Closed ∧ r2.1.status = .Closed then .Closed else .Complete
          (((branch.setChildren r1.1 r2.1).setStatus status), r2.2)
  termination_by structural fuel => fuel

/-- `checkBranchClosure` (`sttt.ts` 199-206). -/
def checkBranchClosure : STTTBranch → Bool
  | .mk0 _ _ _ _ st _ =>
    if st = .Closed then true else false
  | .mk2 _ _ _ _ st c1 c2 _ =>
    if st = .Closed then true
    else if st = .Complete then false
    else checkBranchClosure c1 && checkBranchClosure c2

/-- `findCounterExample` (`sttt.ts` 208-219): the assignments of the first
`Complete` branch in preorder. -/
def findCounterExample : STTTBranch → List String → Option (List (String × Bool))
  | .mk0 _ _ _ a st _, _ => if st = .Complete then some a else none
  | .mk2 _ _ _ a st c1 c2 _, allVars =>
    if st = .Complete then some a
    else
      match findCounterExample c1 allVars with
      | some x => some x
      | none => findCounterExample c2 allVars

/-- The display string of a proof target (the value of the TypeScript union
`STTTProofType`, interpolated into the summaries). -/
def STTTProofType.str : STTTProofType → String
  | .Tautology => "Tautology"
  | .Contradiction => "Contradiction"
  | .Contingency => "Contingency"
  | .Implication => "Implication"
  | .Equivalence => "Equivalence"

/-- The fresh root branch of a proof attempt. -/
def rootBranch0 : STTTBranch := .mk0 "root" none [] [] .Open none

/-- `generateEquivalenceReport` (`sttt.ts` 150-196); the cursor of the UUID
stream is threaded through both child solves. -/
def generateEquivalenceReport (u : Nat → String) (ast L R : ASTNode)
    («variables» : List String) (c : Nat) : STTTReport × Nat :=
  let root : STTTBranch := .mk0 "root" none
    [⟨"init-split", "To disprove Equivalence, we test both cases where sides differ.",
      ast.expression, false, "Assumption"⟩] [] .Open none
  let q1 : List (ASTNode × Bool) := [(L, true), (R, false)]
  let ch1 := createChildBranch u c root (L.expression ++ "=T, " ++ R.expression ++ "=F")
  let r1 := solveBranch u (qsize q1 + 1) ch1.1 q1 «variables» ch1.2
  let q2 : List (ASTNode × Bool) := [(L, false), (R, true)]
  let ch2 := createChildBranch u r1.2 root (L.expression ++ "=F, " ++ R.expression ++ "=T")
  let r2 := solveBranch u (qsize q2 + 1) ch2.1 q2 «variables» ch2.2
  let root := root.setChildren r1.1 r2.1
  let isProven := checkBranchClosure root
  ({ target := .Equivalence, rootBranch := root,
     result := if isProven then .Proven else .Disproven,
     counterExample := none,
     textSummary :=
       if isProven then
         "Both scenarios of differing values led to contradictions. Therefore, LHS ⇔ RHS."
       else "Found a case where LHS ≠ RHS. Therefore, they are NOT equivalent.",
     proofTitle := "Prove Tautological Equivalence",
     initialAssumptions := [(ast.expression, false)] }, r2.2)

/-- The body of `generateSTTTReport` (`sttt.ts` 19-101) for the four
non-`Contingency` targets: initial assumption setup (with the fallback to a
Tautology attempt for an `Implication` target on a non-implication root or an
`Equivalence` target on a non-biconditional root), root solve, closure check
and counter-example extraction. -/
def sttReportBase (u : Nat → String) (ast : ASTNode) («variables» : List String)
    (target : STTTProofType) (c : Nat) : STTTReport × Nat :=
  match target, ast with
  | .Equivalence, .bin _ .IFF L R _ _ => generateEquivalenceReport u ast L R «variables» c
  | _, _ =>
    let setup : List (ASTNode × Bool) × List (String × Bool) × String × STTTProofType :=
      match target, ast with
      | .Tautology, _ =>
        ([(ast, false)], [(ast.expression, false)], "Prove Tautology", .Tautology)
      | .Contradiction, _ =>
        ([(ast, true)], [(ast.expression, true)], "Prove Absurdity (Contradiction)",
          .Contradiction)
      | .Implication, .bin _ .IMPLIES L R _ _ =>
        ([(L, true), (R, false)], [(L.expression, true), (R.expression, false)],
          "Prove Argument Validity (T.I.)", .Implication)
      | .Implication, _ =>
        ([(ast, false)], [], "Prove Tautology (Fallback)", .Tautology)
      | _, _ =>
        ([(ast, false)], [], "Prove Tautology (Fallback)", .Tautology)
    let rootQueue := setup.1
    let initialAssumptions := setup.2.1
    let proofTitle := setup.2.2.1
    let effTarget := setup.2.2.2
    let r := solveBranch u (qsize rootQueue + 1) rootBranch0 rootQueue «variables» c
    let isProven := checkBranchClosure r.1
    let counterExample :=
      if isProven then none else findCounterExample r.1 «variables»
    ({ target := effTarget, rootBranch := r.1,
       result := if isProven then .Proven else .Disproven,
       counterExample := counterExample,
       textSummary :=
         if isProven then
           "All branches led to contradictions. The statement IS a " ++ effTarget.str ++ "."
         else
           "Found a consistent assignment (Counter-example). The statement is NOT a "
             ++ effTarget.str ++ ".",
       proofTitle := proofTitle,
       initialAssumptions := initialAssumptions }, r.2)

/-- `generateContingencyReport` (`sttt.ts` 103-148): a Tautology attempt, a
Contradiction attempt, and the combination of their outcomes. -/
def generateContingencyReport (u : Nat → String) (ast : ASTNode)
    («variables» : List String) (c : Nat) : STTTReport × Nat :=
  let t := sttReportBase u ast «variables» .Tautology c
  if t.1.result = .Proven then
    ({ target := .Contingency, rootBranch := t.1.rootBranch, result := .Disproven,
       counterExample := none,
       textSummary :=
         "The statement is a Tautology (Always True), therefore it is NOT a Contingency.",
       proofTitle := "Check Contingency",
       initialAssumptions := [(ast.expression, false)] }, t.2)
  else
    let cr := sttReportBase u ast «variables» .Contradiction t.2
    if cr.1.result = .Proven then
      ({ target := .Contingency, rootBranch := cr.1.rootBranch, result := .Disproven,
         counterExample := none,
         textSummary :=
           "The statement is a Contradiction (Always False), therefore it is NOT a Contingency.",
         proofTitle := "Check Contingency",
         initialAssumptions := [(ast.expression, true)] }, cr.2)
    else
      ({ target := .Contingency, rootBranch := t.1.rootBranch, result := .Proven,
         counterExample := none,
         textSummary := "Found cases for both True and False values. The statement IS a Contingency.",
         proofTitle := "Check Contingency",
         initialAssumptions := [(ast.expression, false)] }, cr.2)

/-- `generateSTTTReport` (`sttt.ts` 19-101): dispatch on the proof target. -/
def generateSTTTReport (u : Nat → String) (ast : ASTNode) («variables» : List String)
    (target : STTTProofType) (c : Nat) : STTTReport × Nat :=
  if target = .Contingency then generateContingencyReport u ast «variables» c
  else sttReportBase u ast «variables» target c

/-- A concrete UUID stream standing for one run of `crypto.randomUUID()`
draws. -/
def uuidStreamA (n : Nat) : String := "uuid-a-" ++ toString n

/-- A second, different concrete UUID stream. -/
def uuidStreamB (n : Nat) : String := "uuid-b-" ++ toString n

/-! ### Derived notions used by the claim statements -/

/-- The minterm index of a truth-table row: the binary value of its variable
assignment with the first declared variable as most significant bit.  This is
literally the computation `generateKMap` performs on each row
(`minterm |= 1 << (variables.length - 1 - i)`). -/
def rowMinterm (vars : List String) (row : TruthTableRow) : Nat :=
  (vars.enum).foldl
    (fun acc iv =>
      if (rget row.values iv.2).getD false then acc ||| (1 <<< (vars.length - 1 - iv.1))
      else acc) 0

/-- All minterm indices covered by the groups of a K-Map, in first-cover
order without duplicates. -/
def groupMinterms (k : KMapData) : List Nat :=
  k.groups.foldl
    (fun acc g =>
      g.cells.foldl (fun acc cc => natSetAdd acc (cellAt k.grid cc.r cc.c).mintermIndex) acc)
    []

/-- The minterm indices of the truth-table rows whose output-column value is
true (the set the K-Map coverage claim is about). -/
def outputTrueMinterms (r : AnalysisResult) : List Nat :=
  r.rows.foldl
    (fun acc row =>
      if (rget row.values r.ast.expression).getD false then
        natSetAdd acc (rowMinterm r.«variables» row)
      else acc) []

/-- The row-index claim of the specification as a boolean checker: every row's
`index` field equals the binary value of the row's assignment. -/
def rowIndexMatchesAssignment (expression : String) (vars : List String)
    (settings : AppSettings) : Bool :=
  match analyzeLogic expression vars settings with
  | .ok r => r.rows.all (fun row => row.index = rowMinterm vars row)
  | .error _ => true

/-- All subtrees of an AST in preorder (the node itself first).  Derived
notion used to reason about `extractSubExpressions` and id freshness. -/
def subtreeNodes : ASTNode → List ASTNode
  | n@(.var _ _ _ _) => [n]
  | n@(.not _ o _ _) => n :: subtreeNodes o
  | n@(.bin _ _ l r _ _) => n :: (subtreeNodes l ++ subtreeNodes r)

/-- The ids of all subtrees of an AST, in preorder. -/
def nodeIds (n : ASTNode) : List String := (subtreeNodes n).map ASTNode.id

/-- All subtree ids of `n` are generator ids `genId k` with `a ≤ k < b`, and
they are pairwise distinct: the discipline `Parser.generateId` guarantees. -/
def IdFresh (n : ASTNode) (a b : Nat) : Prop :=
  (∀ s ∈ nodeIds n, ∃ k, a ≤ k ∧ k < b ∧ s = genId k) ∧ (nodeIds n).Nodup

/-- The exact text contribution of one consumed token to the `expression`
string built by the `Parser` routines: binary connectives contribute the
space-padded canonical symbol (`parseX` writes the literal), a `NOT` token
contributes its own `value` (`parseNot` writes `token.value`), brackets
contribute the open/close character `parseFactor` selects from the token
type, and a variable contributes its `value`. -/
def renderTok (t : Token) : String :=
  match t.type with
  | .AND => " ∧ "
  | .OR => " ∨ "
  | .XOR => " ⊕ "
  | .IMPLIES => " → "
  | .IFF => " ↔ "
  | .LPAREN => "("
  | .RPAREN => ")"
  | .LBRACKET => "["
  | .RBRACKET => "]"
  | .LBRACE => "\x7b"
  | .RBRACE => "\x7d"
  | .NOT => t.value
  | .VAR => t.value
  | .EOF => ""

/-- Concatenated text contribution of a consumed token list. -/
def renderToks (ts : List Token) : String :=
  match ts with
  | [] => ""
  | t :: ts => renderTok t ++ renderToks ts

/-- A token as `tokenize` actually produces it: the `value` carries the
canonical connective symbol / bracket character determined by the type
(`tokenize` pushes `OPS[key]`, never the matched key itself), and a variable
carries one uppercase letter or constant digit. -/
def CanonTok (t : Token) : Prop :=
  (t.type = .NOT ∧ t.value = "¬") ∨
  (t.type = .AND ∧ t.value = "∧") ∨
  (t.type = .OR ∧ t.value = "∨") ∨
  (t.type = .IMPLIES ∧ t.value = "→") ∨
  (t.type = .IFF ∧ t.value = "↔") ∨
  (t.type = .XOR ∧ t.value = "⊕") ∨
  (t.type = .LPAREN ∧ t.value = "(") ∨
  (t.type = .RPAREN ∧ t.value = ")") ∨
  (t.type = .LBRACKET ∧ t.value = "[") ∨
  (t.type = .RBRACKET ∧ t.value = "]") ∨
  (t.type = .LBRACE ∧ t.value = "\x7b") ∨
  (t.type = .RBRACE ∧ t.value = "\x7d") ∨
  (t.type = .VAR ∧ t.value.length = 1 ∧
    t.value.data.all (fun c => isUpperAZ c || c = '1' || c = '0') = true)

/-- The characters of the canonical values of a token list, concatenated:
what tokenizing re-reads after whitespace removal. -/
def flatChars (ts : List Token) : List Char :=
  match ts with
  | [] => []
  | t :: ts => t.value.data ++ flatChars ts

/-- No two adjacent tokens are both variable-like (the configuration the
validator's `Missing operator` check rejects). -/
def noAdjVar : List Token → Prop
  | a :: b :: t => ¬(isVarTok a = true ∧ isVarTok b = true) ∧ noAdjVar (b :: t)
  | _ => True

/-- The `valIndex` computed for displayed row `i` by the row loop of
`analyzeLogic`: the row position itself under `'0→1'`, the mirrored position
under `'1→0'`. -/
def valIndexOf (st : AppSettings) (numRows i : Nat) : Nat :=
  if st.logic.rowOrder = .desc then numRows - 1 - i else i

/-- The values record built for displayed row `i` by the row loop. -/
def rowValuesAt (st : AppSettings) (numRows : Nat) (vars : List String)
    (cols : List TableColumn) (subs : List ASTNode) (ast : ASTNode) (i : Nat) :
    List (String × Bool) :=
  computeRowValues cols subs ast (buildContext vars (valIndexOf st numRows i))

/-- The `finalResult` the row loop reads back for displayed row `i`. -/
def rowOutAt (st : AppSettings) (numRows : Nat) (vars : List String)
    (cols : List TableColumn) (subs : List ASTNode) (ast : ASTNode) (i : Nat) : Bool :=
  (rget (rowValuesAt st numRows vars cols subs ast i) ast.expression).getD false

/-- A vacuous analysis record, used only as the (never reached) default when
projecting a concrete successful `analyzeLogic` run in witnesses. -/
def fallbackAnalysis : AnalysisResult :=
  ⟨.var "" "" "" 0, [], [], [], .Contingency, "", none, none, none, ⟨0, 0, 0⟩, [], none⟩

/-- The concrete analysis of `P` over variables `[P]` with the default
settings (row order `1→0`). -/
def c4res : AnalysisResult :=
  (analyzeLogic "P" ["P"] defaultSettings).toOption.getD fallbackAnalysis

/-- The concrete analysis of `A ∧ B` over `[A, B]` with default settings. -/
def c3res : AnalysisResult :=
  (analyzeLogic "A ∧ B" ["A", "B"] defaultSettings).toOption.getD fallbackAnalysis

/-- Erase the randomly generated id of a proof step. -/
def eraseStep (s : STTTStep) : STTTStep :=
  { s with id := "" }

/-- Erase the randomly generated branch ids, parent ids and step ids of a
branch tree, keeping every logical datum (steps' text and values,
assignments, status, contradiction, tree shape). -/
def eraseBranch : STTTBranch → STTTBranch
  | .mk0 _ _ steps a st x => .mk0 "" none (steps.map eraseStep) a st x
  | .mk2 _ _ steps a st c1 c2 x =>
    .mk2 "" none (steps.map eraseStep) a st (eraseBranch c1) (eraseBranch c2) x

/-- Erase the randomly generated ids of a tableau report. -/
def eraseReport (rep : STTTReport) : STTTReport :=
  { rep with rootBranch := eraseBranch rep.rootBranch }

/-! ### C10: `reanalyzeFromRows` on an empty row list -/

/-- C10: `reanalyzeFromRows` called with an empty replacement row list
returns classification `Contradiction`: with zero rows both the
all-rows-true and all-rows-false flags hold vacuously, and the
`Contradiction` assignment is applied after the `Tautology` one, so it
wins. -/
theorem reanalyzeFromRows_empty_rows_contradiction
    (current : AnalysisResult) (settings : AppSettings) :
    (reanalyzeFromRows current [] settings).classification = .Contradiction := rfl

/-! ### C7: undeclared variables fail fast -/

/-- C7: whenever the formula passes the syntax validator but references
variables missing from the declared list, `analyzeLogic` fails with the
diagnostic naming exactly the undeclared variables, and returns no analysis
result at all (the error is the entire outcome, so no truth-table, K-Map or
tableau data can be observed). -/
theorem analyzeLogic_undeclared_fails (expression : String)
    (declaredVariables : List String) (settings : AppSettings)
    (hval : validateSyntax (tokenize expression) = none)
    (hund : (extractVariablesFromExpression expression).filter
      (fun v => ¬ declaredVariables.contains v) ≠ []) :
    analyzeLogic expression declaredVariables settings =
      .error ("Variable"
        ++ (if ((extractVariablesFromExpression expression).filter
              (fun v => ¬ declaredVariables.contains v)).length > 1 then "s" else "")
        ++ " "
        ++ String.intercalate ", " ((extractVariablesFromExpression expression).filter
              (fun v => ¬ declaredVariables.contains v))
        ++ " used but not declared.") := by
  have hlen : ((extractVariablesFromExpression expression).filter
      (fun v => ¬ declaredVariables.contains v)).length > 0 :=
    List.length_pos.mpr hund
  simp only [analyzeLogic, hval, hlen, if_pos]

/-- Witness for C7 at the spec's concrete scenario: `A ∧ B` with declared
variables `[A]` fails naming `B`. -/
theorem analyzeLogic_undeclared_fails_witness :
    analyzeLogic "A ∧ B" ["A"] defaultSettings =
      .error "Variable B used but not declared." := by
  have h := analyzeLogic_undeclared_fails "A ∧ B" ["A"] defaultSettings (by rfl) (by decide)
  exact h.trans (by rfl)

/-! ### C2: the tableau on `P ∨ ¬P` -/

/-- C2 (code bug): the spec expects the Tautology tableau on `P ∨ ¬P` to
close the root branch and report `Proven`; the engine instead reports
`Disproven` with a `Complete` root and no contradiction record.  The tableau
keys forced values by AST node id (`branch.assignments[ast.id]`), and the
parser gives the two occurrences of `P` distinct ids (`node-0`, `node-1`), so
forcing `P = false` and later `P = true` lands on different keys and the
contradiction check never fires. -/
theorem sttt_excluded_middle_reports_disproven :
    (generateSTTTReport uuidStreamA (parseTokens (tokenize "P ∨ ¬P")).node ["P"]
        .Tautology 0).1.result = .Disproven ∧
    (generateSTTTReport uuidStreamA (parseTokens (tokenize "P ∨ ¬P")).node ["P"]
        .Tautology 0).1.rootBranch.status = .Complete ∧
    (generateSTTTReport uuidStreamA (parseTokens (tokenize "P ∨ ¬P")).node ["P"]
        .Tautology 0).1.rootBranch.contradiction = none := by
  refine ⟨rfl, rfl, rfl⟩

/-! ### C1: tableau soundness -/

/-- C1 (code bug): tableau soundness fails on `P ∨ ¬P` with target
Tautology.  The engine reports `Disproven`, and the returned counter-example
is keyed by AST node ids (`node-0`, …), not variable names; substituted into
the brute-force evaluator it makes the formula evaluate to `true` — not the
`false` that a Tautology disproof requires. -/
theorem sttt_counterexample_not_falsifying :
    (generateSTTTReport uuidStreamA (parseTokens (tokenize "P ∨ ¬P")).node ["P"]
        .Tautology 0).1.result = .Disproven ∧
    ((generateSTTTReport uuidStreamA (parseTokens (tokenize "P ∨ ¬P")).node ["P"]
        .Tautology 0).1.counterExample).map
      (fun ce => evaluateAST (parseTokens (tokenize "P ∨ ¬P")).node ce) = some true := by
  refine ⟨rfl, rfl⟩

/-! ### C5: K-Map coverage -/

/-- C5 (code bug): for expression `P` with declared variables `[P, Q]`, the
K-Map's groups cover exactly the minterms where `Q` is true (`{1, 3}`),
while the output column is true exactly on the minterms where `P` is true
(`{2, 3}`): a false minterm (1) is covered and a true minterm (2) is not.
`generateKMap` reads the row's output as the last entry of
`Object.values(row.values)`, but the result column's key `P` collides with
the input column `P` and keeps its original insertion position, so the last
entry is the input `Q` instead. -/
theorem kmap_coverage_collision_bug :
    (analyzeLogic "P" ["P", "Q"] defaultSettings).toOption.map
      (fun r => (r.kMapData.map groupMinterms, outputTrueMinterms r)) =
      some (some [1, 3], [3, 2]) := by
  rfl

/-! ### C4 (counterexample): the row index is the display position -/

/-- C4 counterexample: with the (default) row order `1→0`, formula `P` over
`[P]`, the first produced row has `index = 0` but assignment `P = true`
(binary value 1), so the index field does not equal the assignment's binary
value and does depend on the display order. -/
theorem rowIndex_claim_counterexample :
    rowIndexMatchesAssignment "P" ["P"] defaultSettings = false := rfl

/-! ### C6 (counterexample): semantic round-trip of the rendered expression -/

/-- C6 counterexample: the text `(P∨)Q∨R` is accepted by the syntax
validator; the parser's defensive fallback turns it into the AST
`? ∨ R` (expression `"? ∨ R"`), which evaluates to `R`.  Re-parsing the
rendered expression drops the `?` character during tokenization, and the
parser then collapses `∨ R` to the bare placeholder `?`, which always
evaluates to false — so under `R = true` the re-parsed tree evaluates
differently from the original. -/
theorem render_roundtrip_counterexample :
    validateSyntax (tokenize "(P∨)Q∨R") = none ∧
    evaluateAST
        (parseTokens (tokenize ((parseTokens (tokenize "(P∨)Q∨R")).node.expression))).node
        [("P", false), ("Q", false), ("R", true)] ≠
      evaluateAST (parseTokens (tokenize "(P∨)Q∨R")).node
        [("P", false), ("Q", false), ("R", true)] := by
  exact ⟨rfl, by decide⟩

/-! ### C9: `solveBranch` always returns a terminal status -/

/-- Every AST has at least one node. -/
theorem astSize_pos (n : ASTNode) : 1 ≤ astSize n := by
  cases n <;> simp only [astSize] <;> omega

/-- `qsize` distributes over cons. -/
theorem qsize_cons (a : ASTNode × Bool) (q : List (ASTNode × Bool)) :
    qsize (a :: q) = astSize a.1 + qsize q := by
  simp [qsize]

/-- `qsize` distributes over append. -/
theorem qsize_append (q1 q2 : List (ASTNode × Bool)) :
    qsize (q1 ++ q2) = qsize q1 + qsize q2 := by
  simp [qsize]

/-- Deterministic implications are strictly smaller than the node that
produced them. -/
theorem getImplications_det_qsize (ast : ASTNode) (tv : Bool) (ns : List (ASTNode × Bool))
    (h : getImplications ast tv = .deterministic ns) : qsize ns < astSize ast := by
  cases ast with
  | var i v e d =>
    simp [getImplications] at h; subst h
    simp only [qsize, List.map_nil, List.sum_nil, astSize]
    omega
  | not i o e d =>
    simp [getImplications] at h; subst h
    simp only [qsize, List.map_cons, List.map_nil, List.sum_cons, List.sum_nil, astSize]
    omega
  | bin i k l r e d =>
    cases k <;> cases tv <;> simp [getImplications] at h <;> try subst h
    all_goals
      simp only [qsize, List.map_cons, List.map_nil, List.sum_cons, List.sum_nil, astSize]
    all_goals omega

/-- Both branching alternatives are strictly smaller than the node that
produced them. -/
theorem getImplications_branch_qsize (ast : ASTNode) (tv : Bool)
    (b1 b2 : List (ASTNode × Bool))
    (h : getImplications ast tv = .branching b1 b2) :
    qsize b1 < astSize ast ∧ qsize b2 < astSize ast := by
  cases ast with
  | var i v e d => simp [getImplications] at h
  | not i o e d => simp [getImplications] at h
  | bin i k l r e d =>
    cases k <;> cases tv <;> simp [getImplications] at h <;>
      try (obtain ⟨h1, h2⟩ := h; subst h1; subst h2)
    all_goals refine ⟨?_, ?_⟩
    all_goals
      simp only [qsize, List.map_cons, List.map_nil, List.sum_cons, List.sum_nil, astSize]
    all_goals omega

/-- `setStatus` sets the status. -/
theorem status_setStatus (b : STTTBranch) (st : BranchStatus) :
    (b.setStatus st).status = st := by
  cases b <;> rfl

/-- `pushStep` keeps the status. -/
theorem status_pushStep (b : STTTBranch) (s : STTTStep) :
    (b.pushStep s).status = b.status := by
  cases b <;> rfl

/-- `setContra` keeps the status. -/
theorem status_setContra (b : STTTBranch) (x : STTTContradiction) :
    (b.setContra x).status = b.status := by
  cases b <;> rfl

/-- `setAssignments` keeps the status. -/
theorem status_setAssignments (b : STTTBranch) (a : List (String × Bool)) :
    (b.setAssignments a).status = b.status := by
  cases b <;> rfl

/-- `setChildren` keeps the status. -/
theorem status_setChildren (b c1 c2 : STTTBranch) :
    (b.setChildren c1 c2).status = b.status := by
  cases b <;> rfl

/-- An if-then-else between the two terminal statuses is terminal. -/
theorem ite_closed_or_complete (P : Prop) [Decidable P] :
    (if P then BranchStatus.Closed else .Complete) = .Closed ∨
      (if P then BranchStatus.Closed else .Complete) = .Complete := by
  by_cases h : P <;> simp [h]

/-- C9: every return path of the recursive solver yields a branch whose
status is `Closed` or `Complete`, never `Open` — contradiction found,
branching resolved, or obligation queue exhausted all set a terminal status.
The fuel hypothesis `qsize q < fuel` is exactly the bound under which the
engine invokes the solver (`generateSTTTReport` passes `qsize q + 1`). -/
theorem solveBranch_status_terminal (u : Nat → String) (fuel : Nat)
    (b : STTTBranch) (q : List (ASTNode × Bool)) (vars : List String) (c : Nat)
    (h : qsize q < fuel) :
    (solveBranch u fuel b q vars c).1.status = .Closed ∨
      (solveBranch u fuel b q vars c).1.status = .Complete := by
  induction fuel generalizing b q c with
  | zero => exact absurd h (Nat.not_lt_zero _)
  | succ fuel ih =>
    cases q with
    | nil =>
      right
      simp [solveBranch, status_setStatus]
    | cons head rest =>
      obtain ⟨ast, tv⟩ := head
      have h' : astSize ast + qsize rest < fuel + 1 := by
        have := qsize_cons (ast, tv) rest
        simp only [this] at h
        simpa using h
      have hsz := astSize_pos ast
      simp only [solveBranch]
      cases hg : rget b.assignments ast.id with
      | some v =>
        dsimp only
        by_cases hv : v = tv
        · rw [if_neg (not_not_intro hv)]
          exact ih b rest c (by omega)
        · rw [if_pos hv]
          left
          simp [status_pushStep, status_setContra, status_setStatus]
      | none =>
        cases hi : getImplications ast tv with
        | deterministic nodes =>
          have hlt := getImplications_det_qsize ast tv nodes hi
          exact ih _ (rest ++ nodes) _ (by rw [qsize_append]; omega)
        | branching b1 b2 =>
          simp only [status_setStatus]
          exact ite_closed_or_complete _

/-- Witness for C9: the solver on the single obligation `P = false` (queue
size 1 < fuel 2) ends `Complete`. -/
theorem solveBranch_status_terminal_witness :
    qsize [((parseTokens (tokenize "P")).node, false)] < 2 ∧
      ((solveBranch uuidStreamA 2 rootBranch0 [((parseTokens (tokenize "P")).node, false)]
          ["P"] 0).1.status = .Closed ∨
       (solveBranch uuidStreamA 2 rootBranch0 [((parseTokens (tokenize "P")).node, false)]
          ["P"] 0).1.status = .Complete) :=
  ⟨by decide, solveBranch_status_terminal uuidStreamA 2 rootBranch0 _ ["P"] 0 (by decide)⟩

/-! ### C8: determinism and statelessness of the public API -/

/-- Id erasure keeps the assignment map. -/
theorem assignments_eraseBranch (b : STTTBranch) :
    (eraseBranch b).assignments = b.assignments := by
  cases b <;> rfl

/-- Id erasure keeps the status. -/
theorem status_eraseBranch (b : STTTBranch) :
    (eraseBranch b).status = b.status := by
  cases b <;> rfl

/-- Id erasure keeps the number of steps. -/
theorem stepsLength_eraseBranch (b : STTTBranch) :
    (eraseBranch b).steps.length = b.steps.length := by
  cases b <;> simp [eraseBranch, STTTBranch.steps]

/-- Id erasure commutes with `setStatus`. -/
theorem eraseBranch_setStatus (b : STTTBranch) (st : BranchStatus) :
    eraseBranch (b.setStatus st) = (eraseBranch b).setStatus st := by
  cases b <;> rfl

/-- Id erasure commutes with `setAssignments`. -/
theorem eraseBranch_setAssignments (b : STTTBranch) (a : List (String × Bool)) :
    eraseBranch (b.setAssignments a) = (eraseBranch b).setAssignments a := by
  cases b <;> rfl

/-- Id erasure commutes with `setContra`. -/
theorem eraseBranch_setContra (b : STTTBranch) (x : STTTContradiction) :
    eraseBranch (b.setContra x) = (eraseBranch b).setContra x := by
  cases b <;> rfl

/-- Id erasure commutes with `pushStep`. -/
theorem eraseBranch_pushStep (b : STTTBranch) (st : STTTStep) :
    eraseBranch (b.pushStep st) = (eraseBranch b).pushStep (eraseStep st) := by
  cases b <;> simp [eraseBranch, STTTBranch.pushStep]

/-- Id erasure commutes with `setChildren`. -/
theorem eraseBranch_setChildren (b c1 c2 : STTTBranch) :
    eraseBranch (b.setChildren c1 c2) =
      (eraseBranch b).setChildren (eraseBranch c1) (eraseBranch c2) := by
  cases b <;> rfl

/-- The erased image of a fresh child branch depends only on the parent's
assignments and the label, not on the UUID source or cursor. -/
theorem eraseBranch_createChildBranch (u : Nat → String) (c : Nat)
    (parent : STTTBranch) (label : String) :
    eraseBranch (createChildBranch u c parent label).1 =
      .mk0 "" none [⟨"", "Subcase: " ++ label, "Branch", false, "Branch"⟩]
        parent.assignments .Open none := by
  rfl

/-- Branch closure depends only on the erased branch. -/
theorem checkBranchClosure_congr (b1 : STTTBranch) :
    ∀ b2, eraseBranch b1 = eraseBranch b2 → checkBranchClosure b1 = checkBranchClosure b2 := by
  induction b1 with
  | mk0 i p st a s x =>
    intro b2 h
    cases b2 with
    | mk0 i' p' st' a' s' x' =>
      simp [eraseBranch] at h
      obtain ⟨-, -, rfl, -⟩ := h
      rfl
    | mk2 => simp [eraseBranch] at h
  | mk2 i p st a s c1 c2 x ih1 ih2 =>
    intro b2 h
    cases b2 with
    | mk0 => simp [eraseBranch] at h
    | mk2 i' p' st' a' s' c1' c2' x' =>
      simp [eraseBranch] at h
      obtain ⟨-, -, hst, h1, h2, -⟩ := h
      subst hst
      simp [checkBranchClosure, ih1 c1' h1, ih2 c2' h2]

/-- Counter-example extraction depends only on the erased branch. -/
theorem findCounterExample_congr (b1 : STTTBranch) :
    ∀ b2 vars, eraseBranch b1 = eraseBranch b2 →
      findCounterExample b1 vars = findCounterExample b2 vars := by
  induction b1 with
  | mk0 i p st a s x =>
    intro b2 vars h
    cases b2 with
    | mk0 i' p' st' a' s' x' =>
      simp [eraseBranch] at h
      obtain ⟨-, rfl, rfl, -⟩ := h
      rfl
    | mk2 => simp [eraseBranch] at h
  | mk2 i p st a s c1 c2 x ih1 ih2 =>
    intro b2 vars h
    cases b2 with
    | mk0 => simp [eraseBranch] at h
    | mk2 i' p' st' a' s' c1' c2' x' =>
      simp [eraseBranch] at h
      obtain ⟨-, rfl, rfl, h1, h2, -⟩ := h
      simp [findCounterExample, ih1 c1' vars h1, ih2 c2' vars h2]

/-- `setAssignments` keeps the steps. -/
theorem steps_setAssignments (b : STTTBranch) (a : List (String × Bool)) :
    (b.setAssignments a).steps = b.steps := by
  cases b <;> rfl

/-- `setAssignments` keeps the id. -/
theorem id_setAssignments (b : STTTBranch) (a : List (String × Bool)) :
    (b.setAssignments a).id = b.id := by
  cases b <;> rfl

/-- `pushStep` appends one step. -/
theorem steps_pushStep (b : STTTBranch) (st : STTTStep) :
    (b.pushStep st).steps = b.steps ++ [st] := by
  cases b <;> rfl

/-- `pushStep` keeps the id. -/
theorem id_pushStep (b : STTTBranch) (st : STTTStep) :
    (b.pushStep st).id = b.id := by
  cases b <;> rfl

/-- `setAssignments` sets the assignments. -/
theorem assignments_setAssignments (b : STTTBranch) (a : List (String × Bool)) :
    (b.setAssignments a).assignments = a := by
  cases b <;> rfl

/-- Lockstep invariance of the solver: two runs over the same obligations
from branches equal up to id erasure (and agreeing on being the root when no
step has been logged yet) produce branches equal up to id erasure, whatever
the two UUID sources and cursors. -/
theorem solveBranch_erase_congr (fuel : Nat) :
    ∀ (u1 u2 : Nat → String) (b1 b2 : STTTBranch) (q : List (ASTNode × Bool))
      (vars : List String) (c1 c2 : Nat),
      eraseBranch b1 = eraseBranch b2 →
      (b1.steps.length = 0 → b1.id = "root" ∧ b2.id = "root") →
      eraseBranch (solveBranch u1 fuel b1 q vars c1).1 =
        eraseBranch (solveBranch u2 fuel b2 q vars c2).1 := by
  induction fuel with
  | zero => intro u1 u2 b1 b2 q vars c1 c2 hb h0; exact hb
  | succ fuel ih =>
    intro u1 u2 b1 b2 q vars c1 c2 hb h0
    have hassign : b1.assignments = b2.assignments := by
      have h := congrArg STTTBranch.assignments hb
      simpa [assignments_eraseBranch] using h
    have hlen : b1.steps.length = b2.steps.length := by
      have h := congrArg (fun b => b.steps.length) hb
      simpa [stepsLength_eraseBranch] using h
    cases q with
    | nil =>
      simp only [solveBranch, eraseBranch_setStatus, hb]
    | cons head rest =>
      obtain ⟨ast, tv⟩ := head
      simp only [solveBranch, ← hassign]
      cases hg : rget b1.assignments ast.id with
      | some v =>
        dsimp only
        by_cases hv : v = tv
        · rw [if_neg (not_not_intro hv), if_neg (not_not_intro hv)]
          exact ih u1 u2 b1 b2 rest vars c1 c2 hb h0
        · rw [if_pos hv, if_pos hv]
          simp only [eraseBranch_pushStep, eraseBranch_setContra, eraseBranch_setStatus, hb]
          rfl
      | none =>
        dsimp only
        have hstep : ∀ (B1 B2 : STTTBranch) (d1 d2 : Nat),
            eraseBranch B1 = eraseBranch B2 →
            (B1.steps.length = 0 → B1.id = "root" ∧ B2.id = "root") →
            eraseBranch
              (match getImplications ast tv with
               | .deterministic nodes => solveBranch u1 fuel B1 (rest ++ nodes) vars d1
               | .branching bq1 bq2 =>
                 let branch := B1.pushStep ⟨u1 d1,
                   "Branching required for " ++ ast.expression ++ " = "
                     ++ (if tv then "True" else "False"), ast.expression, tv, "Branch"⟩
                 let d := d1 + 1
                 let ch1 := createChildBranch u1 d branch "Case 1"
                 let r1 := solveBranch u1 fuel ch1.1 (rest ++ bq1) vars ch1.2
                 let ch2 := createChildBranch u1 r1.2 branch "Case 2"
                 let r2 := solveBranch u1 fuel ch2.1 (rest ++ bq2) vars ch2.2
                 let status : BranchStatus :=
                   if r1.1.status = BranchStatus.Closed ∧ r2.1.status = BranchStatus.Closed then
                     BranchStatus.Closed
                   else BranchStatus.Complete
                 (((branch.setChildren r1.1 r2.1).setStatus status), r2.2)).1 =
            eraseBranch
              (match getImplications ast tv with
               | .deterministic nodes => solveBranch u2 fuel B2 (rest ++ nodes) vars d2
               | .branching bq1 bq2 =>
                 let branch := B2.pushStep ⟨u2 d2,
                   "Branching required for " ++ ast.expression ++ " = "
                     ++ (if tv then "True" else "False"), ast.expression, tv, "Branch"⟩
                 let d := d2 + 1
                 let ch1 := createChildBranch u2 d branch "Case 1"
                 let r1 := solveBranch u2 fuel ch1.1 (rest ++ bq1) vars ch1.2
                 let ch2 := createChildBranch u2 r1.2 branch "Case 2"
                 let r2 := solveBranch u2 fuel ch2.1 (rest ++ bq2) vars ch2.2
                 let status : BranchStatus :=
                   if r1.1.status = BranchStatus.Closed ∧ r2.1.status = BranchStatus.Closed then
                     BranchStatus.Closed
                   else BranchStatus.Complete
                 (((branch.setChildren r1.1 r2.1).setStatus status), r2.2)).1 := by
          intro B1 B2 d1 d2 hB hB0
          cases hi : getImplications ast tv with
          | deterministic nodes =>
            exact ih u1 u2 B1 B2 (rest ++ nodes) vars d1 d2 hB hB0
          | branching bq1 bq2 =>
            dsimp only
            set P1 := B1.pushStep ⟨u1 d1,
              "Branching required for " ++ ast.expression ++ " = "
                ++ (if tv then "True" else "False"), ast.expression, tv, "Branch"⟩ with hP1
            set P2 := B2.pushStep ⟨u2 d2,
              "Branching required for " ++ ast.expression ++ " = "
                ++ (if tv then "True" else "False"), ast.expression, tv, "Branch"⟩ with hP2
            have hBB : eraseBranch P1 = eraseBranch P2 := by
              rw [hP1, hP2]
              simp only [eraseBranch_pushStep, hB]
              rfl
            have hBassign : P1.assignments = P2.assignments := by
              have h := congrArg STTTBranch.assignments hBB
              simpa [assignments_eraseBranch] using h
            have hchild : ∀ (cA cB : Nat) (lab : String) (qq : List (ASTNode × Bool)),
                eraseBranch (solveBranch u1 fuel (createChildBranch u1 cA P1 lab).1 qq vars
                    (createChildBranch u1 cA P1 lab).2).1 =
                  eraseBranch (solveBranch u2 fuel (createChildBranch u2 cB P2 lab).1 qq vars
                    (createChildBranch u2 cB P2 lab).2).1 := by
              intro cA cB lab qq
              apply ih
              · rw [eraseBranch_createChildBranch, eraseBranch_createChildBranch, hBassign]
              · intro hz
                simp [createChildBranch, STTTBranch.steps] at hz
            have hr1 := hchild (d1 + 1) (d2 + 1) "Case 1" (rest ++ bq1)
            have hst1 := congrArg STTTBranch.status hr1
            simp only [status_eraseBranch] at hst1
            have hr2 := hchild
              ((solveBranch u1 fuel (createChildBranch u1 (d1 + 1) P1 "Case 1").1
                (rest ++ bq1) vars (createChildBranch u1 (d1 + 1) P1 "Case 1").2).2)
              ((solveBranch u2 fuel (createChildBranch u2 (d2 + 1) P2 "Case 1").1
                (rest ++ bq1) vars (createChildBranch u2 (d2 + 1) P2 "Case 1").2).2)
              "Case 2" (rest ++ bq2)
            have hst2 := congrArg STTTBranch.status hr2
            simp only [status_eraseBranch] at hst2
            simp only [eraseBranch_setStatus, eraseBranch_setChildren, hBB, hr1, hr2, hst1, hst2]
        have hcond1 : ((b1.setAssignments (rset b1.assignments ast.id tv)).steps.length > 0 ∨
            (b1.setAssignments (rset b1.assignments ast.id tv)).id ≠ "root") ↔
            (b1.steps.length > 0 ∨ b1.id ≠ "root") := by
          rw [steps_setAssignments, id_setAssignments]
        have hcond2 : ((b2.setAssignments (rset b1.assignments ast.id tv)).steps.length > 0 ∨
            (b2.setAssignments (rset b1.assignments ast.id tv)).id ≠ "root") ↔
            (b2.steps.length > 0 ∨ b2.id ≠ "root") := by
          rw [steps_setAssignments, id_setAssignments]
        have hb' : eraseBranch (b1.setAssignments (rset b1.assignments ast.id tv)) =
            eraseBranch (b2.setAssignments (rset b1.assignments ast.id tv)) := by
          simp only [eraseBranch_setAssignments, hb]
        by_cases hc : b1.steps.length > 0 ∨ b1.id ≠ "root"
        · have hcR : b2.steps.length > 0 ∨ b2.id ≠ "root" := by
            by_cases hl : b1.steps.length > 0
            · exact Or.inl (hlen ▸ hl)
            · have h00 := h0 (by omega)
              rcases hc with hc | hc
              · exact absurd hc hl
              · exact absurd h00.1 hc
          rw [if_pos (hcond1.mpr hc), if_pos (hcond2.mpr hcR)]
          apply hstep
          · simp only [eraseBranch_pushStep, hb']
            rfl
          · intro hz
            rw [steps_pushStep] at hz
            simp at hz
        · have hcR : ¬ (b2.steps.length > 0 ∨ b2.id ≠ "root") := by
            intro hcc
            have hl1 : ¬ b1.steps.length > 0 := fun hl => hc (Or.inl hl)
            have h00 := h0 (by omega)
            rcases hcc with hcc | hcc
            · rw [← hlen] at hcc
              exact hl1 hcc
            · exact hcc h00.2
          rw [if_neg (fun hh => hc (hcond1.mp hh)), if_neg (fun hh => hcR (hcond2.mp hh))]
          apply hstep
          · exact hb'
          · intro hz
            rw [steps_setAssignments] at hz
            have h00 := h0 hz
            rw [id_setAssignments, id_setAssignments]
            exact h00

/-- Id erasure of a report keeps the `result`. -/
theorem result_eraseReport (rep : STTTReport) : (eraseReport rep).result = rep.result := rfl

/-- Id erasure of a report keeps the erased root branch. -/
theorem rootBranch_eraseReport (rep : STTTReport) :
    (eraseReport rep).rootBranch = eraseBranch rep.rootBranch := rfl

/-- Lockstep invariance of the report body for the non-`Contingency`
targets. -/
theorem sttReportBase_erase_congr (u1 u2 : Nat → String) (ast : ASTNode)
    (vars : List String) (target : STTTProofType) (c1 c2 : Nat) :
    eraseReport (sttReportBase u1 ast vars target c1).1 =
      eraseReport (sttReportBase u2 ast vars target c2).1 := by
  have hbody : ∀ (q : List (ASTNode × Bool)) (ia : List (String × Bool)) (pt : String)
      (eff : STTTProofType),
      eraseReport
        (let r := solveBranch u1 (qsize q + 1) rootBranch0 q vars c1
         let isProven := checkBranchClosure r.1
         ({ target := eff, rootBranch := r.1,
            result := if isProven then .Proven else .Disproven,
            counterExample := if isProven then none else findCounterExample r.1 vars,
            textSummary :=
              if isProven then
                "All branches led to contradictions. The statement IS a " ++ eff.str ++ "."
              else
                "Found a consistent assignment (Counter-example). The statement is NOT a "
                  ++ eff.str ++ ".",
            proofTitle := pt, initialAssumptions := ia } : STTTReport)) =
      eraseReport
        (let r := solveBranch u2 (qsize q + 1) rootBranch0 q vars c2
         let isProven := checkBranchClosure r.1
         ({ target := eff, rootBranch := r.1,
            result := if isProven then .Proven else .Disproven,
            counterExample := if isProven then none else findCounterExample r.1 vars,
            textSummary :=
              if isProven then
                "All branches led to contradictions. The statement IS a " ++ eff.str ++ "."
              else
                "Found a consistent assignment (Counter-example). The statement is NOT a "
                  ++ eff.str ++ ".",
            proofTitle := pt, initialAssumptions := ia } : STTTReport)) := by
    intro q ia pt eff
    have hr := solveBranch_erase_congr (qsize q + 1) u1 u2 rootBranch0 rootBranch0 q vars c1 c2
      rfl (fun _ => ⟨rfl, rfl⟩)
    have hclose := checkBranchClosure_congr _ _ hr
    have hfind := findCounterExample_congr _ _ vars hr
    simp only [eraseReport, hclose, hfind, hr]
  have heq : ∀ (L R : ASTNode),
      eraseReport (generateEquivalenceReport u1 ast L R vars c1).1 =
        eraseReport (generateEquivalenceReport u2 ast L R vars c2).1 := by
    intro L R
    simp only [generateEquivalenceReport]
    set root0 : STTTBranch := .mk0 "root" none
      [⟨"init-split", "To disprove Equivalence, we test both cases where sides differ.",
        ast.expression, false, "Assumption"⟩] [] .Open none with hroot0
    set lab1 := L.expression ++ "=T, " ++ R.expression ++ "=F" with hlab1
    set lab2 := L.expression ++ "=F, " ++ R.expression ++ "=T" with hlab2
    set q1 : List (ASTNode × Bool) := [(L, true), (R, false)] with hq1
    set q2 : List (ASTNode × Bool) := [(L, false), (R, true)] with hq2
    set ch1a := createChildBranch u1 c1 root0 lab1 with hch1a
    set ch1b := createChildBranch u2 c2 root0 lab1 with hch1b
    set rA := solveBranch u1 (qsize q1 + 1) ch1a.1 q1 vars ch1a.2 with hrA
    set rB := solveBranch u2 (qsize q1 + 1) ch1b.1 q1 vars ch1b.2 with hrB
    set ch2a := createChildBranch u1 rA.2 root0 lab2 with hch2a
    set ch2b := createChildBranch u2 rB.2 root0 lab2 with hch2b
    set sA := solveBranch u1 (qsize q2 + 1) ch2a.1 q2 vars ch2a.2 with hsA
    set sB := solveBranch u2 (qsize q2 + 1) ch2b.1 q2 vars ch2b.2 with hsB
    have hA : eraseBranch rA.1 = eraseBranch rB.1 := by
      rw [hrA, hrB]
      apply solveBranch_erase_congr
      · rw [hch1a, hch1b, eraseBranch_createChildBranch, eraseBranch_createChildBranch]
      · intro hz
        rw [hch1a, hch1b]
        refine ⟨?_, ?_⟩ <;> exfalso <;>
          simp [hch1a, createChildBranch, STTTBranch.steps] at hz
    have hB : eraseBranch sA.1 = eraseBranch sB.1 := by
      rw [hsA, hsB]
      apply solveBranch_erase_congr
      · rw [hch2a, hch2b, eraseBranch_createChildBranch, eraseBranch_createChildBranch]
      · intro hz
        rw [hch2a, hch2b]
        refine ⟨?_, ?_⟩ <;> exfalso <;>
          simp [hch2a, createChildBranch, STTTBranch.steps] at hz
    have hU : eraseBranch (root0.setChildren rA.1 sA.1) =
        eraseBranch (root0.setChildren rB.1 sB.1) := by
      simp only [eraseBranch_setChildren, hA, hB]
    have hclose := checkBranchClosure_congr _ _ hU
    simp only [eraseReport, hclose, hU]
  cases target with
  | Equivalence =>
    cases ast with
    | var i v e d => simp only [sttReportBase]; exact hbody _ _ _ _
    | not i o e d => simp only [sttReportBase]; exact hbody _ _ _ _
    | bin i k l r e d =>
      cases k with
      | IFF => simp only [sttReportBase]; exact heq l r
      | AND => simp only [sttReportBase]; exact hbody _ _ _ _
      | OR => simp only [sttReportBase]; exact hbody _ _ _ _
      | XOR => simp only [sttReportBase]; exact hbody _ _ _ _
      | IMPLIES => simp only [sttReportBase]; exact hbody _ _ _ _
  | Tautology => simp only [sttReportBase]; exact hbody _ _ _ _
  | Contradiction => simp only [sttReportBase]; exact hbody _ _ _ _
  | Contingency => simp only [sttReportBase]; exact hbody _ _ _ _
  | Implication =>
    cases ast with
    | var i v e d => simp only [sttReportBase]; exact hbody _ _ _ _
    | not i o e d => simp only [sttReportBase]; exact hbody _ _ _ _
    | bin i k l r e d =>
      cases k <;> simp only [sttReportBase] <;> exact hbody _ _ _ _

/-- C8 (amended): the tableau engine's output is a function of the formula,
declared variables and proof target alone, up to the step/branch ids drawn
from the `crypto.randomUUID()` source: erasing those ids, two runs with any
two UUID sources and cursors coincide.  (All other public entry points are
modelled as pure functions of their inputs, and the engine keeps no
process-wide mutable state.) -/
theorem generateSTTTReport_deterministic_up_to_ids (u1 u2 : Nat → String)
    (ast : ASTNode) (vars : List String) (target : STTTProofType) (c1 c2 : Nat) :
    eraseReport (generateSTTTReport u1 ast vars target c1).1 =
      eraseReport (generateSTTTReport u2 ast vars target c2).1 := by
  have hcont : eraseReport (generateContingencyReport u1 ast vars c1).1 =
      eraseReport (generateContingencyReport u2 ast vars c2).1 := by
    have ht := sttReportBase_erase_congr u1 u2 ast vars .Tautology c1 c2
    have htres : (sttReportBase u1 ast vars .Tautology c1).1.result =
        (sttReportBase u2 ast vars .Tautology c2).1.result := by
      have h := congrArg STTTReport.result ht
      simpa [result_eraseReport] using h
    have htroot : eraseBranch (sttReportBase u1 ast vars .Tautology c1).1.rootBranch =
        eraseBranch (sttReportBase u2 ast vars .Tautology c2).1.rootBranch := by
      have h := congrArg STTTReport.rootBranch ht
      simpa [rootBranch_eraseReport] using h
    have hc := sttReportBase_erase_congr u1 u2 ast vars .Contradiction
      (sttReportBase u1 ast vars .Tautology c1).2 (sttReportBase u2 ast vars .Tautology c2).2
    have hcres : (sttReportBase u1 ast vars .Contradiction
        (sttReportBase u1 ast vars .Tautology c1).2).1.result =
        (sttReportBase u2 ast vars .Contradiction
        (sttReportBase u2 ast vars .Tautology c2).2).1.result := by
      have h := congrArg STTTReport.result hc
      simpa [result_eraseReport] using h
    have hcroot : eraseBranch (sttReportBase u1 ast vars .Contradiction
        (sttReportBase u1 ast vars .Tautology c1).2).1.rootBranch =
        eraseBranch (sttReportBase u2 ast vars .Contradiction
        (sttReportBase u2 ast vars .Tautology c2).2).1.rootBranch := by
      have h := congrArg STTTReport.rootBranch hc
      simpa [rootBranch_eraseReport] using h
    simp only [generateContingencyReport, ← htres, ← hcres]
    by_cases h1 : (sttReportBase u1 ast vars .Tautology c1).1.result = ProofResult.Proven
    · simp only [if_pos h1]
      simp only [eraseReport, htroot]
    · simp only [if_neg h1]
      by_cases h2 : (sttReportBase u1 ast vars .Contradiction
          (sttReportBase u1 ast vars .Tautology c1).2).1.result = ProofResult.Proven
      · simp only [if_pos h2]
        simp only [eraseReport, hcroot]
      · simp only [if_neg h2]
        simp only [eraseReport, htroot]
  by_cases ht : target = .Contingency
  · simp only [generateSTTTReport, ht, if_pos]
    exact hcont
  · simp only [generateSTTTReport, ht, if_neg]
    exact sttReportBase_erase_congr u1 u2 ast vars target c1 c2

/-- C8 (counterexample): the tableau solver's full output is not a function
of the logical inputs alone — two runs on `P ∧ Q` with different
`crypto.randomUUID()` draws produce different reports (the step ids differ),
so two equal-input calls of the real engine return unequal outputs. -/
theorem generateSTTTReport_depends_on_uuid_source :
    (generateSTTTReport uuidStreamA (parseTokens (tokenize "P ∧ Q")).node ["P", "Q"]
        .Tautology 0).1 ≠
      (generateSTTTReport uuidStreamB (parseTokens (tokenize "P ∧ Q")).node ["P", "Q"]
        .Tautology 0).1 := by
  intro h
  have h2 := congrArg (fun rep : STTTReport => rep.rootBranch.steps.map STTTStep.id) h
  exact absurd h2 (by decide)

/-! ### Decimal numerals and parser ids are injective -/

theorem digitChar_inj10 :
    ∀ a, a < 10 → ∀ b, b < 10 → Nat.digitChar a = Nat.digitChar b → a = b := by decide

theorem map_digitChar_inj : ∀ l1 l2 : List Nat, (∀ x ∈ l1, x < 10) → (∀ x ∈ l2, x < 10) →
    l1.map Nat.digitChar = l2.map Nat.digitChar → l1 = l2 := by
  intro l1
  induction l1 with
  | nil =>
    intro l2 _ _ h
    cases l2 with
    | nil => rfl
    | cons b t => simp at h
  | cons a t ih =>
    intro l2 h1 h2 h
    cases l2 with
    | nil => simp at h
    | cons b t2 =>
      simp only [List.map_cons, List.cons.injEq] at h
      have ha : a = b := digitChar_inj10 a (h1 a (by simp)) b (h2 b (by simp)) h.1
      have ht := ih t2 (fun x hx => h1 x (by simp [hx])) (fun x hx => h2 x (by simp [hx])) h.2
      rw [ha, ht]

theorem toDigitsCore_eq_digits (f : Nat) : ∀ (n : Nat) (acc : List Char), 0 < n → n < 10 ^ f →
    Nat.toDigitsCore 10 f n acc = ((Nat.digits 10 n).map Nat.digitChar).reverse ++ acc := by
  induction f with
  | zero =>
    intro n acc hn hf
    simp at hf
    omega
  | succ f ih =>
    intro n acc hn hf
    by_cases hd : n / 10 = 0
    · rw [Nat.digits_def' (by norm_num : (1:Nat) < 10) hn, hd]
      simp [Nat.toDigitsCore, hd]
    · rw [show Nat.toDigitsCore 10 (f+1) n acc
          = Nat.toDigitsCore 10 f (n/10) (Nat.digitChar (n % 10) :: acc) by
        simp [Nat.toDigitsCore, hd]]
      have hnd : n / 10 < 10 ^ f := by
        refine (Nat.div_lt_iff_lt_mul (by norm_num)).mpr ?_
        calc n < 10 ^ (f + 1) := hf
        _ = 10 ^ f * 10 := pow_succ 10 f
      rw [ih (n/10) _ (Nat.pos_of_ne_zero hd) hnd]
      rw [Nat.digits_def' (by norm_num : (1:Nat) < 10) hn]
      simp

theorem repr_eq_of_pos (n : Nat) (hn : 0 < n) :
    Nat.repr n = List.asString (((Nat.digits 10 n).map Nat.digitChar).reverse) := by
  have hlt : n < 10 ^ (n + 1) :=
    lt_of_lt_of_le (Nat.lt_pow_self (by norm_num) n)
      (Nat.pow_le_pow_right (by norm_num) (Nat.le_succ n))
  show List.asString (Nat.toDigitsCore 10 (n+1) n []) = _
  rw [toDigitsCore_eq_digits (n+1) n [] hn hlt]
  simp

theorem digits_eq_of_map_eq {a b : Nat}
    (h : (Nat.digits 10 a).map Nat.digitChar = (Nat.digits 10 b).map Nat.digitChar) :
    a = b := by
  have hd := map_digitChar_inj (Nat.digits 10 a) (Nat.digits 10 b)
    (fun x hx => Nat.digits_lt_base (by norm_num) hx)
    (fun x hx => Nat.digits_lt_base (by norm_num) hx) h
  calc a = Nat.ofDigits 10 (Nat.digits 10 a) := (Nat.ofDigits_digits 10 a).symm
  _ = Nat.ofDigits 10 (Nat.digits 10 b) := by rw [hd]
  _ = b := Nat.ofDigits_digits 10 b

theorem nat_repr_injective : ∀ a b : Nat, Nat.repr a = Nat.repr b → a = b := by
  have key : ∀ b : Nat, 0 < b → Nat.repr b = "0" → False := by
    intro b hb h
    have h2 := congrArg String.data h
    rw [repr_eq_of_pos b hb] at h2
    have h3 : ((Nat.digits 10 b).map Nat.digitChar).reverse = ['0'] := h2
    have h4 : (Nat.digits 10 b).map Nat.digitChar = ['0'] := by
      have := congrArg List.reverse h3
      simpa using this
    have h5 : Nat.digits 10 b = [0] :=
      map_digitChar_inj (Nat.digits 10 b) [0]
        (fun x hx => Nat.digits_lt_base (by norm_num) hx)
        (by simp) (by simpa using h4)
    have h6 : b = 0 := by
      have := Nat.ofDigits_digits 10 b
      rw [h5] at this
      simpa [Nat.ofDigits] using this.symm
    omega
  intro a b h
  rcases Nat.eq_zero_or_pos a with ha | ha
  · rcases Nat.eq_zero_or_pos b with hb | hb
    · omega
    · subst ha
      exact (key b hb h.symm).elim
  · rcases Nat.eq_zero_or_pos b with hb | hb
    · subst hb
      exact (key a ha h).elim
    · have h2 := congrArg String.data h
      rw [repr_eq_of_pos a ha, repr_eq_of_pos b hb] at h2
      have h3 : ((Nat.digits 10 a).map Nat.digitChar).reverse
          = ((Nat.digits 10 b).map Nat.digitChar).reverse := h2
      exact digits_eq_of_map_eq (List.reverse_injective h3)

theorem genId_injective : ∀ a b : Nat, genId a = genId b → a = b := by
  intro a b h
  apply nat_repr_injective
  have h2 := congrArg String.data h
  simp only [genId] at h2
  rw [String.data_append, String.data_append] at h2
  have h3 := List.append_cancel_left h2
  show Nat.repr a = Nat.repr b
  have : (Nat.repr a).data = (Nat.repr b).data := h3
  cases hra : Nat.repr a with
  | mk da =>
    cases hrb : Nat.repr b with
    | mk db =>
      rw [hra, hrb] at this
      simp at this
      rw [this]

theorem genId_ne {a b : Nat} (h : a ≠ b) : genId a ≠ genId b :=
  fun he => h (genId_injective a b he)

/-! ### Closed form of the truth-table row loop -/

theorem rget_rset_self (m : List (String × Bool)) (k : String) (v : Bool) :
    rget (rset m k v) k = some v := by
  induction m with
  | nil => simp [rset, rget]
  | cons p t ih =>
    obtain ⟨k', v'⟩ := p
    by_cases h : k' = k
    · simp [rset, rget, h]
    · simp [rset, rget, h, ih]

theorem buildRowsLoop_spec (numRows : Nat) (stg : AppSettings) (vars : List String)
    (cols : List TableColumn) (subs : List ASTNode) (ast : ASTNode) :
    buildRowsLoop numRows stg vars cols subs ast =
      ((List.range numRows).map (fun i =>
          ⟨"row-" ++ toString i, rowValuesAt stg numRows vars cols subs ast i, i⟩),
       (List.range numRows).all (fun i => rowOutAt stg numRows vars cols subs ast i),
       (List.range numRows).all (fun i => !rowOutAt stg numRows vars cols subs ast i)) := by
  have key : ∀ (n : Nat) (rows0 : List TruthTableRow) (t0 c0 : Bool),
      (List.range n).foldl
        (fun st i =>
          let (rows, tautology, contradiction) := st
          let valIndex := if stg.logic.rowOrder = .desc then numRows - 1 - i else i
          let context := buildContext vars valIndex
          let rowValues := computeRowValues cols subs ast context
          let finalResult := (rget rowValues ast.expression).getD false
          (rows ++ [⟨"row-" ++ toString i, rowValues, i⟩],
           if finalResult then tautology else false,
           if finalResult then false else contradiction))
        (rows0, t0, c0) =
        (rows0 ++ (List.range n).map (fun i =>
            ⟨"row-" ++ toString i, rowValuesAt stg numRows vars cols subs ast i, i⟩),
         t0 && (List.range n).all (fun i => rowOutAt stg numRows vars cols subs ast i),
         c0 && (List.range n).all (fun i => !rowOutAt stg numRows vars cols subs ast i)) := by
    intro n
    induction n with
    | zero => intro rows0 t0 c0; simp
    | succ n ih =>
      intro rows0 t0 c0
      rw [List.range_succ, List.foldl_append, ih]
      simp only [List.foldl_cons, List.foldl_nil, List.map_append, List.all_append,
        List.map_cons, List.map_nil, List.all_cons, List.all_nil]
      have hv : computeRowValues cols subs ast (buildContext vars
          (if stg.logic.rowOrder = .desc then numRows - 1 - n else n)) =
          rowValuesAt stg numRows vars cols subs ast n := rfl
      have ho : (rget (rowValuesAt stg numRows vars cols subs ast n) ast.expression).getD false =
          rowOutAt stg numRows vars cols subs ast n := rfl
      rw [hv, ho]
      cases hout : rowOutAt stg numRows vars cols subs ast n <;>
        simp [hout, Bool.and_assoc]
  have h2 := key numRows [] true true
  unfold buildRowsLoop
  rw [h2]
  simp

theorem computeRowValues_result_lookup (cs : List TableColumn) (c : TableColumn)
    (subs : List ASTNode) (ast : ASTNode) (ctx : List (String × Bool))
    (hin : c.isInput = false) (hout : c.isOutput = true)
    (hexp : c.expression = ast.expression) (hast : c.astId = some ast.id) :
    rget (computeRowValues (cs ++ [c]) subs ast ctx) ast.expression =
      some (match subs.find? (fun n => some n.id = some ast.id) with
            | some nd => evaluateAST nd ctx
            | none => evaluateAST ast ctx) := by
  unfold computeRowValues
  rw [List.foldl_append]
  simp only [List.foldl_cons, List.foldl_nil, hin, hast, hexp, Bool.false_eq_true, if_false]
  cases hf : subs.find? (fun n => some n.id = some ast.id) with
  | none => simp [hf, hout, rget_rset_self]
  | some nd => simp [hf, rget_rset_self]


/-! ### Shape of a successful `analyzeLogic` run -/

theorem cols_split (b : Bool) (vc sc : List TableColumn) (rc : TableColumn) :
    ∃ cs, (if b = true then vc ++ sc ++ [rc] else vc ++ [rc]) = cs ++ [rc] := by
  cases b
  · exact ⟨vc, by simp⟩
  · exact ⟨vc ++ sc, by simp⟩

set_option maxHeartbeats 2000000 in
theorem analyzeLogic_ok_core (e : String) (vars : List String) (stg : AppSettings)
    (res : AnalysisResult) (h : analyzeLogic e vars stg = .ok res) :
    res.ast = (parseTokens (tokenize e)).node ∧
    (∃ cs, res.columns = cs ++ [⟨res.ast.id, formatLabel res.ast.expression stg,
        res.ast.expression, false, true, some res.ast.id,
        some (getDirectDependencies res.ast)⟩]) ∧
    res.rows = (List.range (2 ^ vars.length)).map (fun i =>
      ⟨"row-" ++ toString i,
       rowValuesAt stg (2 ^ vars.length) vars res.columns
         (extractSubExpressions res.ast []) res.ast i, i⟩) ∧
    res.classification =
      (if (List.range (2 ^ vars.length)).all (fun i =>
            !rowOutAt stg (2 ^ vars.length) vars res.columns
              (extractSubExpressions res.ast []) res.ast i)
       then Classification.Contradiction
       else if (List.range (2 ^ vars.length)).all (fun i =>
            rowOutAt stg (2 ^ vars.length) vars res.columns
              (extractSubExpressions res.ast []) res.ast i)
       then Classification.Tautology
       else Classification.Contingency) := by
  cases hval : validateSyntax (tokenize e) with
  | some err =>
    rw [analyzeLogic, hval] at h
    exact Except.noConfusion h
  | none =>
    simp only [analyzeLogic, hval] at h
    split at h
    · exact Except.noConfusion h
    · injection h with h
      have hast := congrArg AnalysisResult.ast h
      have hcols := congrArg AnalysisResult.columns h
      have hrows := congrArg AnalysisResult.rows h
      have hclass := congrArg AnalysisResult.classification h
      dsimp only at hast hcols hrows hclass
      refine ⟨hast.symm, ?_, ?_, ?_⟩
      · rw [← hcols, ← hast]
        exact cols_split _ _ _ _
      · rw [← hrows, ← hcols, ← hast, buildRowsLoop_spec]
      · rw [← hclass, ← hcols, ← hast, buildRowsLoop_spec]


/-! ### C4: the row index is the display position -/

/-- C4 (amended): each truth-table row's numeric `index` field equals the
row's display position under both row orders — the loop pushes `index: i`
unconditionally — while the variable assignment used to fill displayed row
`i` encodes `i` under `0→1` and `2^n - 1 - i` under `1→0`.  So under `1→0`
the index is not the binary value of the row's assignment (that reading of
the spec is refuted by `rowIndex_claim_counterexample`); it is the
enumeration position, and the assignment correspondence flips with the
display order. -/
theorem truthTable_row_index_is_position (e : String) (vars : List String)
    (stg : AppSettings) (res : AnalysisResult) (h : analyzeLogic e vars stg = .ok res)
    (i : Nat) (hi : i < res.rows.length) :
    res.rows.length = 2 ^ vars.length ∧
    (res.rows.get ⟨i, hi⟩).index = i ∧
    (res.rows.get ⟨i, hi⟩).values =
      computeRowValues res.columns (extractSubExpressions res.ast []) res.ast
        (buildContext vars (if stg.logic.rowOrder = .desc then 2 ^ vars.length - 1 - i else i)) := by
  obtain ⟨hast, hcols, hrows, hclass⟩ := analyzeLogic_ok_core e vars stg res h
  have hlen : res.rows.length = 2 ^ vars.length := by
    rw [hrows]
    simp
  have key : res.rows.get ⟨i, hi⟩ =
      ⟨"row-" ++ toString i,
       rowValuesAt stg (2 ^ vars.length) vars res.columns
         (extractSubExpressions res.ast []) res.ast i, i⟩ := by
    have hg := List.get_of_eq hrows ⟨i, hi⟩
    rw [hg]
    simp
  rw [key]
  exact ⟨hlen, rfl, rfl⟩

/-- C4 witness: concrete instantiation on formula `P`, variables `[P]`,
default settings, displayed row `0`. -/
theorem truthTable_row_index_is_position_witness :
    analyzeLogic "P" ["P"] defaultSettings = Except.ok c4res ∧
    0 < c4res.rows.length ∧
    (c4res.rows.getD 0 ⟨"", [], 37⟩).index = 0 := by
  have h1 : analyzeLogic "P" ["P"] defaultSettings = Except.ok c4res := rfl
  have h2 : 0 < c4res.rows.length := by decide
  have h3 := truthTable_row_index_is_position "P" ["P"] defaultSettings c4res h1 0 h2
  refine ⟨h1, h2, ?_⟩
  rw [List.getD_eq_getElem _ _ h2]
  exact h3.2.1


/-! ### Freshness of the parser-generated node ids -/

theorem nodeIds_var (i v e : String) (d : Nat) : nodeIds (.var i v e d) = [i] := rfl

theorem nodeIds_not (i : String) (o : ASTNode) (e : String) (d : Nat) :
    nodeIds (.not i o e d) = i :: nodeIds o := by
  simp [nodeIds, subtreeNodes, ASTNode.id]

theorem nodeIds_bin (i : String) (k : BinKind) (l r : ASTNode) (e : String) (d : Nat) :
    nodeIds (.bin i k l r e d) = i :: (nodeIds l ++ nodeIds r) := by
  simp [nodeIds, subtreeNodes, ASTNode.id]

theorem nodeIds_setExpr (n : ASTNode) (e : String) : nodeIds (n.setExpr e) = nodeIds n := by
  cases n <;> rfl

theorem IdFresh.mono {n : ASTNode} {a b a' b' : Nat} (h : IdFresh n a b)
    (ha : a' ≤ a) (hb : b ≤ b') : IdFresh n a' b' := by
  refine ⟨fun s hs => ?_, h.2⟩
  obtain ⟨k, h1, h2, h3⟩ := h.1 s hs
  exact ⟨k, le_trans ha h1, lt_of_lt_of_le h2 hb, h3⟩

theorem idFresh_var (v e : String) (d c : Nat) : IdFresh (.var (genId c) v e d) c (c + 1) := by
  constructor
  · intro s hs
    rw [nodeIds_var] at hs
    simp only [List.mem_singleton] at hs
    exact ⟨c, le_refl c, Nat.lt_succ_self c, hs⟩
  · rw [nodeIds_var]
    simp

theorem idFresh_not (o : ASTNode) (e : String) (d a c : Nat)
    (h : IdFresh o a c) (hac : a ≤ c) : IdFresh (.not (genId c) o e d) a (c + 1) := by
  constructor
  · intro s hs
    rw [nodeIds_not] at hs
    rcases List.mem_cons.mp hs with h1 | h1
    · exact ⟨c, hac, Nat.lt_succ_self c, h1⟩
    · obtain ⟨k, hk1, hk2, hk3⟩ := h.1 s h1
      exact ⟨k, hk1, Nat.lt_succ_of_lt hk2, hk3⟩
  · rw [nodeIds_not, List.nodup_cons]
    refine ⟨?_, h.2⟩
    intro hmem
    obtain ⟨k, hk1, hk2, hk3⟩ := h.1 _ hmem
    have := genId_injective _ _ hk3
    omega

theorem idFresh_bin (k : BinKind) (l r : ASTNode) (e : String) (d a m c : Nat)
    (hl : IdFresh l a m) (hr : IdFresh r m c) (ham : a ≤ m) (hmc : m ≤ c) :
    IdFresh (.bin (genId c) k l r e d) a (c + 1) := by
  constructor
  · intro s hs
    rw [nodeIds_bin] at hs
    rcases List.mem_cons.mp hs with h1 | h1
    · exact ⟨c, le_trans ham hmc, Nat.lt_succ_self c, h1⟩
    · rcases List.mem_append.mp h1 with h2 | h2
      · obtain ⟨j, hk1, hk2, hk3⟩ := hl.1 s h2
        exact ⟨j, hk1, by omega, hk3⟩
      · obtain ⟨j, hk1, hk2, hk3⟩ := hr.1 s h2
        exact ⟨j, le_trans ham hk1, by omega, hk3⟩
  · rw [nodeIds_bin, List.nodup_cons]
    constructor
    · intro hmem
      rcases List.mem_append.mp hmem with h2 | h2
      · obtain ⟨j, hk1, hk2, hk3⟩ := hl.1 _ h2
        have := genId_injective _ _ hk3
        omega
      · obtain ⟨j, hk1, hk2, hk3⟩ := hr.1 _ h2
        have := genId_injective _ _ hk3
        omega
    · refine List.Nodup.append hl.2 hr.2 ?_
      intro s hs1 hs2
      obtain ⟨k1, ha1, hb1, he1⟩ := hl.1 s hs1
      obtain ⟨k2, ha2, hb2, he2⟩ := hr.1 s hs2
      have : k1 = k2 := genId_injective _ _ (he1.symm.trans he2)
      omega

theorem idFresh_setExpr {n : ASTNode} {a b : Nat} (e : String) (h : IdFresh n a b) :
    IdFresh (n.setExpr e) a b := by
  refine ⟨fun s hs => ?_, ?_⟩
  · rw [nodeIds_setExpr] at hs
    exact h.1 s hs
  · rw [nodeIds_setExpr]
    exact h.2


/-- Every run of the parser routines produces a node whose subtree ids are
freshly drawn generator ids, pairwise distinct and confined to the counter
interval the run spans; the counter never decreases. -/
theorem parser_id_fresh (fuel : Nat) :
    (∀ ts ctr, ctr ≤ (parseIFF fuel ts ctr).ctr ∧
      IdFresh (parseIFF fuel ts ctr).node ctr (parseIFF fuel ts ctr).ctr) ∧
    (∀ ts ctr, ctr ≤ (parseImplies fuel ts ctr).ctr ∧
      IdFresh (parseImplies fuel ts ctr).node ctr (parseImplies fuel ts ctr).ctr) ∧
    (∀ ts ctr, ctr ≤ (parseXor fuel ts ctr).ctr ∧
      IdFresh (parseXor fuel ts ctr).node ctr (parseXor fuel ts ctr).ctr) ∧
    (∀ ts ctr, ctr ≤ (parseOr fuel ts ctr).ctr ∧
      IdFresh (parseOr fuel ts ctr).node ctr (parseOr fuel ts ctr).ctr) ∧
    (∀ ts ctr, ctr ≤ (parseAnd fuel ts ctr).ctr ∧
      IdFresh (parseAnd fuel ts ctr).node ctr (parseAnd fuel ts ctr).ctr) ∧
    (∀ ts ctr, ctr ≤ (parseNot fuel ts ctr).ctr ∧
      IdFresh (parseNot fuel ts ctr).node ctr (parseNot fuel ts ctr).ctr) ∧
    (∀ ts ctr, ctr ≤ (parseFactor fuel ts ctr).ctr ∧
      IdFresh (parseFactor fuel ts ctr).node ctr (parseFactor fuel ts ctr).ctr) ∧
    (∀ left ts ctr fb a, a ≤ ctr → IdFresh left a ctr →
      ctr ≤ (parseIFFLoop fuel left ts ctr fb).ctr ∧
      IdFresh (parseIFFLoop fuel left ts ctr fb).node a (parseIFFLoop fuel left ts ctr fb).ctr) ∧
    (∀ left ts ctr fb a, a ≤ ctr → IdFresh left a ctr →
      ctr ≤ (parseImpliesLoop fuel left ts ctr fb).ctr ∧
      IdFresh (parseImpliesLoop fuel left ts ctr fb).node a (parseImpliesLoop fuel left ts ctr fb).ctr) ∧
    (∀ left ts ctr fb a, a ≤ ctr → IdFresh left a ctr →
      ctr ≤ (parseXorLoop fuel left ts ctr fb).ctr ∧
      IdFresh (parseXorLoop fuel left ts ctr fb).node a (parseXorLoop fuel left ts ctr fb).ctr) ∧
    (∀ left ts ctr fb a, a ≤ ctr → IdFresh left a ctr →
      ctr ≤ (parseOrLoop fuel left ts ctr fb).ctr ∧
      IdFresh (parseOrLoop fuel left ts ctr fb).node a (parseOrLoop fuel left ts ctr fb).ctr) ∧
    (∀ left ts ctr fb a, a ≤ ctr → IdFresh left a ctr →
      ctr ≤ (parseAndLoop fuel left ts ctr fb).ctr ∧
      IdFresh (parseAndLoop fuel left ts ctr fb).node a (parseAndLoop fuel left ts ctr fb).ctr) := by
  induction fuel with
  | zero =>
    refine ⟨?_, ?_, ?_, ?_, ?_, ?_, ?_, ?_, ?_, ?_, ?_, ?_⟩
    · intro ts ctr
      simp only [parseIFF, fuelOut]
      exact ⟨Nat.le_succ _, idFresh_var _ _ _ _⟩
    · intro ts ctr
      simp only [parseImplies, fuelOut]
      exact ⟨Nat.le_succ _, idFresh_var _ _ _ _⟩
    · intro ts ctr
      simp only [parseXor, fuelOut]
      exact ⟨Nat.le_succ _, idFresh_var _ _ _ _⟩
    · intro ts ctr
      simp only [parseOr, fuelOut]
      exact ⟨Nat.le_succ _, idFresh_var _ _ _ _⟩
    · intro ts ctr
      simp only [parseAnd, fuelOut]
      exact ⟨Nat.le_succ _, idFresh_var _ _ _ _⟩
    · intro ts ctr
      simp only [parseNot, fuelOut]
      exact ⟨Nat.le_succ _, idFresh_var _ _ _ _⟩
    · intro ts ctr
      simp only [parseFactor, fuelOut]
      exact ⟨Nat.le_succ _, idFresh_var _ _ _ _⟩
    · intro left ts ctr fb a ha hfresh
      simp only [parseIFFLoop]
      exact ⟨le_refl _, hfresh⟩
    · intro left ts ctr fb a ha hfresh
      simp only [parseImpliesLoop]
      exact ⟨le_refl _, hfresh⟩
    · intro left ts ctr fb a ha hfresh
      simp only [parseXorLoop]
      exact ⟨le_refl _, hfresh⟩
    · intro left ts ctr fb a ha hfresh
      simp only [parseOrLoop]
      exact ⟨le_refl _, hfresh⟩
    · intro left ts ctr fb a ha hfresh
      simp only [parseAndLoop]
      exact ⟨le_refl _, hfresh⟩
  | succ fuel ih =>
    obtain ⟨iIFF, iImplies, iXor, iOr, iAnd, iNot, iFac, iIFFL, iImpliesL, iXorL, iOrL, iAndL⟩ := ih
    refine ⟨?_, ?_, ?_, ?_, ?_, ?_, ?_, ?_, ?_, ?_, ?_, ?_⟩
    · intro ts ctr
      have h1 := iImplies ts ctr
      have h2 := iIFFL (parseImplies fuel ts ctr).node (parseImplies fuel ts ctr).rest
        (parseImplies fuel ts ctr).ctr (parseImplies fuel ts ctr).fb ctr h1.1 h1.2
      simp only [parseIFF]
      exact ⟨le_trans h1.1 h2.1, h2.2⟩
    · intro ts ctr
      have h1 := iXor ts ctr
      have h2 := iImpliesL (parseXor fuel ts ctr).node (parseXor fuel ts ctr).rest
        (parseXor fuel ts ctr).ctr (parseXor fuel ts ctr).fb ctr h1.1 h1.2
      simp only [parseImplies]
      exact ⟨le_trans h1.1 h2.1, h2.2⟩
    · intro ts ctr
      have h1 := iOr ts ctr
      have h2 := iXorL (parseOr fuel ts ctr).node (parseOr fuel ts ctr).rest
        (parseOr fuel ts ctr).ctr (parseOr fuel ts ctr).fb ctr h1.1 h1.2
      simp only [parseXor]
      exact ⟨le_trans h1.1 h2.1, h2.2⟩
    · intro ts ctr
      have h1 := iAnd ts ctr
      have h2 := iOrL (parseAnd fuel ts ctr).node (parseAnd fuel ts ctr).rest
        (parseAnd fuel ts ctr).ctr (parseAnd fuel ts ctr).fb ctr h1.1 h1.2
      simp only [parseOr]
      exact ⟨le_trans h1.1 h2.1, h2.2⟩
    · intro ts ctr
      have h1 := iNot ts ctr
      have h2 := iAndL (parseNot fuel ts ctr).node (parseNot fuel ts ctr).rest
        (parseNot fuel ts ctr).ctr (parseNot fuel ts ctr).fb ctr h1.1 h1.2
      simp only [parseAnd]
      exact ⟨le_trans h1.1 h2.1, h2.2⟩
    · intro ts ctr
      by_cases hc : (peekT ts).type = TokType.NOT
      · have h1 := iNot (consumeT ts) ctr
        simp only [parseNot]
        rw [if_pos hc]
        exact ⟨le_trans h1.1 (Nat.le_succ _), idFresh_not _ _ _ _ _ h1.2 h1.1⟩
      · simp only [parseNot]
        rw [if_neg hc]
        exact iFac ts ctr
    · intro ts ctr
      by_cases hopen : isOpenTok (peekT ts) = true
      · have h1 := iIFF (consumeT ts) ctr
        simp only [parseFactor]
        rw [if_pos hopen]
        repeat' split
        all_goals first
          | exact ⟨h1.1, idFresh_setExpr _ h1.2⟩
          | exact ⟨le_trans h1.1 (Nat.le_succ _), (idFresh_var _ _ _ _).mono h1.1 (le_refl _)⟩
      · by_cases hvar : (peekT ts).type = TokType.VAR
        · simp only [parseFactor]
          rw [if_neg hopen, if_pos hvar]
          exact ⟨Nat.le_succ _, idFresh_var _ _ _ _⟩
        · simp only [parseFactor]
          rw [if_neg hopen, if_neg hvar]
          exact ⟨Nat.le_succ _, idFresh_var _ _ _ _⟩
    · intro left ts ctr fb a ha hfresh
      by_cases hc : (peekT ts).type = TokType.IFF
      · have h1 := iImplies (consumeT ts) ctr
        have h2 := iIFFL (ASTNode.bin (genId (parseImplies fuel (consumeT ts) ctr).ctr) .IFF left
            (parseImplies fuel (consumeT ts) ctr).node
            (left.expression ++ " ↔ " ++ (parseImplies fuel (consumeT ts) ctr).node.expression)
            (max left.depth (parseImplies fuel (consumeT ts) ctr).node.depth + 1))
          (parseImplies fuel (consumeT ts) ctr).rest
          ((parseImplies fuel (consumeT ts) ctr).ctr + 1)
          (fb || (parseImplies fuel (consumeT ts) ctr).fb)
          a (le_trans ha (le_trans h1.1 (Nat.le_succ _)))
          (idFresh_bin _ _ _ _ _ _ _ _ hfresh h1.2 ha h1.1)
        simp only [parseIFFLoop]
        rw [if_pos hc]
        exact ⟨le_trans (le_trans h1.1 (Nat.le_succ _)) h2.1, h2.2⟩
      · simp only [parseIFFLoop]
        rw [if_neg hc]
        exact ⟨le_refl _, hfresh⟩
    · intro left ts ctr fb a ha hfresh
      by_cases hc : (peekT ts).type = TokType.IMPLIES
      · have h1 := iXor (consumeT ts) ctr
        have h2 := iImpliesL (ASTNode.bin (genId (parseXor fuel (consumeT ts) ctr).ctr) .IMPLIES left
            (parseXor fuel (consumeT ts) ctr).node
            (left.expression ++ " → " ++ (parseXor fuel (consumeT ts) ctr).node.expression)
            (max left.depth (parseXor fuel (consumeT ts) ctr).node.depth + 1))
          (parseXor fuel (consumeT ts) ctr).rest
          ((parseXor fuel (consumeT ts) ctr).ctr + 1)
          (fb || (parseXor fuel (consumeT ts) ctr).fb)
          a (le_trans ha (le_trans h1.1 (Nat.le_succ _)))
          (idFresh_bin _ _ _ _ _ _ _ _ hfresh h1.2 ha h1.1)
        simp only [parseImpliesLoop]
        rw [if_pos hc]
        exact ⟨le_trans (le_trans h1.1 (Nat.le_succ _)) h2.1, h2.2⟩
      · simp only [parseImpliesLoop]
        rw [if_neg hc]
        exact ⟨le_refl _, hfresh⟩
    · intro left ts ctr fb a ha hfresh
      by_cases hc : (peekT ts).type = TokType.XOR
      · have h1 := iOr (consumeT ts) ctr
        have h2 := iXorL (ASTNode.bin (genId (parseOr fuel (consumeT ts) ctr).ctr) .XOR left
            (parseOr fuel (consumeT ts) ctr).node
            (left.expression ++ " ⊕ " ++ (parseOr fuel (consumeT ts) ctr).node.expression)
            (max left.depth (parseOr fuel (consumeT ts) ctr).node.depth + 1))
          (parseOr fuel (consumeT ts) ctr).rest
          ((parseOr fuel (consumeT ts) ctr).ctr + 1)
          (fb || (parseOr fuel (consumeT ts) ctr).fb)
          a (le_trans ha (le_trans h1.1 (Nat.le_succ _)))
          (idFresh_bin _ _ _ _ _ _ _ _ hfresh h1.2 ha h1.1)
        simp only [parseXorLoop]
        rw [if_pos hc]
        exact ⟨le_trans (le_trans h1.1 (Nat.le_succ _)) h2.1, h2.2⟩
      · simp only [parseXorLoop]
        rw [if_neg hc]
        exact ⟨le_refl _, hfresh⟩
    · intro left ts ctr fb a ha hfresh
      by_cases hc : (peekT ts).type = TokType.OR
      · have h1 := iAnd (consumeT ts) ctr
        have h2 := iOrL (ASTNode.bin (genId (parseAnd fuel (consumeT ts) ctr).ctr) .OR left
            (parseAnd fuel (consumeT ts) ctr).node
            (left.expression ++ " ∨ " ++ (parseAnd fuel (consumeT ts) ctr).node.expression)
            (max left.depth (parseAnd fuel (consumeT ts) ctr).node.depth + 1))
          (parseAnd fuel (consumeT ts) ctr).rest
          ((parseAnd fuel (consumeT ts) ctr).ctr + 1)
          (fb || (parseAnd fuel (consumeT ts) ctr).fb)
          a (le_trans ha (le_trans h1.1 (Nat.le_succ _)))
          (idFresh_bin _ _ _ _ _ _ _ _ hfresh h1.2 ha h1.1)
        simp only [parseOrLoop]
        rw [if_pos hc]
        exact ⟨le_trans (le_trans h1.1 (Nat.le_succ _)) h2.1, h2.2⟩
      · simp only [parseOrLoop]
        rw [if_neg hc]
        exact ⟨le_refl _, hfresh⟩
    · intro left ts ctr fb a ha hfresh
      by_cases hc : (peekT ts).type = TokType.AND
      · have h1 := iNot (consumeT ts) ctr
        have h2 := iAndL (ASTNode.bin (genId (parseNot fuel (consumeT ts) ctr).ctr) .AND left
            (parseNot fuel (consumeT ts) ctr).node
            (left.expression ++ " ∧ " ++ (parseNot fuel (consumeT ts) ctr).node.expression)
            (max left.depth (parseNot fuel (consumeT ts) ctr).node.depth + 1))
          (parseNot fuel (consumeT ts) ctr).rest
          ((parseNot fuel (consumeT ts) ctr).ctr + 1)
          (fb || (parseNot fuel (consumeT ts) ctr).fb)
          a (le_trans ha (le_trans h1.1 (Nat.le_succ _)))
          (idFresh_bin _ _ _ _ _ _ _ _ hfresh h1.2 ha h1.1)
        simp only [parseAndLoop]
        rw [if_pos hc]
        exact ⟨le_trans (le_trans h1.1 (Nat.le_succ _)) h2.1, h2.2⟩
      · simp only [parseAndLoop]
        rw [if_neg hc]
        exact ⟨le_refl _, hfresh⟩

theorem parseTokens_id_nodup (ts : List Token) : (nodeIds (parseTokens ts).node).Nodup :=
  ((parser_id_fresh (parseFuel ts)).1 ts 0).2.2


theorem mem_addIfNewExpr {l : List ASTNode} {node n : ASTNode}
    (h : n ∈ addIfNewExpr l node) : n ∈ l ∨ n = node := by
  unfold addIfNewExpr at h
  split at h
  · exact Or.inl h
  · rcases List.mem_append.mp h with h1 | h1
    · exact Or.inl h1
    · simp only [List.mem_singleton] at h1
      exact Or.inr h1

theorem mem_extractSubExpressions (t : ASTNode) :
    ∀ (acc : List ASTNode) (n : ASTNode), n ∈ extractSubExpressions t acc →
      n ∈ acc ∨ n ∈ subtreeNodes t := by
  induction t with
  | var i v e d =>
    intro acc n h
    rcases mem_addIfNewExpr h with h1 | h1
    · exact Or.inl h1
    · subst h1
      exact Or.inr (by simp [subtreeNodes])
  | not i o e d iho =>
    intro acc n h
    rcases mem_addIfNewExpr h with h1 | h1
    · rcases iho acc n h1 with h2 | h2
      · exact Or.inl h2
      · exact Or.inr (by simp [subtreeNodes, h2])
    · subst h1
      exact Or.inr (by simp [subtreeNodes])
  | bin i k l r e d ihl ihr =>
    intro acc n h
    rcases mem_addIfNewExpr h with h1 | h1
    · rcases ihr (extractSubExpressions l acc) n h1 with h2 | h2
      · rcases ihl acc n h2 with h3 | h3
        · exact Or.inl h3
        · exact Or.inr (by simp [subtreeNodes, h3])
      · exact Or.inr (by simp [subtreeNodes, h2])
    · subst h1
      exact Or.inr (by simp [subtreeNodes])

theorem subtree_eq_of_id_eq {t n : ASTNode} (hn : n ∈ subtreeNodes t) (hid : n.id = t.id)
    (hnodup : (nodeIds t).Nodup) : n = t := by
  obtain ⟨rest, hrest⟩ : ∃ rest, subtreeNodes t = t :: rest := by
    cases t <;> exact ⟨_, rfl⟩
  rw [hrest] at hn
  rcases List.mem_cons.mp hn with h | h
  · exact h
  · exfalso
    have hmem : t.id ∈ rest.map ASTNode.id := by
      rw [← hid]
      exact List.mem_map_of_mem _ h
    have h2 : nodeIds t = t.id :: rest.map ASTNode.id := by
      rw [nodeIds, hrest]
      simp
    rw [h2] at hnodup
    exact (List.nodup_cons.mp hnodup).1 hmem

theorem find_result_eval (ast : ASTNode) (hnodup : (nodeIds ast).Nodup)
    (ctx : List (String × Bool)) :
    (match (extractSubExpressions ast []).find? (fun n => some n.id = some ast.id) with
     | some nd => evaluateAST nd ctx
     | none => evaluateAST ast ctx) = evaluateAST ast ctx := by
  cases hf : (extractSubExpressions ast []).find? (fun n => some n.id = some ast.id) with
  | none => rfl
  | some nd =>
    have hmem := List.mem_of_find?_eq_some hf
    have hpred := List.find?_some hf
    have hid : nd.id = ast.id := by simpa using hpred
    have hsub : nd ∈ subtreeNodes ast := by
      rcases mem_extractSubExpressions ast [] nd hmem with h | h
      · simp at h
      · exact h
    rw [subtree_eq_of_id_eq hsub hid hnodup]


/-! ### C3: classification matches the row outputs -/

/-- C3: in every successful analysis the classification is `Tautology`
exactly when every row's output value is true, `Contradiction` exactly when
every row's output value is false, and `Contingency` exactly when rows of
both values occur; in the zero-variable case there is exactly one row and
the classification is whatever directly evaluating the closed formula gives
(`Tautology` when true, `Contradiction` when false). -/
theorem classification_iff_row_outputs (e : String) (vars : List String)
    (stg : AppSettings) (res : AnalysisResult) (h : analyzeLogic e vars stg = .ok res) :
    (res.classification = .Tautology ↔
      ∀ r ∈ res.rows, rget r.values res.ast.expression = some true) ∧
    (res.classification = .Contradiction ↔
      ∀ r ∈ res.rows, rget r.values res.ast.expression = some false) ∧
    (res.classification = .Contingency ↔
      ((∃ r ∈ res.rows, rget r.values res.ast.expression = some true) ∧
       (∃ r ∈ res.rows, rget r.values res.ast.expression = some false))) ∧
    (vars = [] →
      res.rows.length = 1 ∧
      res.classification =
        (if evaluateAST res.ast [] = true then Classification.Tautology
         else Classification.Contradiction)) := by
  obtain ⟨hast, ⟨cs, hcols⟩, hrows, hclass⟩ := analyzeLogic_ok_core e vars stg res h
  have hnodup : (nodeIds res.ast).Nodup := by
    rw [hast]
    exact parseTokens_id_nodup (tokenize e)
  set n := 2 ^ vars.length with hn
  set v : Nat → Bool := fun i =>
    evaluateAST res.ast (buildContext vars (valIndexOf stg n i)) with hv
  have hrg : ∀ i, rget (rowValuesAt stg n vars res.columns
      (extractSubExpressions res.ast []) res.ast i) res.ast.expression = some (v i) := by
    intro i
    unfold rowValuesAt
    rw [hcols]
    rw [computeRowValues_result_lookup cs _ _ _ _ rfl rfl rfl rfl]
    rw [find_result_eval res.ast hnodup]
  have key_all_true : (∀ r ∈ res.rows, rget r.values res.ast.expression = some true)
      ↔ ((List.range n).all v = true) := by
    rw [hrows, List.all_eq_true]
    constructor
    · intro hall i hi
      have h2 := hall _ (List.mem_map_of_mem _ hi)
      exact Option.some.inj ((hrg i).symm.trans h2)
    · intro hall r hr
      rw [List.mem_map] at hr
      obtain ⟨i, hi, rfl⟩ := hr
      exact (hrg i).trans (by rw [hall i hi])
  have key_all_false : (∀ r ∈ res.rows, rget r.values res.ast.expression = some false)
      ↔ ((List.range n).all (fun i => !v i) = true) := by
    rw [hrows, List.all_eq_true]
    constructor
    · intro hall i hi
      have h2 := hall _ (List.mem_map_of_mem _ hi)
      have h3 : v i = false := Option.some.inj ((hrg i).symm.trans h2)
      rw [h3]
      rfl
    · intro hall r hr
      rw [List.mem_map] at hr
      obtain ⟨i, hi, rfl⟩ := hr
      have h3 : v i = false := by
        have := hall i hi
        simpa using this
      exact (hrg i).trans (by rw [h3])
  have key_ex_true : (∃ r ∈ res.rows, rget r.values res.ast.expression = some true)
      ↔ ((List.range n).all (fun i => !v i) = false) := by
    rw [hrows, List.all_eq_false]
    constructor
    · rintro ⟨r, hr, hrt⟩
      rw [List.mem_map] at hr
      obtain ⟨i, hi, rfl⟩ := hr
      have h3 : v i = true := Option.some.inj ((hrg i).symm.trans hrt)
      exact ⟨i, hi, by simp [h3]⟩
    · rintro ⟨i, hi, hne⟩
      have h3 : v i = true := by simpa using hne
      exact ⟨_, List.mem_map_of_mem _ hi, (hrg i).trans (by rw [h3])⟩
  have key_ex_false : (∃ r ∈ res.rows, rget r.values res.ast.expression = some false)
      ↔ ((List.range n).all v = false) := by
    rw [hrows, List.all_eq_false]
    constructor
    · rintro ⟨r, hr, hrt⟩
      rw [List.mem_map] at hr
      obtain ⟨i, hi, rfl⟩ := hr
      have h3 : v i = false := Option.some.inj ((hrg i).symm.trans hrt)
      exact ⟨i, hi, by simp [h3]⟩
    · rintro ⟨i, hi, hne⟩
      have h3 : v i = false := by simpa using hne
      exact ⟨_, List.mem_map_of_mem _ hi, (hrg i).trans (by rw [h3])⟩
  have hfun1 : (fun i => rowOutAt stg n vars res.columns
      (extractSubExpressions res.ast []) res.ast i) = v := by
    funext i
    unfold rowOutAt
    rw [hrg i]
    rfl
  have hfun2 : (fun i => !rowOutAt stg n vars res.columns
      (extractSubExpressions res.ast []) res.ast i) = (fun i => !v i) := by
    funext i
    unfold rowOutAt
    rw [hrg i]
    rfl
  rw [hfun1, hfun2] at hclass
  have hnpos : 0 < n := pow_pos (by norm_num) _
  have hne0 : (0 : Nat) ∈ List.range n := List.mem_range.mpr hnpos
  have hdeg : vars = [] →
      res.rows.length = 1 ∧
      res.classification =
        (if evaluateAST res.ast [] = true then Classification.Tautology
         else Classification.Contradiction) := by
    intro hvars
    subst hvars
    have hn1 : n = 1 := by
      rw [hn]
      rfl
    constructor
    · rw [hrows, List.length_map, List.length_range, hn1]
    · have hv0 : v 0 = evaluateAST res.ast [] := by
        rw [hv]
        rfl
      rw [hclass, hn1]
      have hr1 : List.range 1 = [0] := rfl
      cases hev : evaluateAST res.ast [] <;>
        simp [hr1, hv0, hev]
  rcases hAB : (List.range n).all (fun i => !v i) with _ | _
  all_goals rcases hBB : (List.range n).all v with _ | _
  · -- all!v = false, all v = false : Contingency
    rw [hAB, hBB] at hclass
    simp only [Bool.false_eq_true, if_false] at hclass
    refine ⟨?_, ?_, ?_, hdeg⟩
    · rw [key_all_true, hclass]
      simp [hBB]
    · rw [key_all_false, hclass]
      simp [hAB]
    · rw [key_ex_true, key_ex_false, hclass]
      simp [hAB, hBB]
  · -- all!v = false, all v = true : Tautology
    rw [hAB, hBB] at hclass
    simp only [Bool.false_eq_true, if_false, if_true] at hclass
    refine ⟨?_, ?_, ?_, hdeg⟩
    · rw [key_all_true, hclass]
      simp [hBB]
    · rw [key_all_false, hclass]
      simp [hAB]
    · rw [key_ex_true, key_ex_false, hclass]
      simp [hAB, hBB]
  · -- all!v = true, all v = false : Contradiction
    rw [hAB, hBB] at hclass
    simp only [if_true] at hclass
    refine ⟨?_, ?_, ?_, hdeg⟩
    · rw [key_all_true, hclass]
      simp [hBB]
    · rw [key_all_false, hclass]
      simp [hAB]
    · rw [key_ex_true, key_ex_false, hclass]
      simp [hAB, hBB]
  · -- both flags true: impossible on a nonempty range
    exfalso
    have e1 := List.all_eq_true.mp hBB 0 hne0
    have e2 := List.all_eq_true.mp hAB 0 hne0
    rw [e1] at e2
    simp at e2

/-- C3 witness: concrete instantiation on `A ∧ B` over `[A, B]` with the
default settings. -/
theorem classification_iff_row_outputs_witness :
    analyzeLogic "A ∧ B" ["A", "B"] defaultSettings = Except.ok c3res ∧
    ((c3res.classification = .Tautology ↔
      ∀ r ∈ c3res.rows, rget r.values c3res.ast.expression = some true) ∧
    (c3res.classification = .Contradiction ↔
      ∀ r ∈ c3res.rows, rget r.values c3res.ast.expression = some false) ∧
    (c3res.classification = .Contingency ↔
      ((∃ r ∈ c3res.rows, rget r.values c3res.ast.expression = some true) ∧
       (∃ r ∈ c3res.rows, rget r.values c3res.ast.expression = some false))) ∧
    ((["A", "B"] : List String) = [] →
      c3res.rows.length = 1 ∧
      c3res.classification =
        (if evaluateAST c3res.ast [] = true then Classification.Tautology
         else Classification.Contradiction))) :=
  ⟨rfl, classification_iff_row_outputs "A ∧ B" ["A", "B"] defaultSettings c3res rfl⟩


/-! ### The parser renders exactly the tokens it consumes -/

theorem setExpr_expression (n : ASTNode) (e : String) : (n.setExpr e).expression = e := by
  cases n <;> rfl

theorem expression_var (i v e : String) (d : Nat) : (ASTNode.var i v e d).expression = e := rfl

theorem expression_not (i : String) (o : ASTNode) (e : String) (d : Nat) :
    (ASTNode.not i o e d).expression = e := rfl

theorem expression_bin (i : String) (k : BinKind) (l r : ASTNode) (e : String) (d : Nat) :
    (ASTNode.bin i k l r e d).expression = e := rfl

theorem renderToks_append (a b : List Token) :
    renderToks (a ++ b) = renderToks a ++ renderToks b := by
  induction a with
  | nil => simp [renderToks]
  | cons t ta ih => simp [renderToks, ih, String.append_assoc]

theorem cons_of_peek_ne_eof {ts : List Token} (h : (peekT ts).type ≠ TokType.EOF) :
    ts = peekT ts :: consumeT ts := by
  cases ts with
  | nil => exact absurd rfl h
  | cons a t => rfl

theorem take_one_tail {α : Type} (l : List α) : l.take 1 ++ l.tail = l := by
  cases l <;> rfl

theorem take_one_consume (l : List Token) : l.take 1 ++ consumeT l = l := by
  cases l <;> rfl

/-- Whenever a parser routine finishes without hitting the defensive
fallback, the `expression` string of the node it returns is exactly the
concatenated text contribution of the tokens it consumed (and the consumed
tokens are a prefix of the input in every case). -/
theorem parser_render (fuel : Nat) :
    (∀ ts ctr, ∃ T, ts = T ++ (parseIFF fuel ts ctr).rest ∧
      ((parseIFF fuel ts ctr).fb = false →
        (parseIFF fuel ts ctr).node.expression = renderToks T)) ∧
    (∀ ts ctr, ∃ T, ts = T ++ (parseImplies fuel ts ctr).rest ∧
      ((parseImplies fuel ts ctr).fb = false →
        (parseImplies fuel ts ctr).node.expression = renderToks T)) ∧
    (∀ ts ctr, ∃ T, ts = T ++ (parseXor fuel ts ctr).rest ∧
      ((parseXor fuel ts ctr).fb = false →
        (parseXor fuel ts ctr).node.expression = renderToks T)) ∧
    (∀ ts ctr, ∃ T, ts = T ++ (parseOr fuel ts ctr).rest ∧
      ((parseOr fuel ts ctr).fb = false →
        (parseOr fuel ts ctr).node.expression = renderToks T)) ∧
    (∀ ts ctr, ∃ T, ts = T ++ (parseAnd fuel ts ctr).rest ∧
      ((parseAnd fuel ts ctr).fb = false →
        (parseAnd fuel ts ctr).node.expression = renderToks T)) ∧
    (∀ ts ctr, ∃ T, ts = T ++ (parseNot fuel ts ctr).rest ∧
      ((parseNot fuel ts ctr).fb = false →
        (parseNot fuel ts ctr).node.expression = renderToks T)) ∧
    (∀ ts ctr, ∃ T, ts = T ++ (parseFactor fuel ts ctr).rest ∧
      ((parseFactor fuel ts ctr).fb = false →
        (parseFactor fuel ts ctr).node.expression = renderToks T)) ∧
    (∀ left ts ctr fb, ∃ T, ts = T ++ (parseIFFLoop fuel left ts ctr fb).rest ∧
      ((parseIFFLoop fuel left ts ctr fb).fb = false → fb = false ∧
        (parseIFFLoop fuel left ts ctr fb).node.expression =
          left.expression ++ renderToks T)) ∧
    (∀ left ts ctr fb, ∃ T, ts = T ++ (parseImpliesLoop fuel left ts ctr fb).rest ∧
      ((parseImpliesLoop fuel left ts ctr fb).fb = false → fb = false ∧
        (parseImpliesLoop fuel left ts ctr fb).node.expression =
          left.expression ++ renderToks T)) ∧
    (∀ left ts ctr fb, ∃ T, ts = T ++ (parseXorLoop fuel left ts ctr fb).rest ∧
      ((parseXorLoop fuel left ts ctr fb).fb = false → fb = false ∧
        (parseXorLoop fuel left ts ctr fb).node.expression =
          left.expression ++ renderToks T)) ∧
    (∀ left ts ctr fb, ∃ T, ts = T ++ (parseOrLoop fuel left ts ctr fb).rest ∧
      ((parseOrLoop fuel left ts ctr fb).fb = false → fb = false ∧
        (parseOrLoop fuel left ts ctr fb).node.expression =
          left.expression ++ renderToks T)) ∧
    (∀ left ts ctr fb, ∃ T, ts = T ++ (parseAndLoop fuel left ts ctr fb).rest ∧
      ((parseAndLoop fuel left ts ctr fb).fb = false → fb = false ∧
        (parseAndLoop fuel left ts ctr fb).node.expression =
          left.expression ++ renderToks T)) := by
  induction fuel with
  | zero =>
    simp only [parseIFF, parseImplies, parseXor, parseOr, parseAnd, parseNot, parseFactor,
      parseIFFLoop, parseImpliesLoop, parseXorLoop, parseOrLoop, parseAndLoop, fuelOut]
    refine ⟨?_, ?_, ?_, ?_, ?_, ?_, ?_, ?_, ?_, ?_, ?_, ?_⟩
    · intro ts ctr
      exact ⟨[], rfl, fun hfb => Bool.noConfusion hfb⟩
    · intro ts ctr
      exact ⟨[], rfl, fun hfb => Bool.noConfusion hfb⟩
    · intro ts ctr
      exact ⟨[], rfl, fun hfb => Bool.noConfusion hfb⟩
    · intro ts ctr
      exact ⟨[], rfl, fun hfb => Bool.noConfusion hfb⟩
    · intro ts ctr
      exact ⟨[], rfl, fun hfb => Bool.noConfusion hfb⟩
    · intro ts ctr
      exact ⟨[], rfl, fun hfb => Bool.noConfusion hfb⟩
    · intro ts ctr
      exact ⟨[], rfl, fun hfb => Bool.noConfusion hfb⟩
    · intro left ts ctr fb
      exact ⟨[], rfl, fun hfb => Bool.noConfusion hfb⟩
    · intro left ts ctr fb
      exact ⟨[], rfl, fun hfb => Bool.noConfusion hfb⟩
    · intro left ts ctr fb
      exact ⟨[], rfl, fun hfb => Bool.noConfusion hfb⟩
    · intro left ts ctr fb
      exact ⟨[], rfl, fun hfb => Bool.noConfusion hfb⟩
    · intro left ts ctr fb
      exact ⟨[], rfl, fun hfb => Bool.noConfusion hfb⟩
  | succ fuel ih =>
    obtain ⟨iIFF, iImplies, iXor, iOr, iAnd, iNot, iFac, iIFFL, iImpliesL, iXorL, iOrL, iAndL⟩ := ih
    refine ⟨?_, ?_, ?_, ?_, ?_, ?_, ?_, ?_, ?_, ?_, ?_, ?_⟩
    · intro ts ctr
      obtain ⟨T1, hT1, hE1⟩ := iImplies ts ctr
      obtain ⟨T2, hT2, hE2⟩ := iIFFL (parseImplies fuel ts ctr).node (parseImplies fuel ts ctr).rest
        (parseImplies fuel ts ctr).ctr (parseImplies fuel ts ctr).fb
      simp only [parseIFF]
      refine ⟨T1 ++ T2, ?_, ?_⟩
      · rw [List.append_assoc, ← hT2, ← hT1]
      · intro hfb
        obtain ⟨hfb2, hexp⟩ := hE2 hfb
        rw [hexp, hE1 hfb2, renderToks_append]
    · intro ts ctr
      obtain ⟨T1, hT1, hE1⟩ := iXor ts ctr
      obtain ⟨T2, hT2, hE2⟩ := iImpliesL (parseXor fuel ts ctr).node (parseXor fuel ts ctr).rest
        (parseXor fuel ts ctr).ctr (parseXor fuel ts ctr).fb
      simp only [parseImplies]
      refine ⟨T1 ++ T2, ?_, ?_⟩
      · rw [List.append_assoc, ← hT2, ← hT1]
      · intro hfb
        obtain ⟨hfb2, hexp⟩ := hE2 hfb
        rw [hexp, hE1 hfb2, renderToks_append]
    · intro ts ctr
      obtain ⟨T1, hT1, hE1⟩ := iOr ts ctr
      obtain ⟨T2, hT2, hE2⟩ := iXorL (parseOr fuel ts ctr).node (parseOr fuel ts ctr).rest
        (parseOr fuel ts ctr).ctr (parseOr fuel ts ctr).fb
      simp only [parseXor]
      refine ⟨T1 ++ T2, ?_, ?_⟩
      · rw [List.append_assoc, ← hT2, ← hT1]
      · intro hfb
        obtain ⟨hfb2, hexp⟩ := hE2 hfb
        rw [hexp, hE1 hfb2, renderToks_append]
    · intro ts ctr
      obtain ⟨T1, hT1, hE1⟩ := iAnd ts ctr
      obtain ⟨T2, hT2, hE2⟩ := iOrL (parseAnd fuel ts ctr).node (parseAnd fuel ts ctr).rest
        (parseAnd fuel ts ctr).ctr (parseAnd fuel ts ctr).fb
      simp only [parseOr]
      refine ⟨T1 ++ T2, ?_, ?_⟩
      · rw [List.append_assoc, ← hT2, ← hT1]
      · intro hfb
        obtain ⟨hfb2, hexp⟩ := hE2 hfb
        rw [hexp, hE1 hfb2, renderToks_append]
    · intro ts ctr
      obtain ⟨T1, hT1, hE1⟩ := iNot ts ctr
      obtain ⟨T2, hT2, hE2⟩ := iAndL (parseNot fuel ts ctr).node (parseNot fuel ts ctr).rest
        (parseNot fuel ts ctr).ctr (parseNot fuel ts ctr).fb
      simp only [parseAnd]
      refine ⟨T1 ++ T2, ?_, ?_⟩
      · rw [List.append_assoc, ← hT2, ← hT1]
      · intro hfb
        obtain ⟨hfb2, hexp⟩ := hE2 hfb
        rw [hexp, hE1 hfb2, renderToks_append]
    · intro ts ctr
      by_cases hc : (peekT ts).type = TokType.NOT
      · have hts : ts = peekT ts :: consumeT ts := cons_of_peek_ne_eof (by simp [hc])
        obtain ⟨T1, hT1, hE1⟩ := iNot (consumeT ts) ctr
        simp only [parseNot]
        rw [if_pos hc]
        refine ⟨peekT ts :: T1, ?_, ?_⟩
        · rw [List.cons_append, ← hT1, ← hts]
        · intro hfb
          dsimp only
          simp only [expression_var, expression_not, expression_bin]
          rw [hE1 hfb]
          have hrt : renderTok (peekT ts) = (peekT ts).value := by simp [renderTok, hc]
          simp only [renderToks, hrt]
      · simp only [parseNot]
        rw [if_neg hc]
        exact iFac ts ctr
    · intro ts ctr
      by_cases hopen : isOpenTok (peekT ts) = true
      · have h3 : (peekT ts).type = TokType.LPAREN ∨ (peekT ts).type = TokType.LBRACKET ∨
            (peekT ts).type = TokType.LBRACE := by
          simpa [isOpenTok] using hopen
        have hts : ts = peekT ts :: consumeT ts := cons_of_peek_ne_eof
          (by rcases h3 with h | h | h <;> simp [h])
        obtain ⟨T1, hT1, hE1⟩ := iIFF (consumeT ts) ctr
        simp only [parseFactor]
        rw [if_pos hopen]
        rcases h3 with h3 | h3 | h3
        · simp [h3]
          by_cases hcl : (peekT (parseIFF fuel (consumeT ts) ctr).rest).type = TokType.RPAREN
          · rw [if_pos hcl]
            have hcr : (parseIFF fuel (consumeT ts) ctr).rest =
                peekT (parseIFF fuel (consumeT ts) ctr).rest ::
                  consumeT (parseIFF fuel (consumeT ts) ctr).rest :=
              cons_of_peek_ne_eof (by simp [hcl])
            refine ⟨peekT ts :: (T1 ++ [peekT (parseIFF fuel (consumeT ts) ctr).rest]), ?_, ?_⟩
            · rw [List.cons_append, List.append_assoc, List.singleton_append, ← hcr, ← hT1, ← hts]
            · intro hfb
              dsimp only
              rw [setExpr_expression, hE1 hfb]
              have hrt1 : renderTok (peekT ts) = "(" := by simp [renderTok, h3]
              have hrt2 : renderTok (peekT (parseIFF fuel (consumeT ts) ctr).rest) = ")" := by
                simp [renderTok, hcl]
              simp only [renderToks, renderToks_append, hrt1, hrt2]
              simp [String.append_assoc]
          · rw [if_neg hcl]
            refine ⟨peekT ts :: (T1 ++ (parseIFF fuel (consumeT ts) ctr).rest.take 1), ?_, ?_⟩
            · rw [List.cons_append, List.append_assoc, take_one_consume, ← hT1]
              exact hts
            · intro hfb
              exact Bool.noConfusion hfb
        · simp [h3]
          by_cases hcl : (peekT (parseIFF fuel (consumeT ts) ctr).rest).type = TokType.RBRACKET
          · rw [if_pos hcl]
            have hcr : (parseIFF fuel (consumeT ts) ctr).rest =
                peekT (parseIFF fuel (consumeT ts) ctr).rest ::
                  consumeT (parseIFF fuel (consumeT ts) ctr).rest :=
              cons_of_peek_ne_eof (by simp [hcl])
            refine ⟨peekT ts :: (T1 ++ [peekT (parseIFF fuel (consumeT ts) ctr).rest]), ?_, ?_⟩
            · rw [List.cons_append, List.append_assoc, List.singleton_append, ← hcr, ← hT1, ← hts]
            · intro hfb
              dsimp only
              rw [setExpr_expression, hE1 hfb]
              have hrt1 : renderTok (peekT ts) = "[" := by simp [renderTok, h3]
              have hrt2 : renderTok (peekT (parseIFF fuel (consumeT ts) ctr).rest) = "]" := by
                simp [renderTok, hcl]
              simp only [renderToks, renderToks_append, hrt1, hrt2]
              simp [String.append_assoc]
          · rw [if_neg hcl]
            refine ⟨peekT ts :: (T1 ++ (parseIFF fuel (consumeT ts) ctr).rest.take 1), ?_, ?_⟩
            · rw [List.cons_append, List.append_assoc, take_one_consume, ← hT1]
              exact hts
            · intro hfb
              exact Bool.noConfusion hfb
        · simp [h3]
          by_cases hcl : (peekT (parseIFF fuel (consumeT ts) ctr).rest).type = TokType.RBRACE
          · rw [if_pos hcl]
            have hcr : (parseIFF fuel (consumeT ts) ctr).rest =
                peekT (parseIFF fuel (consumeT ts) ctr).rest ::
                  consumeT (parseIFF fuel (consumeT ts) ctr).rest :=
              cons_of_peek_ne_eof (by simp [hcl])
            refine ⟨peekT ts :: (T1 ++ [peekT (parseIFF fuel (consumeT ts) ctr).rest]), ?_, ?_⟩
            · rw [List.cons_append, List.append_assoc, List.singleton_append, ← hcr, ← hT1, ← hts]
            · intro hfb
              dsimp only
              rw [setExpr_expression, hE1 hfb]
              have hrt1 : renderTok (peekT ts) = "\x7b" := by simp [renderTok, h3]
              have hrt2 : renderTok (peekT (parseIFF fuel (consumeT ts) ctr).rest) = "\x7d" := by
                simp [renderTok, hcl]
              simp only [renderToks, renderToks_append, hrt1, hrt2]
              simp [String.append_assoc]
          · rw [if_neg hcl]
            refine ⟨peekT ts :: (T1 ++ (parseIFF fuel (consumeT ts) ctr).rest.take 1), ?_, ?_⟩
            · rw [List.cons_append, List.append_assoc, take_one_consume, ← hT1]
              exact hts
            · intro hfb
              exact Bool.noConfusion hfb
      · by_cases hvar : (peekT ts).type = TokType.VAR
        · have hts : ts = peekT ts :: consumeT ts := cons_of_peek_ne_eof (by simp [hvar])
          simp only [parseFactor]
          rw [if_neg hopen, if_pos hvar]
          refine ⟨[peekT ts], ?_, ?_⟩
          · rw [List.singleton_append, ← hts]
          · intro hfb
            dsimp only
            simp only [expression_var, expression_not, expression_bin]
            have hrt : renderTok (peekT ts) = (peekT ts).value := by simp [renderTok, hvar]
            simp [renderToks, hrt]
        · simp only [parseFactor]
          rw [if_neg hopen, if_neg hvar]
          refine ⟨ts.take 1, ?_, ?_⟩
          · simp only [consumeT]
            rw [take_one_tail]
          · intro hfb
            exact Bool.noConfusion hfb
    · intro left ts ctr fb
      by_cases hc : (peekT ts).type = TokType.IFF
      · have hts : ts = peekT ts :: consumeT ts := cons_of_peek_ne_eof (by simp [hc])
        obtain ⟨T1, hT1, hE1⟩ := iImplies (consumeT ts) ctr
        obtain ⟨T2, hT2, hE2⟩ := iIFFL (ASTNode.bin (genId (parseImplies fuel (consumeT ts) ctr).ctr)
            .IFF left (parseImplies fuel (consumeT ts) ctr).node
            (left.expression ++ " ↔ " ++ (parseImplies fuel (consumeT ts) ctr).node.expression)
            (max left.depth (parseImplies fuel (consumeT ts) ctr).node.depth + 1))
          (parseImplies fuel (consumeT ts) ctr).rest
          ((parseImplies fuel (consumeT ts) ctr).ctr + 1)
          (fb || (parseImplies fuel (consumeT ts) ctr).fb)
        simp only [parseIFFLoop]
        rw [if_pos hc]
        refine ⟨peekT ts :: (T1 ++ T2), ?_, ?_⟩
        · rw [List.cons_append, List.append_assoc, ← hT2, ← hT1, ← hts]
        · intro hfb
          obtain ⟨hor, hexp⟩ := hE2 hfb
          have hfb0 : fb = false ∧ (parseImplies fuel (consumeT ts) ctr).fb = false := by
            simpa using hor
          refine ⟨hfb0.1, ?_⟩
          rw [hexp]
          simp only [expression_var, expression_not, expression_bin]
          rw [hE1 hfb0.2]
          have hrt : renderTok (peekT ts) = " ↔ " := by simp [renderTok, hc]
          simp only [renderToks, renderToks_append, hrt]
          simp [String.append_assoc]
      · simp only [parseIFFLoop]
        rw [if_neg hc]
        exact ⟨[], rfl, fun hfb => ⟨hfb, by simp [renderToks, String.append_empty]⟩⟩
    · intro left ts ctr fb
      by_cases hc : (peekT ts).type = TokType.IMPLIES
      · have hts : ts = peekT ts :: consumeT ts := cons_of_peek_ne_eof (by simp [hc])
        obtain ⟨T1, hT1, hE1⟩ := iXor (consumeT ts) ctr
        obtain ⟨T2, hT2, hE2⟩ := iImpliesL (ASTNode.bin (genId (parseXor fuel (consumeT ts) ctr).ctr)
            .IMPLIES left (parseXor fuel (consumeT ts) ctr).node
            (left.expression ++ " → " ++ (parseXor fuel (consumeT ts) ctr).node.expression)
            (max left.depth (parseXor fuel (consumeT ts) ctr).node.depth + 1))
          (parseXor fuel (consumeT ts) ctr).rest
          ((parseXor fuel (consumeT ts) ctr).ctr + 1)
          (fb || (parseXor fuel (consumeT ts) ctr).fb)
        simp only [parseImpliesLoop]
        rw [if_pos hc]
        refine ⟨peekT ts :: (T1 ++ T2), ?_, ?_⟩
        · rw [List.cons_append, List.append_assoc, ← hT2, ← hT1, ← hts]
        · intro hfb
          obtain ⟨hor, hexp⟩ := hE2 hfb
          have hfb0 : fb = false ∧ (parseXor fuel (consumeT ts) ctr).fb = false := by
            simpa using hor
          refine ⟨hfb0.1, ?_⟩
          rw [hexp]
          simp only [expression_var, expression_not, expression_bin]
          rw [hE1 hfb0.2]
          have hrt : renderTok (peekT ts) = " → " := by simp [renderTok, hc]
          simp only [renderToks, renderToks_append, hrt]
          simp [String.append_assoc]
      · simp only [parseImpliesLoop]
        rw [if_neg hc]
        exact ⟨[], rfl, fun hfb => ⟨hfb, by simp [renderToks, String.append_empty]⟩⟩
    · intro left ts ctr fb
      by_cases hc : (peekT ts).type = TokType.XOR
      · have hts : ts = peekT ts :: consumeT ts := cons_of_peek_ne_eof (by simp [hc])
        obtain ⟨T1, hT1, hE1⟩ := iOr (consumeT ts) ctr
        obtain ⟨T2, hT2, hE2⟩ := iXorL (ASTNode.bin (genId (parseOr fuel (consumeT ts) ctr).ctr)
            .XOR left (parseOr fuel (consumeT ts) ctr).node
            (left.expression ++ " ⊕ " ++ (parseOr fuel (consumeT ts) ctr).node.expression)
            (max left.depth (parseOr fuel (consumeT ts) ctr).node.depth + 1))
          (parseOr fuel (consumeT ts) ctr).rest
          ((parseOr fuel (consumeT ts) ctr).ctr + 1)
          (fb || (parseOr fuel (consumeT ts) ctr).fb)
        simp only [parseXorLoop]
        rw [if_pos hc]
        refine ⟨peekT ts :: (T1 ++ T2), ?_, ?_⟩
        · rw [List.cons_append, List.append_assoc, ← hT2, ← hT1, ← hts]
        · intro hfb
          obtain ⟨hor, hexp⟩ := hE2 hfb
          have hfb0 : fb = false ∧ (parseOr fuel (consumeT ts) ctr).fb = false := by
            simpa using hor
          refine ⟨hfb0.1, ?_⟩
          rw [hexp]
          simp only [expression_var, expression_not, expression_bin]
          rw [hE1 hfb0.2]
          have hrt : renderTok (peekT ts) = " ⊕ " := by simp [renderTok, hc]
          simp only [renderToks, renderToks_append, hrt]
          simp [String.append_assoc]
      · simp only [parseXorLoop]
        rw [if_neg hc]
        exact ⟨[], rfl, fun hfb => ⟨hfb, by simp [renderToks, String.append_empty]⟩⟩
    · intro left ts ctr fb
      by_cases hc : (peekT ts).type = TokType.OR
      · have hts : ts = peekT ts :: consumeT ts := cons_of_peek_ne_eof (by simp [hc])
        obtain ⟨T1, hT1, hE1⟩ := iAnd (consumeT ts) ctr
        obtain ⟨T2, hT2, hE2⟩ := iOrL (ASTNode.bin (genId (parseAnd fuel (consumeT ts) ctr).ctr)
            .OR left (parseAnd fuel (consumeT ts) ctr).node
            (left.expression ++ " ∨ " ++ (parseAnd fuel (consumeT ts) ctr).node.expression)
            (max left.depth (parseAnd fuel (consumeT ts) ctr).node.depth + 1))
          (parseAnd fuel (consumeT ts) ctr).rest
          ((parseAnd fuel (consumeT ts) ctr).ctr + 1)
          (fb || (parseAnd fuel (consumeT ts) ctr).fb)
        simp only [parseOrLoop]
        rw [if_pos hc]
        refine ⟨peekT ts :: (T1 ++ T2), ?_, ?_⟩
        · rw [List.cons_append, List.append_assoc, ← hT2, ← hT1, ← hts]
        · intro hfb
          obtain ⟨hor, hexp⟩ := hE2 hfb
          have hfb0 : fb = false ∧ (parseAnd fuel (consumeT ts) ctr).fb = false := by
            simpa using hor
          refine ⟨hfb0.1, ?_⟩
          rw [hexp]
          simp only [expression_var, expression_not, expression_bin]
          rw [hE1 hfb0.2]
          have hrt : renderTok (peekT ts) = " ∨ " := by simp [renderTok, hc]
          simp only [renderToks, renderToks_append, hrt]
          simp [String.append_assoc]
      · simp only [parseOrLoop]
        rw [if_neg hc]
        exact ⟨[], rfl, fun hfb => ⟨hfb, by simp [renderToks, String.append_empty]⟩⟩
    · intro left ts ctr fb
      by_cases hc : (peekT ts).type = TokType.AND
      · have hts : ts = peekT ts :: consumeT ts := cons_of_peek_ne_eof (by simp [hc])
        obtain ⟨T1, hT1, hE1⟩ := iNot (consumeT ts) ctr
        obtain ⟨T2, hT2, hE2⟩ := iAndL (ASTNode.bin (genId (parseNot fuel (consumeT ts) ctr).ctr)
            .AND left (parseNot fuel (consumeT ts) ctr).node
            (left.expression ++ " ∧ " ++ (parseNot fuel (consumeT ts) ctr).node.expression)
            (max left.depth (parseNot fuel (consumeT ts) ctr).node.depth + 1))
          (parseNot fuel (consumeT ts) ctr).rest
          ((parseNot fuel (consumeT ts) ctr).ctr + 1)
          (fb || (parseNot fuel (consumeT ts) ctr).fb)
        simp only [parseAndLoop]
        rw [if_pos hc]
        refine ⟨peekT ts :: (T1 ++ T2), ?_, ?_⟩
        · rw [List.cons_append, List.append_assoc, ← hT2, ← hT1, ← hts]
        · intro hfb
          obtain ⟨hor, hexp⟩ := hE2 hfb
          have hfb0 : fb = false ∧ (parseNot fuel (consumeT ts) ctr).fb = false := by
            simpa using hor
          refine ⟨hfb0.1, ?_⟩
          rw [hexp]
          simp only [expression_var, expression_not, expression_bin]
          rw [hE1 hfb0.2]
          have hrt : renderTok (peekT ts) = " ∧ " := by simp [renderTok, hc]
          simp only [renderToks, renderToks_append, hrt]
          simp [String.append_assoc]
      · simp only [parseAndLoop]
        rw [if_neg hc]
        exact ⟨[], rfl, fun hfb => ⟨hfb, by simp [renderToks, String.append_empty]⟩⟩


/-! ### Tokens produced by `tokenize` are canonical -/

instance (t : Token) : Decidable (CanonTok t) := by
  unfold CanonTok
  infer_instance

theorem opKeysSorted_canon : ∀ kv ∈ opKeysSorted, CanonTok ⟨symbolType kv.2, kv.2⟩ := by decide

theorem symbolChars_canon : ∀ c ∈ symbolChars, CanonTok (symbolCharToken c) := by decide

theorem tokenizeF_canon : ∀ (fuel : Nat) (cs : List Char), ∀ t ∈ tokenizeF fuel cs, CanonTok t := by
  intro fuel
  induction fuel with
  | zero =>
    intro cs t ht
    simp [tokenizeF] at ht
  | succ fuel ih =>
    intro cs t ht
    cases cs with
    | nil => simp [tokenizeF] at ht
    | cons c rest =>
      simp only [tokenizeF] at ht
      split at ht
      · next key symbol heq =>
        rcases List.mem_cons.mp ht with h | h
        · subst h
          exact opKeysSorted_canon _ (List.mem_of_find?_eq_some heq)
        · exact ih _ t h
      · next heq =>
        split at ht
        · next hsym =>
          rcases List.mem_cons.mp ht with h | h
          · subst h
            exact symbolChars_canon c hsym
          · exact ih _ t h
        · next hsym =>
          split at ht
          · next hupper =>
            rcases List.mem_cons.mp ht with h | h
            · subst h
              refine Or.inr (Or.inr (Or.inr (Or.inr (Or.inr (Or.inr (Or.inr (Or.inr
                (Or.inr (Or.inr (Or.inr (Or.inr ⟨rfl, rfl, ?_⟩)))))))))))
              simp only [List.all_cons, List.all_nil, Bool.and_true]
              exact hupper
            · exact ih _ t h
          · next hupper =>
            split at ht
            · next hdash =>
              exfalso
              have hpref := List.find?_eq_none.mp heq ("-", "¬") (by decide)
              apply hpref
              subst hdash
              simp [List.isPrefixOf]
            · exact ih _ t ht

theorem tokenize_canon (s : String) : ∀ t ∈ tokenizeF (normalizeChars s.data).length
    (normalizeChars s.data), CanonTok t :=
  tokenizeF_canon _ _

/-! ### Validator-accepted streams have no adjacent variable tokens -/

theorem pairChecks_none_no_vars {a b : Token} (hp : pairChecks a b = none) :
    ¬(isVarTok a = true ∧ isVarTok b = true) := by
  intro hv
  by_cases h1 : isBinOpTok a = true ∧ isBinOpTok b = true
  · rw [pairChecks, if_pos h1] at hp
    exact Option.noConfusion hp
  · rw [pairChecks, if_neg h1, if_pos hv] at hp
    exact Option.noConfusion hp

theorem validateLoop_no_adjacent : ∀ (ts : List Token) (stack : List String)
    (st : List String), validateLoop ts stack = (none, st) → noAdjVar ts := by
  intro ts
  induction ts with
  | nil => intro stack st _; trivial
  | cons a t ih =>
    cases t with
    | nil => intro stack st _; trivial
    | cons b t2 =>
      intro stack st h
      rw [validateLoop] at h
      cases hb : bracketStep a stack with
      | error e =>
        rw [hb] at h
        exact absurd (congrArg Prod.fst h) (by simp)
      | ok stack2 =>
        rw [hb] at h
        cases hp : pairChecks a b with
        | some e =>
          rw [hp] at h
          exact absurd (congrArg Prod.fst h) (by simp)
        | none =>
          rw [hp] at h
          exact ⟨pairChecks_none_no_vars hp, ih stack2 st h⟩

theorem validateSyntax_none_loop {tokens : List Token} (h : validateSyntax tokens = none) :
    ∃ st, validateLoop tokens [] = (none, st) := by
  unfold validateSyntax at h
  split at h
  · exact Option.noConfusion h
  · rcases hl : validateLoop tokens [] with ⟨o, st⟩
    rw [hl] at h
    cases o with
    | some e => exact Option.noConfusion h
    | none => exact ⟨st, rfl⟩

theorem noAdjVar_prefix : ∀ (l l2 : List Token), noAdjVar (l ++ l2) → noAdjVar l := by
  intro l
  induction l with
  | nil => intro l2 _; trivial
  | cons a t ih =>
    cases t with
    | nil => intro l2 _; trivial
    | cons b t2 =>
      intro l2 h
      obtain ⟨h1, h2⟩ := h
      exact ⟨h1, ih l2 h2⟩


/-! ### Re-tokenizing a canonical token stream reproduces it -/

theorem matchOp_none_of_symbolChar (c : Char) (hc : c ∈ symbolChars) (rest : List Char) :
    matchOp (c :: rest) = none := by
  apply List.find?_eq_none.mpr
  intro kv hkv
  fin_cases hc <;> fin_cases hkv <;> simp [List.isPrefixOf]

theorem matchOp_none_of_digit (c : Char) (hc : c = '1' ∨ c = '0') (rest : List Char) :
    matchOp (c :: rest) = none := by
  apply List.find?_eq_none.mpr
  intro kv hkv
  rcases hc with hc | hc <;> subst hc <;> fin_cases hkv <;> simp [List.isPrefixOf]

theorem matchOp_none_of_upper (c : Char) (hc : isUpperAZ c = true) (rest : List Char)
    (hrest : ∀ d, rest.head? = some d → isUpperAZ d = false) :
    matchOp (c :: rest) = none := by
  apply List.find?_eq_none.mpr
  intro kv hkv
  have hsym : ∀ x : Char, isUpperAZ x = false → (x == c) = false := by
    intro x hx
    simp only [beq_eq_false_iff_ne, ne_eq]
    intro h
    rw [h] at hx
    rw [hc] at hx
    exact Bool.noConfusion hx
  have s1 := hsym '<' (by decide)
  have s2 := hsym '-' (by decide)
  have s3 := hsym '=' (by decide)
  have s4 := hsym '&' (by decide)
  have s5 := hsym '|' (by decide)
  have s6 := hsym '!' (by decide)
  have s7 := hsym '~' (by decide)
  have s8 := hsym '^' (by decide)
  cases rest with
  | nil => fin_cases hkv <;> simp [List.isPrefixOf, s1, s2, s3, s4, s5, s6, s7, s8]
  | cons d rest2 =>
    have hd := hrest d rfl
    have hl : ∀ x : Char, isUpperAZ x = true → (x == d) = false := by
      intro x hx
      simp only [beq_eq_false_iff_ne, ne_eq]
      intro h
      rw [h] at hx
      rw [hd] at hx
      exact Bool.noConfusion hx
    have l1 := hl 'M' (by decide)
    have l2 := hl 'F' (by decide)
    have l3 := hl 'N' (by decide)
    have l4 := hl 'O' (by decide)
    have l5 := hl 'R' (by decide)
    fin_cases hkv <;>
      simp [List.isPrefixOf, s1, s2, s3, s4, s5, s6, s7, s8, l1, l2, l3, l4, l5]

theorem tokenizeF_step_symbol (c : Char) (hc : c ∈ symbolChars) (f : Nat) (rest : List Char) :
    tokenizeF (f + 1) (c :: rest) = symbolCharToken c :: tokenizeF f rest := by
  simp only [tokenizeF]
  rw [matchOp_none_of_symbolChar c hc]
  dsimp only
  rw [if_pos hc]

theorem flat_head_not_upper (u : Token) (hu : CanonTok u) (hv : isVarTok u = false)
    (rest2 : List Char) : ∀ d, (u.value.data ++ rest2).head? = some d → isUpperAZ d = false := by
  rcases hu with ⟨hty, hval⟩ | ⟨hty, hval⟩ | ⟨hty, hval⟩ | ⟨hty, hval⟩ | ⟨hty, hval⟩ |
    ⟨hty, hval⟩ | ⟨hty, hval⟩ | ⟨hty, hval⟩ | ⟨hty, hval⟩ | ⟨hty, hval⟩ | ⟨hty, hval⟩ |
    ⟨hty, hval⟩ | ⟨hty, hlen, hall⟩
  all_goals first
    | (rw [hval]
       intro d hd
       simp at hd
       rw [← hd]
       decide)
    | (exfalso
       rw [isVarTok, hty] at hv
       simp at hv)

theorem string_data_singleton {s : String} (h : s.length = 1) : ∃ c, s.data = [c] := by
  cases s with
  | mk l =>
    cases l with
    | nil => simp [String.length] at h
    | cons a t =>
      cases t with
      | nil => exact ⟨a, rfl⟩
      | cons b t2 => simp [String.length] at h

theorem noAdjVar_tail {t : Token} {T : List Token} (h : noAdjVar (t :: T)) : noAdjVar T := by
  cases T with
  | nil => trivial
  | cons u R => exact h.2

theorem flat_cons_of_value (t : Token) (c : Char) (h : t.value.data = [c])
    (T2 : List Token) : flatChars (t :: T2) = c :: flatChars T2 := by
  show t.value.data ++ flatChars T2 = c :: flatChars T2
  rw [h]
  rfl

theorem step_canon_symbol (t : Token) (T2 : List Token) (f : Nat) (c : Char)
    (hc : c ∈ symbolChars) (hval : t.value.data = [c]) (hsc : symbolCharToken c = t)
    (hrec : tokenizeF f (flatChars T2) = T2) :
    tokenizeF (f + 1) (flatChars (t :: T2)) = t :: T2 := by
  rw [flat_cons_of_value t c hval, tokenizeF_step_symbol c hc f, hrec, hsc]

theorem tokenizeF_flatChars : ∀ (T : List Token) (fuel : Nat),
    (∀ t ∈ T, CanonTok t) → noAdjVar T → T.length ≤ fuel →
    tokenizeF fuel (flatChars T) = T := by
  intro T
  induction T with
  | nil =>
    intro fuel _ _ _
    cases fuel <;> rfl
  | cons t T2 ih =>
    intro fuel hC hA hlen
    cases fuel with
    | zero => simp at hlen
    | succ f =>
      have hf2 : T2.length ≤ f := by
        simp at hlen
        omega
      have hC2 : ∀ u ∈ T2, CanonTok u := fun u hu => hC u (List.mem_cons_of_mem _ hu)
      have hA2 : noAdjVar T2 := noAdjVar_tail hA
      have hrec := ih f hC2 hA2 hf2
      have hCt := hC t (List.mem_cons_self _ _)
      rcases hCt with ⟨hty, hval⟩ | ⟨hty, hval⟩ | ⟨hty, hval⟩ | ⟨hty, hval⟩ | ⟨hty, hval⟩ |
        ⟨hty, hval⟩ | ⟨hty, hval⟩ | ⟨hty, hval⟩ | ⟨hty, hval⟩ | ⟨hty, hval⟩ | ⟨hty, hval⟩ |
        ⟨hty, hval⟩ | ⟨hty, hlen1, hall⟩
      · refine step_canon_symbol t T2 f '¬' (by decide) (by rw [hval]) ?_ hrec
        cases t with
        | mk ty val =>
          dsimp only at hty hval
          rw [hty, hval]
          decide
      · refine step_canon_symbol t T2 f '∧' (by decide) (by rw [hval]) ?_ hrec
        cases t with
        | mk ty val =>
          dsimp only at hty hval
          rw [hty, hval]
          decide
      · refine step_canon_symbol t T2 f '∨' (by decide) (by rw [hval]) ?_ hrec
        cases t with
        | mk ty val =>
          dsimp only at hty hval
          rw [hty, hval]
          decide
      · refine step_canon_symbol t T2 f '→' (by decide) (by rw [hval]) ?_ hrec
        cases t with
        | mk ty val =>
          dsimp only at hty hval
          rw [hty, hval]
          decide
      · refine step_canon_symbol t T2 f '↔' (by decide) (by rw [hval]) ?_ hrec
        cases t with
        | mk ty val =>
          dsimp only at hty hval
          rw [hty, hval]
          decide
      · refine step_canon_symbol t T2 f '⊕' (by decide) (by rw [hval]) ?_ hrec
        cases t with
        | mk ty val =>
          dsimp only at hty hval
          rw [hty, hval]
          decide
      · refine step_canon_symbol t T2 f '(' (by decide) (by rw [hval]) ?_ hrec
        cases t with
        | mk ty val =>
          dsimp only at hty hval
          rw [hty, hval]
          decide
      · refine step_canon_symbol t T2 f ')' (by decide) (by rw [hval]) ?_ hrec
        cases t with
        | mk ty val =>
          dsimp only at hty hval
          rw [hty, hval]
          decide
      · refine step_canon_symbol t T2 f '[' (by decide) (by rw [hval]) ?_ hrec
        cases t with
        | mk ty val =>
          dsimp only at hty hval
          rw [hty, hval]
          decide
      · refine step_canon_symbol t T2 f ']' (by decide) (by rw [hval]) ?_ hrec
        cases t with
        | mk ty val =>
          dsimp only at hty hval
          rw [hty, hval]
          decide
      · refine step_canon_symbol t T2 f '\x7b' (by decide) (by rw [hval]) ?_ hrec
        cases t with
        | mk ty val =>
          dsimp only at hty hval
          rw [hty, hval]
          decide
      · refine step_canon_symbol t T2 f '\x7d' (by decide) (by rw [hval]) ?_ hrec
        cases t with
        | mk ty val =>
          dsimp only at hty hval
          rw [hty, hval]
          decide
      · obtain ⟨c, hc⟩ := string_data_singleton hlen1
        have hclass : (isUpperAZ c || c = '1' || c = '0') = true := by
          rw [hc] at hall
          simpa using hall
        rw [flat_cons_of_value t c hc]
        have hmo : matchOp (c :: flatChars T2) = none := by
          rcases Bool.or_eq_true_iff.mp hclass with h1 | h1
          · rcases Bool.or_eq_true_iff.mp h1 with h2 | h2
            · apply matchOp_none_of_upper c h2
              cases T2 with
              | nil => intro d hd; simp [flatChars] at hd
              | cons u R =>
                have hvu : isVarTok u = false := by
                  by_contra hvu
                  have hvt : isVarTok t = true := by
                    rw [isVarTok, hty]
                    simp
                  exact hA.1 ⟨hvt, by simpa using hvu⟩
                exact flat_head_not_upper u (hC u (by simp)) hvu (flatChars R)
            · exact matchOp_none_of_digit c (Or.inl (by simpa using h2)) _
          · exact matchOp_none_of_digit c (Or.inr (by simpa using h1)) _
        have hnotsym : ¬ c ∈ symbolChars := by
          intro hmem
          fin_cases hmem <;> simp [isUpperAZ] at hclass
        simp only [tokenizeF]
        rw [hmo]
        dsimp only
        rw [if_neg hnotsym, if_pos hclass, hrec]
        have ht2 : t = ⟨TokType.VAR, String.mk [c]⟩ := by
          cases t with
          | mk ty val =>
            dsimp only at hty hc
            subst hty
            cases val with
            | mk data =>
              have hdc : data = [c] := hc
              rw [hdc]
        rw [ht2]

/-! ### Normalizing the rendered text gives the canonical characters back -/

theorem charUpper_id_of_class {c : Char} (h : (isUpperAZ c || c = '1' || c = '0') = true) :
    charUpper c = c ∧ isWS c = false := by
  rcases Bool.or_eq_true_iff.mp h with h1 | h1
  · rcases Bool.or_eq_true_iff.mp h1 with h2 | h2
    · have hc : 'A' ≤ c ∧ c ≤ 'Z' := by simpa [isUpperAZ] using h2
      constructor
      · rw [charUpper, if_neg]
        rintro ⟨h3, -⟩
        have := le_trans h3 hc.2
        exact absurd this (by decide)
      · simp only [isWS, decide_eq_false_iff_not]
        rintro (rfl | rfl | rfl | rfl) <;> exact absurd hc.1 (by decide)
    · have : c = '1' := by simpa using h2
      subst this
      decide
  · have : c = '0' := by simpa using h1
    subst this
    decide

theorem normalizeChars_append (a b : List Char) :
    normalizeChars (a ++ b) = normalizeChars a ++ normalizeChars b := by
  simp [normalizeChars, List.filter_append]

theorem normalize_renderTok {t : Token} (h : CanonTok t) :
    normalizeChars (renderTok t).data = t.value.data := by
  rcases h with ⟨hty, hval⟩ | ⟨hty, hval⟩ | ⟨hty, hval⟩ | ⟨hty, hval⟩ | ⟨hty, hval⟩ |
    ⟨hty, hval⟩ | ⟨hty, hval⟩ | ⟨hty, hval⟩ | ⟨hty, hval⟩ | ⟨hty, hval⟩ | ⟨hty, hval⟩ |
    ⟨hty, hval⟩ | ⟨hty, hlen1, hall⟩
  all_goals try (
    cases t with
    | mk ty val =>
      dsimp only at hty hval
      subst hty
      subst hval
      decide)
  cases t with
  | mk ty val =>
    dsimp only at hty hlen1 hall
    subst hty
    obtain ⟨c, hc⟩ := string_data_singleton hlen1
    show normalizeChars val.data = val.data
    rw [hc] at hall ⊢
    have hclass : (isUpperAZ c || c = '1' || c = '0') = true := by simpa using hall
    obtain ⟨h1, h2⟩ := charUpper_id_of_class hclass
    simp [normalizeChars, h1, h2]

theorem normalizeChars_renderToks : ∀ (T : List Token), (∀ t ∈ T, CanonTok t) →
    normalizeChars (renderToks T).data = flatChars T := by
  intro T
  induction T with
  | nil => intro _; rfl
  | cons t T2 ih =>
    intro hC
    show normalizeChars (renderTok t ++ renderToks T2).data = t.value.data ++ flatChars T2
    rw [String.data_append, normalizeChars_append, normalize_renderTok (hC t (by simp)),
      ih (fun u hu => hC u (by simp [hu]))]

theorem flatChars_length : ∀ (T : List Token), (∀ t ∈ T, CanonTok t) →
    (flatChars T).length = T.length := by
  intro T
  induction T with
  | nil => intro _; rfl
  | cons t T2 ih =>
    intro hC
    have hrec := ih (fun u hu => hC u (by simp [hu]))
    have h1 : t.value.data.length = 1 := by
      rcases hC t (by simp) with ⟨hty, hval⟩ | ⟨hty, hval⟩ | ⟨hty, hval⟩ | ⟨hty, hval⟩ |
        ⟨hty, hval⟩ | ⟨hty, hval⟩ | ⟨hty, hval⟩ | ⟨hty, hval⟩ | ⟨hty, hval⟩ | ⟨hty, hval⟩ |
        ⟨hty, hval⟩ | ⟨hty, hval⟩ | ⟨hty, hlen1, hall⟩
      all_goals try (rw [hval]; rfl)
      exact hlen1
    show (t.value.data ++ flatChars T2).length = T2.length + 1
    rw [List.length_append, h1, hrec]
    omega


/-! ### The parse of a fallback-free run depends only on the consumed prefix -/

set_option maxHeartbeats 3000000 in
/-- Suffix-congruence of the parser: a routine run that finishes without the
defensive fallback consumed a non-empty prefix `T` of its input containing no
`EOF` token, and re-running the same routine on `T` followed by ANY suffix
whose first token continues none of the binary-operator loops at this level
(at any fuel at least linear in `T`) returns the very same node and counter,
leaving exactly that suffix.  The fuel bound `8 * |T| + k` (with a per-level
constant `k`) makes the conclusion independent of the original run's fuel. -/
theorem parser_suffix (fuel : Nat) :
    (∀ ts ctr, (parseIFF fuel ts ctr).fb = false →
      ∃ T, ts = T ++ (parseIFF fuel ts ctr).rest ∧ 1 ≤ T.length ∧
        (∀ t ∈ T, t.type ≠ TokType.EOF) ∧
        ∀ rest2 fuel2, ((peekT rest2).type ≠ TokType.IFF ∧ (peekT rest2).type ≠ TokType.IMPLIES ∧ (peekT rest2).type ≠ TokType.XOR ∧ (peekT rest2).type ≠ TokType.OR ∧ (peekT rest2).type ≠ TokType.AND) →
          8 * T.length + 14 ≤ fuel2 →
          parseIFF fuel2 (T ++ rest2) ctr =
            ⟨(parseIFF fuel ts ctr).node, rest2, (parseIFF fuel ts ctr).ctr, false⟩) ∧
    (∀ ts ctr, (parseImplies fuel ts ctr).fb = false →
      ∃ T, ts = T ++ (parseImplies fuel ts ctr).rest ∧ 1 ≤ T.length ∧
        (∀ t ∈ T, t.type ≠ TokType.EOF) ∧
        ∀ rest2 fuel2, ((peekT rest2).type ≠ TokType.IMPLIES ∧ (peekT rest2).type ≠ TokType.XOR ∧ (peekT rest2).type ≠ TokType.OR ∧ (peekT rest2).type ≠ TokType.AND) →
          8 * T.length + 13 ≤ fuel2 →
          parseImplies fuel2 (T ++ rest2) ctr =
            ⟨(parseImplies fuel ts ctr).node, rest2, (parseImplies fuel ts ctr).ctr, false⟩) ∧
    (∀ ts ctr, (parseXor fuel ts ctr).fb = false →
      ∃ T, ts = T ++ (parseXor fuel ts ctr).rest ∧ 1 ≤ T.length ∧
        (∀ t ∈ T, t.type ≠ TokType.EOF) ∧
        ∀ rest2 fuel2, ((peekT rest2).type ≠ TokType.XOR ∧ (peekT rest2).type ≠ TokType.OR ∧ (peekT rest2).type ≠ TokType.AND) →
          8 * T.length + 12 ≤ fuel2 →
          parseXor fuel2 (T ++ rest2) ctr =
            ⟨(parseXor fuel ts ctr).node, rest2, (parseXor fuel ts ctr).ctr, false⟩) ∧
    (∀ ts ctr, (parseOr fuel ts ctr).fb = false →
      ∃ T, ts = T ++ (parseOr fuel ts ctr).rest ∧ 1 ≤ T.length ∧
        (∀ t ∈ T, t.type ≠ TokType.EOF) ∧
        ∀ rest2 fuel2, ((peekT rest2).type ≠ TokType.OR ∧ (peekT rest2).type ≠ TokType.AND) →
          8 * T.length + 11 ≤ fuel2 →
          parseOr fuel2 (T ++ rest2) ctr =
            ⟨(parseOr fuel ts ctr).node, rest2, (parseOr fuel ts ctr).ctr, false⟩) ∧
    (∀ ts ctr, (parseAnd fuel ts ctr).fb = false →
      ∃ T, ts = T ++ (parseAnd fuel ts ctr).rest ∧ 1 ≤ T.length ∧
        (∀ t ∈ T, t.type ≠ TokType.EOF) ∧
        ∀ rest2 fuel2, ((peekT rest2).type ≠ TokType.AND) →
          8 * T.length + 10 ≤ fuel2 →
          parseAnd fuel2 (T ++ rest2) ctr =
            ⟨(parseAnd fuel ts ctr).node, rest2, (parseAnd fuel ts ctr).ctr, false⟩) ∧
    (∀ ts ctr, (parseNot fuel ts ctr).fb = false →
      ∃ T, ts = T ++ (parseNot fuel ts ctr).rest ∧ 1 ≤ T.length ∧
        (∀ t ∈ T, t.type ≠ TokType.EOF) ∧
        ∀ rest2 fuel2, (True) →
          8 * T.length + 9 ≤ fuel2 →
          parseNot fuel2 (T ++ rest2) ctr =
            ⟨(parseNot fuel ts ctr).node, rest2, (parseNot fuel ts ctr).ctr, false⟩) ∧
    (∀ ts ctr, (parseFactor fuel ts ctr).fb = false →
      ∃ T, ts = T ++ (parseFactor fuel ts ctr).rest ∧ 1 ≤ T.length ∧
        (∀ t ∈ T, t.type ≠ TokType.EOF) ∧
        ∀ rest2 fuel2, (True) →
          8 * T.length + 8 ≤ fuel2 →
          parseFactor fuel2 (T ++ rest2) ctr =
            ⟨(parseFactor fuel ts ctr).node, rest2, (parseFactor fuel ts ctr).ctr, false⟩) ∧
    (∀ left ts ctr fb, (parseIFFLoop fuel left ts ctr fb).fb = false →
      fb = false ∧
      ∃ T, ts = T ++ (parseIFFLoop fuel left ts ctr fb).rest ∧
        (∀ t ∈ T, t.type ≠ TokType.EOF) ∧
        (T = [] ∨ ∃ t0 T0, T = t0 :: T0 ∧ t0.type = TokType.IFF) ∧
        ∀ rest2 fuel2, ((peekT rest2).type ≠ TokType.IFF ∧ (peekT rest2).type ≠ TokType.IMPLIES ∧ (peekT rest2).type ≠ TokType.XOR ∧ (peekT rest2).type ≠ TokType.OR ∧ (peekT rest2).type ≠ TokType.AND) →
          8 * T.length + 14 ≤ fuel2 →
          parseIFFLoop fuel2 left (T ++ rest2) ctr fb =
            ⟨(parseIFFLoop fuel left ts ctr fb).node, rest2,
              (parseIFFLoop fuel left ts ctr fb).ctr, false⟩) ∧
    (∀ left ts ctr fb, (parseImpliesLoop fuel left ts ctr fb).fb = false →
      fb = false ∧
      ∃ T, ts = T ++ (parseImpliesLoop fuel left ts ctr fb).rest ∧
        (∀ t ∈ T, t.type ≠ TokType.EOF) ∧
        (T = [] ∨ ∃ t0 T0, T = t0 :: T0 ∧ t0.type = TokType.IMPLIES) ∧
        ∀ rest2 fuel2, ((peekT rest2).type ≠ TokType.IMPLIES ∧ (peekT rest2).type ≠ TokType.XOR ∧ (peekT rest2).type ≠ TokType.OR ∧ (peekT rest2).type ≠ TokType.AND) →
          8 * T.length + 13 ≤ fuel2 →
          parseImpliesLoop fuel2 left (T ++ rest2) ctr fb =
            ⟨(parseImpliesLoop fuel left ts ctr fb).node, rest2,
              (parseImpliesLoop fuel left ts ctr fb).ctr, false⟩) ∧
    (∀ left ts ctr fb, (parseXorLoop fuel left ts ctr fb).fb = false →
      fb = false ∧
      ∃ T, ts = T ++ (parseXorLoop fuel left ts ctr fb).rest ∧
        (∀ t ∈ T, t.type ≠ TokType.EOF) ∧
        (T = [] ∨ ∃ t0 T0, T = t0 :: T0 ∧ t0.type = TokType.XOR) ∧
        ∀ rest2 fuel2, ((peekT rest2).type ≠ TokType.XOR ∧ (peekT rest2).type ≠ TokType.OR ∧ (peekT rest2).type ≠ TokType.AND) →
          8 * T.length + 12 ≤ fuel2 →
          parseXorLoop fuel2 left (T ++ rest2) ctr fb =
            ⟨(parseXorLoop fuel left ts ctr fb).node, rest2,
              (parseXorLoop fuel left ts ctr fb).ctr, false⟩) ∧
    (∀ left ts ctr fb, (parseOrLoop fuel left ts ctr fb).fb = false →
      fb = false ∧
      ∃ T, ts = T ++ (parseOrLoop fuel left ts ctr fb).rest ∧
        (∀ t ∈ T, t.type ≠ TokType.EOF) ∧
        (T = [] ∨ ∃ t0 T0, T = t0 :: T0 ∧ t0.type = TokType.OR) ∧
        ∀ rest2 fuel2, ((peekT rest2).type ≠ TokType.OR ∧ (peekT rest2).type ≠ TokType.AND) →
          8 * T.length + 11 ≤ fuel2 →
          parseOrLoop fuel2 left (T ++ rest2) ctr fb =
            ⟨(parseOrLoop fuel left ts ctr fb).node, rest2,
              (parseOrLoop fuel left ts ctr fb).ctr, false⟩) ∧
    (∀ left ts ctr fb, (parseAndLoop fuel left ts ctr fb).fb = false →
      fb = false ∧
      ∃ T, ts = T ++ (parseAndLoop fuel left ts ctr fb).rest ∧
        (∀ t ∈ T, t.type ≠ TokType.EOF) ∧
        (T = [] ∨ ∃ t0 T0, T = t0 :: T0 ∧ t0.type = TokType.AND) ∧
        ∀ rest2 fuel2, ((peekT rest2).type ≠ TokType.AND) →
          8 * T.length + 10 ≤ fuel2 →
          parseAndLoop fuel2 left (T ++ rest2) ctr fb =
            ⟨(parseAndLoop fuel left ts ctr fb).node, rest2,
              (parseAndLoop fuel left ts ctr fb).ctr, false⟩) := by
  induction fuel with
  | zero =>
    refine ⟨?_, ?_, ?_, ?_, ?_, ?_, ?_, ?_, ?_, ?_, ?_, ?_⟩
    · intro ts ctr hfb
      simp [parseIFF, fuelOut] at hfb
    · intro ts ctr hfb
      simp [parseImplies, fuelOut] at hfb
    · intro ts ctr hfb
      simp [parseXor, fuelOut] at hfb
    · intro ts ctr hfb
      simp [parseOr, fuelOut] at hfb
    · intro ts ctr hfb
      simp [parseAnd, fuelOut] at hfb
    · intro ts ctr hfb
      simp [parseNot, fuelOut] at hfb
    · intro ts ctr hfb
      simp [parseFactor, fuelOut] at hfb
    · intro left ts ctr fb hfb
      simp [parseIFFLoop] at hfb
    · intro left ts ctr fb hfb
      simp [parseImpliesLoop] at hfb
    · intro left ts ctr fb hfb
      simp [parseXorLoop] at hfb
    · intro left ts ctr fb hfb
      simp [parseOrLoop] at hfb
    · intro left ts ctr fb hfb
      simp [parseAndLoop] at hfb
  | succ fuel ih =>
    obtain ⟨iIFF, iImplies, iXor, iOr, iAnd, iNot, iFac, iIFFL, iImpliesL, iXorL, iOrL, iAndL⟩ := ih
    refine ⟨?_, ?_, ?_, ?_, ?_, ?_, ?_, ?_, ?_, ?_, ?_, ?_⟩
    · intro ts ctr hfb
      simp only [parseIFF] at hfb ⊢
      obtain ⟨hfb1, T2, hT2, hNE2, hH2, K2⟩ := iIFFL (parseImplies fuel ts ctr).node
        (parseImplies fuel ts ctr).rest (parseImplies fuel ts ctr).ctr (parseImplies fuel ts ctr).fb hfb
      obtain ⟨T1, hT1, hL1, hNE1, K1⟩ := iImplies ts ctr hfb1
      refine ⟨T1 ++ T2, ?_, ?_, ?_, ?_⟩
      · rw [List.append_assoc, ← hT2, ← hT1]
      · simp only [List.length_append]
        omega
      · intro t ht
        rcases List.mem_append.mp ht with h | h
        · exact hNE1 t h
        · exact hNE2 t h
      · intro rest2 fuel2 hsafe hfuel
        obtain ⟨hs1, hs2, hs3, hs4, hs5⟩ := hsafe
        simp only [List.length_append] at hfuel
        rw [hfb1]
        cases fuel2 with
        | zero => omega
        | succ f2 =>
          have hsub : (peekT (T2 ++ rest2)).type ≠ TokType.IMPLIES ∧ (peekT (T2 ++ rest2)).type ≠ TokType.XOR ∧ (peekT (T2 ++ rest2)).type ≠ TokType.OR ∧ (peekT (T2 ++ rest2)).type ≠ TokType.AND := by
            rcases hH2 with hH | ⟨t0, T0, hT0, ht0⟩
            · subst hH
              exact ⟨hs2, hs3, hs4, hs5⟩
            · subst hT0
              refine ⟨?_, ?_, ?_, ?_⟩ <;>
                (rw [show peekT ((t0 :: T0) ++ rest2) = t0 from rfl, ht0]; decide)
          have h1 : 8 * T1.length + 13 ≤ f2 := by omega
          have h2 : 8 * T2.length + 14 ≤ f2 := by omega
          have hcall1 := K1 (T2 ++ rest2) f2 hsub h1
          have hcall2 := K2 rest2 f2 ⟨hs1, hs2, hs3, hs4, hs5⟩ h2
          rw [hfb1] at hcall2
          simp only [parseIFF]
          rw [List.append_assoc, hcall1]
          dsimp only
          exact hcall2
    · intro ts ctr hfb
      simp only [parseImplies] at hfb ⊢
      obtain ⟨hfb1, T2, hT2, hNE2, hH2, K2⟩ := iImpliesL (parseXor fuel ts ctr).node
        (parseXor fuel ts ctr).rest (parseXor fuel ts ctr).ctr (parseXor fuel ts ctr).fb hfb
      obtain ⟨T1, hT1, hL1, hNE1, K1⟩ := iXor ts ctr hfb1
      refine ⟨T1 ++ T2, ?_, ?_, ?_, ?_⟩
      · rw [List.append_assoc, ← hT2, ← hT1]
      · simp only [List.length_append]
        omega
      · intro t ht
        rcases List.mem_append.mp ht with h | h
        · exact hNE1 t h
        · exact hNE2 t h
      · intro rest2 fuel2 hsafe hfuel
        obtain ⟨hs1, hs2, hs3, hs4⟩ := hsafe
        simp only [List.length_append] at hfuel
        rw [hfb1]
        cases fuel2 with
        | zero => omega
        | succ f2 =>
          have hsub : (peekT (T2 ++ rest2)).type ≠ TokType.XOR ∧ (peekT (T2 ++ rest2)).type ≠ TokType.OR ∧ (peekT (T2 ++ rest2)).type ≠ TokType.AND := by
            rcases hH2 with hH | ⟨t0, T0, hT0, ht0⟩
            · subst hH
              exact ⟨hs2, hs3, hs4⟩
            · subst hT0
              refine ⟨?_, ?_, ?_⟩ <;>
                (rw [show peekT ((t0 :: T0) ++ rest2) = t0 from rfl, ht0]; decide)
          have h1 : 8 * T1.length + 12 ≤ f2 := by omega
          have h2 : 8 * T2.length + 13 ≤ f2 := by omega
          have hcall1 := K1 (T2 ++ rest2) f2 hsub h1
          have hcall2 := K2 rest2 f2 ⟨hs1, hs2, hs3, hs4⟩ h2
          rw [hfb1] at hcall2
          simp only [parseImplies]
          rw [List.append_assoc, hcall1]
          dsimp only
          exact hcall2
    · intro ts ctr hfb
      simp only [parseXor] at hfb ⊢
      obtain ⟨hfb1, T2, hT2, hNE2, hH2, K2⟩ := iXorL (parseOr fuel ts ctr).node
        (parseOr fuel ts ctr).rest (parseOr fuel ts ctr).ctr (parseOr fuel ts ctr).fb hfb
      obtain ⟨T1, hT1, hL1, hNE1, K1⟩ := iOr ts ctr hfb1
      refine ⟨T1 ++ T2, ?_, ?_, ?_, ?_⟩
      · rw [List.append_assoc, ← hT2, ← hT1]
      · simp only [List.length_append]
        omega
      · intro t ht
        rcases List.mem_append.mp ht with h | h
        · exact hNE1 t h
        · exact hNE2 t h
      · intro rest2 fuel2 hsafe hfuel
        obtain ⟨hs1, hs2, hs3⟩ := hsafe
        simp only [List.length_append] at hfuel
        rw [hfb1]
        cases fuel2 with
        | zero => omega
        | succ f2 =>
          have hsub : (peekT (T2 ++ rest2)).type ≠ TokType.OR ∧ (peekT (T2 ++ rest2)).type ≠ TokType.AND := by
            rcases hH2 with hH | ⟨t0, T0, hT0, ht0⟩
            · subst hH
              exact ⟨hs2, hs3⟩
            · subst hT0
              refine ⟨?_, ?_⟩ <;>
                (rw [show peekT ((t0 :: T0) ++ rest2) = t0 from rfl, ht0]; decide)
          have h1 : 8 * T1.length + 11 ≤ f2 := by omega
          have h2 : 8 * T2.length + 12 ≤ f2 := by omega
          have hcall1 := K1 (T2 ++ rest2) f2 hsub h1
          have hcall2 := K2 rest2 f2 ⟨hs1, hs2, hs3⟩ h2
          rw [hfb1] at hcall2
          simp only [parseXor]
          rw [List.append_assoc, hcall1]
          dsimp only
          exact hcall2
    · intro ts ctr hfb
      simp only [parseOr] at hfb ⊢
      obtain ⟨hfb1, T2, hT2, hNE2, hH2, K2⟩ := iOrL (parseAnd fuel ts ctr).node
        (parseAnd fuel ts ctr).rest (parseAnd fuel ts ctr).ctr (parseAnd fuel ts ctr).fb hfb
      obtain ⟨T1, hT1, hL1, hNE1, K1⟩ := iAnd ts ctr hfb1
      refine ⟨T1 ++ T2, ?_, ?_, ?_, ?_⟩
      · rw [List.append_assoc, ← hT2, ← hT1]
      · simp only [List.length_append]
        omega
      · intro t ht
        rcases List.mem_append.mp ht with h | h
        · exact hNE1 t h
        · exact hNE2 t h
      · intro rest2 fuel2 hsafe hfuel
        obtain ⟨hs1, hs2⟩ := hsafe
        simp only [List.length_append] at hfuel
        rw [hfb1]
        cases fuel2 with
        | zero => omega
        | succ f2 =>
          have hsub : (peekT (T2 ++ rest2)).type ≠ TokType.AND := by
            rcases hH2 with hH | ⟨t0, T0, hT0, ht0⟩
            · subst hH
              exact hs2
            · subst hT0
              rw [show peekT ((t0 :: T0) ++ rest2) = t0 from rfl, ht0]
              decide
          have h1 : 8 * T1.length + 10 ≤ f2 := by omega
          have h2 : 8 * T2.length + 11 ≤ f2 := by omega
          have hcall1 := K1 (T2 ++ rest2) f2 hsub h1
          have hcall2 := K2 rest2 f2 ⟨hs1, hs2⟩ h2
          rw [hfb1] at hcall2
          simp only [parseOr]
          rw [List.append_assoc, hcall1]
          dsimp only
          exact hcall2
    · intro ts ctr hfb
      simp only [parseAnd] at hfb ⊢
      obtain ⟨hfb1, T2, hT2, hNE2, hH2, K2⟩ := iAndL (parseNot fuel ts ctr).node
        (parseNot fuel ts ctr).rest (parseNot fuel ts ctr).ctr (parseNot fuel ts ctr).fb hfb
      obtain ⟨T1, hT1, hL1, hNE1, K1⟩ := iNot ts ctr hfb1
      refine ⟨T1 ++ T2, ?_, ?_, ?_, ?_⟩
      · rw [List.append_assoc, ← hT2, ← hT1]
      · simp only [List.length_append]
        omega
      · intro t ht
        rcases List.mem_append.mp ht with h | h
        · exact hNE1 t h
        · exact hNE2 t h
      · intro rest2 fuel2 hsafe hfuel
        simp only [List.length_append] at hfuel
        rw [hfb1]
        cases fuel2 with
        | zero => omega
        | succ f2 =>
          have h1 : 8 * T1.length + 9 ≤ f2 := by omega
          have h2 : 8 * T2.length + 10 ≤ f2 := by omega
          have hcall1 := K1 (T2 ++ rest2) f2 trivial h1
          have hcall2 := K2 rest2 f2 hsafe h2
          rw [hfb1] at hcall2
          simp only [parseAnd]
          rw [List.append_assoc, hcall1]
          dsimp only
          exact hcall2
    · intro ts ctr hfb
      by_cases hc : (peekT ts).type = TokType.NOT
      · simp only [parseNot] at hfb ⊢
        rw [if_pos hc] at hfb ⊢
        have hfbr : (parseNot fuel (consumeT ts) ctr).fb = false := hfb
        obtain ⟨T1, hT1, hL1, hNE1, K1⟩ := iNot (consumeT ts) ctr hfbr
        have hts : ts = peekT ts :: consumeT ts := cons_of_peek_ne_eof (by simp [hc])
        refine ⟨peekT ts :: T1, ?_, ?_, ?_, ?_⟩
        · rw [List.cons_append, ← hT1, ← hts]
        · simp only [List.length_cons]
          omega
        · intro t ht
          rcases List.mem_cons.mp ht with h | h
          · rw [h, hc]
            decide
          · exact hNE1 t h
        · intro rest2 fuel2 hsafe hfuel
          simp only [List.length_cons] at hfuel
          cases fuel2 with
          | zero => omega
          | succ f2 =>
            have h1 : 8 * T1.length + 9 ≤ f2 := by omega
            have hcall1 := K1 rest2 f2 trivial h1
            simp only [parseNot]
            rw [show (peekT ts :: T1) ++ rest2 = peekT ts :: (T1 ++ rest2) from rfl]
            rw [if_pos (show (peekT (peekT ts :: (T1 ++ rest2))).type = TokType.NOT from hc)]
            rw [show consumeT (peekT ts :: (T1 ++ rest2)) = T1 ++ rest2 from rfl]
            rw [hcall1]
            rfl
      · simp only [parseNot] at hfb ⊢
        rw [if_neg hc] at hfb ⊢
        obtain ⟨T1, hT1, hL1, hNE1, K1⟩ := iFac ts ctr hfb
        refine ⟨T1, hT1, hL1, hNE1, ?_⟩
        intro rest2 fuel2 hsafe hfuel
        cases fuel2 with
        | zero => omega
        | succ f2 =>
          have h1 : 8 * T1.length + 8 ≤ f2 := by omega
          have hcall1 := K1 rest2 f2 trivial h1
          have hneg : ¬((peekT (T1 ++ rest2)).type = TokType.NOT) := by
            cases T1 with
            | nil => exact absurd hL1 (by simp)
            | cons t0 T0 =>
              intro h
              apply hc
              rw [hT1]
              exact h
          simp only [parseNot]
          rw [if_neg hneg]
          exact hcall1
    · intro ts ctr hfb
      by_cases hopen : isOpenTok (peekT ts) = true
      · have h3 : (peekT ts).type = TokType.LPAREN ∨ (peekT ts).type = TokType.LBRACKET ∨
            (peekT ts).type = TokType.LBRACE := by
          simpa [isOpenTok] using hopen
        have hts : ts = peekT ts :: consumeT ts := cons_of_peek_ne_eof
          (by rcases h3 with h | h | h <;> simp [h])
        simp only [parseFactor] at hfb ⊢
        rw [if_pos hopen] at hfb ⊢
        by_cases hcl : (peekT (parseIFF fuel (consumeT ts) ctr).rest).type =
            (if (peekT ts).type = TokType.LPAREN then TokType.RPAREN
             else if (peekT ts).type = TokType.LBRACKET then TokType.RBRACKET
             else TokType.RBRACE)
        · rw [if_pos hcl] at hfb ⊢
          have hfbr : (parseIFF fuel (consumeT ts) ctr).fb = false := hfb
          obtain ⟨T1, hT1, hL1, hNE1, K1⟩ := iIFF (consumeT ts) ctr hfbr
          have hclne : (peekT (parseIFF fuel (consumeT ts) ctr).rest).type ≠ TokType.EOF := by
            rw [hcl]
            rcases h3 with h | h | h <;> rw [h] <;> decide
          have hcr : (parseIFF fuel (consumeT ts) ctr).rest =
              peekT (parseIFF fuel (consumeT ts) ctr).rest ::
                consumeT (parseIFF fuel (consumeT ts) ctr).rest :=
            cons_of_peek_ne_eof hclne
          refine ⟨peekT ts :: (T1 ++ [peekT (parseIFF fuel (consumeT ts) ctr).rest]),
            ?_, ?_, ?_, ?_⟩
          · rw [List.cons_append, List.append_assoc, List.singleton_append, ← hcr, ← hT1, ← hts]
          · simp only [List.length_cons]
            omega
          · intro t ht
            rcases List.mem_cons.mp ht with h | h
            · rw [h]
              rcases h3 with h3 | h3 | h3 <;> rw [h3] <;> decide
            · rcases List.mem_append.mp h with h2 | h2
              · exact hNE1 t h2
              · rw [List.mem_singleton] at h2
                rw [h2, hcl]
                rcases h3 with h3 | h3 | h3 <;> rw [h3] <;> decide
          · intro rest2 fuel2 hsafe hfuel
            simp only [List.length_cons, List.length_append, List.length_nil] at hfuel
            cases fuel2 with
            | zero => omega
            | succ f2 =>
              have h1 : 8 * T1.length + 14 ≤ f2 := by omega
              have hsub : (peekT (peekT (parseIFF fuel (consumeT ts) ctr).rest :: rest2)).type
                    ≠ TokType.IFF ∧
                  (peekT (peekT (parseIFF fuel (consumeT ts) ctr).rest :: rest2)).type
                    ≠ TokType.IMPLIES ∧
                  (peekT (peekT (parseIFF fuel (consumeT ts) ctr).rest :: rest2)).type
                    ≠ TokType.XOR ∧
                  (peekT (peekT (parseIFF fuel (consumeT ts) ctr).rest :: rest2)).type
                    ≠ TokType.OR ∧
                  (peekT (peekT (parseIFF fuel (consumeT ts) ctr).rest :: rest2)).type
                    ≠ TokType.AND := by
                refine ⟨?_, ?_, ?_, ?_, ?_⟩ <;>
                  (rw [show peekT (peekT (parseIFF fuel (consumeT ts) ctr).rest :: rest2)
                      = peekT (parseIFF fuel (consumeT ts) ctr).rest from rfl, hcl] ;
                   rcases h3 with h3 | h3 | h3 <;> rw [h3] <;> decide)
              have hcall1 := K1 (peekT (parseIFF fuel (consumeT ts) ctr).rest :: rest2)
                f2 hsub h1
              simp only [parseFactor]
              rw [show (peekT ts :: (T1 ++ [peekT (parseIFF fuel (consumeT ts) ctr).rest]))
                    ++ rest2
                  = peekT ts ::
                      (T1 ++ (peekT (parseIFF fuel (consumeT ts) ctr).rest :: rest2)) by
                simp]
              rw [show peekT (peekT ts ::
                    (T1 ++ (peekT (parseIFF fuel (consumeT ts) ctr).rest :: rest2)))
                  = peekT ts from rfl]
              rw [if_pos hopen]
              rw [show consumeT (peekT ts ::
                    (T1 ++ (peekT (parseIFF fuel (consumeT ts) ctr).rest :: rest2)))
                  = T1 ++ (peekT (parseIFF fuel (consumeT ts) ctr).rest :: rest2) from rfl]
              rw [hcall1]
              dsimp only
              rw [show peekT (peekT (parseIFF fuel (consumeT ts) ctr).rest :: rest2)
                  = peekT (parseIFF fuel (consumeT ts) ctr).rest from rfl]
              rw [if_pos hcl]
              rfl
        · rw [if_neg hcl] at hfb
          exact Bool.noConfusion hfb
      · by_cases hvar : (peekT ts).type = TokType.VAR
        · have hts : ts = peekT ts :: consumeT ts := cons_of_peek_ne_eof (by simp [hvar])
          simp only [parseFactor] at hfb ⊢
          rw [if_neg hopen, if_pos hvar] at hfb ⊢
          refine ⟨[peekT ts], ?_, ?_, ?_, ?_⟩
          · rw [List.singleton_append, ← hts]
          · simp
          · intro t ht
            rw [List.mem_singleton] at ht
            rw [ht, hvar]
            decide
          · intro rest2 fuel2 hsafe hfuel
            cases fuel2 with
            | zero =>
              simp only [List.length_cons, List.length_nil] at hfuel
              omega
            | succ f2 =>
              simp only [parseFactor]
              rw [show ([peekT ts] : List Token) ++ rest2 = peekT ts :: rest2 from rfl]
              rw [show peekT (peekT ts :: rest2) = peekT ts from rfl]
              rw [if_neg hopen, if_pos hvar]
              rfl
        · simp only [parseFactor] at hfb
          rw [if_neg hopen, if_neg hvar] at hfb
          exact Bool.noConfusion hfb
    · intro left ts ctr fb hfb
      by_cases hc : (peekT ts).type = TokType.IFF
      · simp only [parseIFFLoop] at hfb ⊢
        rw [if_pos hc] at hfb ⊢
        obtain ⟨hor, Tc, hTc, hNEc, hHc, Kc⟩ := iIFFL
          (ASTNode.bin (genId (parseImplies fuel (consumeT ts) ctr).ctr) .IFF left
            (parseImplies fuel (consumeT ts) ctr).node
            (left.expression ++ " ↔ " ++ (parseImplies fuel (consumeT ts) ctr).node.expression)
            (max left.depth (parseImplies fuel (consumeT ts) ctr).node.depth + 1))
          (parseImplies fuel (consumeT ts) ctr).rest
          ((parseImplies fuel (consumeT ts) ctr).ctr + 1)
          (fb || (parseImplies fuel (consumeT ts) ctr).fb) hfb
        have hfb0 : fb = false ∧ (parseImplies fuel (consumeT ts) ctr).fb = false := by
          simpa using hor
        obtain ⟨hfbIn, hfbr⟩ := hfb0
        subst hfbIn
        obtain ⟨T1, hT1, hL1, hNE1, K1⟩ := iImplies (consumeT ts) ctr hfbr
        have hts : ts = peekT ts :: consumeT ts := cons_of_peek_ne_eof (by simp [hc])
        refine ⟨rfl, peekT ts :: (T1 ++ Tc), ?_, ?_, ?_, ?_⟩
        · rw [List.cons_append, List.append_assoc, ← hTc, ← hT1, ← hts]
        · intro t ht
          rcases List.mem_cons.mp ht with h | h
          · rw [h, hc]
            decide
          · rcases List.mem_append.mp h with h2 | h2
            · exact hNE1 t h2
            · exact hNEc t h2
        · exact Or.inr ⟨peekT ts, T1 ++ Tc, rfl, hc⟩
        · intro rest2 fuel2 hsafe hfuel
          obtain ⟨hs1, hs2, hs3, hs4, hs5⟩ := hsafe
          simp only [List.length_cons, List.length_append] at hfuel
          rw [hfbr]
          simp only [Bool.or_self]
          cases fuel2 with
          | zero => omega
          | succ f2 =>
            have hsub : (peekT (Tc ++ rest2)).type ≠ TokType.IMPLIES ∧ (peekT (Tc ++ rest2)).type ≠ TokType.XOR ∧ (peekT (Tc ++ rest2)).type ≠ TokType.OR ∧ (peekT (Tc ++ rest2)).type ≠ TokType.AND := by
              rcases hHc with hH | ⟨t0, T0, hT0, ht0⟩
              · subst hH
                exact ⟨hs2, hs3, hs4, hs5⟩
              · subst hT0
                refine ⟨?_, ?_, ?_, ?_⟩ <;>
                  (rw [show peekT ((t0 :: T0) ++ rest2) = t0 from rfl, ht0]; decide)
            have h1 : 8 * T1.length + 13 ≤ f2 := by omega
            have h2 : 8 * Tc.length + 14 ≤ f2 := by omega
            have hcall1 := K1 (Tc ++ rest2) f2 hsub h1
            have hcall2 := Kc rest2 f2 ⟨hs1, hs2, hs3, hs4, hs5⟩ h2
            rw [hfbr] at hcall2
            simp only [Bool.or_self] at hcall2
            simp only [parseIFFLoop]
            rw [show (peekT ts :: (T1 ++ Tc)) ++ rest2
                = peekT ts :: (T1 ++ (Tc ++ rest2)) by simp]
            rw [if_pos (show (peekT (peekT ts :: (T1 ++ (Tc ++ rest2)))).type
                = TokType.IFF from hc)]
            rw [show consumeT (peekT ts :: (T1 ++ (Tc ++ rest2)))
                = T1 ++ (Tc ++ rest2) from rfl]
            rw [hcall1]
            dsimp only
            simp only [Bool.false_or]
            exact hcall2
      · simp only [parseIFFLoop] at hfb ⊢
        rw [if_neg hc] at hfb ⊢
        have hfbIn : fb = false := hfb
        subst hfbIn
        refine ⟨rfl, [], rfl, ?_, Or.inl rfl, ?_⟩
        · intro t ht
          exact absurd ht (List.not_mem_nil t)
        · intro rest2 fuel2 hsafe hfuel
          cases fuel2 with
          | zero =>
            simp only [List.length_nil] at hfuel
            omega
          | succ f2 =>
            simp only [parseIFFLoop]
            rw [show ([] : List Token) ++ rest2 = rest2 from rfl]
            rw [if_neg hsafe.1]
    · intro left ts ctr fb hfb
      by_cases hc : (peekT ts).type = TokType.IMPLIES
      · simp only [parseImpliesLoop] at hfb ⊢
        rw [if_pos hc] at hfb ⊢
        obtain ⟨hor, Tc, hTc, hNEc, hHc, Kc⟩ := iImpliesL
          (ASTNode.bin (genId (parseXor fuel (consumeT ts) ctr).ctr) .IMPLIES left
            (parseXor fuel (consumeT ts) ctr).node
            (left.expression ++ " → " ++ (parseXor fuel (consumeT ts) ctr).node.expression)
            (max left.depth (parseXor fuel (consumeT ts) ctr).node.depth + 1))
          (parseXor fuel (consumeT ts) ctr).rest
          ((parseXor fuel (consumeT ts) ctr).ctr + 1)
          (fb || (parseXor fuel (consumeT ts) ctr).fb) hfb
        have hfb0 : fb = false ∧ (parseXor fuel (consumeT ts) ctr).fb = false := by
          simpa using hor
        obtain ⟨hfbIn, hfbr⟩ := hfb0
        subst hfbIn
        obtain ⟨T1, hT1, hL1, hNE1, K1⟩ := iXor (consumeT ts) ctr hfbr
        have hts : ts = peekT ts :: consumeT ts := cons_of_peek_ne_eof (by simp [hc])
        refine ⟨rfl, peekT ts :: (T1 ++ Tc), ?_, ?_, ?_, ?_⟩
        · rw [List.cons_append, List.append_assoc, ← hTc, ← hT1, ← hts]
        · intro t ht
          rcases List.mem_cons.mp ht with h | h
          · rw [h, hc]
            decide
          · rcases List.mem_append.mp h with h2 | h2
            · exact hNE1 t h2
            · exact hNEc t h2
        · exact Or.inr ⟨peekT ts, T1 ++ Tc, rfl, hc⟩
        · intro rest2 fuel2 hsafe hfuel
          obtain ⟨hs1, hs2, hs3, hs4⟩ := hsafe
          simp only [List.length_cons, List.length_append] at hfuel
          rw [hfbr]
          simp only [Bool.or_self]
          cases fuel2 with
          | zero => omega
          | succ f2 =>
            have hsub : (peekT (Tc ++ rest2)).type ≠ TokType.XOR ∧ (peekT (Tc ++ rest2)).type ≠ TokType.OR ∧ (peekT (Tc ++ rest2)).type ≠ TokType.AND := by
              rcases hHc with hH | ⟨t0, T0, hT0, ht0⟩
              · subst hH
                exact ⟨hs2, hs3, hs4⟩
              · subst hT0
                refine ⟨?_, ?_, ?_⟩ <;>
                  (rw [show peekT ((t0 :: T0) ++ rest2) = t0 from rfl, ht0]; decide)
            have h1 : 8 * T1.length + 12 ≤ f2 := by omega
            have h2 : 8 * Tc.length + 13 ≤ f2 := by omega
            have hcall1 := K1 (Tc ++ rest2) f2 hsub h1
            have hcall2 := Kc rest2 f2 ⟨hs1, hs2, hs3, hs4⟩ h2
            rw [hfbr] at hcall2
            simp only [Bool.or_self] at hcall2
            simp only [parseImpliesLoop]
            rw [show (peekT ts :: (T1 ++ Tc)) ++ rest2
                = peekT ts :: (T1 ++ (Tc ++ rest2)) by simp]
            rw [if_pos (show (peekT (peekT ts :: (T1 ++ (Tc ++ rest2)))).type
                = TokType.IMPLIES from hc)]
            rw [show consumeT (peekT ts :: (T1 ++ (Tc ++ rest2)))
                = T1 ++ (Tc ++ rest2) from rfl]
            rw [hcall1]
            dsimp only
            simp only [Bool.false_or]
            exact hcall2
      · simp only [parseImpliesLoop] at hfb ⊢
        rw [if_neg hc] at hfb ⊢
        have hfbIn : fb = false := hfb
        subst hfbIn
        refine ⟨rfl, [], rfl, ?_, Or.inl rfl, ?_⟩
        · intro t ht
          exact absurd ht (List.not_mem_nil t)
        · intro rest2 fuel2 hsafe hfuel
          cases fuel2 with
          | zero =>
            simp only [List.length_nil] at hfuel
            omega
          | succ f2 =>
            simp only [parseImpliesLoop]
            rw [show ([] : List Token) ++ rest2 = rest2 from rfl]
            rw [if_neg hsafe.1]
    · intro left ts ctr fb hfb
      by_cases hc : (peekT ts).type = TokType.XOR
      · simp only [parseXorLoop] at hfb ⊢
        rw [if_pos hc] at hfb ⊢
        obtain ⟨hor, Tc, hTc, hNEc, hHc, Kc⟩ := iXorL
          (ASTNode.bin (genId (parseOr fuel (consumeT ts) ctr).ctr) .XOR left
            (parseOr fuel (consumeT ts) ctr).node
            (left.expression ++ " ⊕ " ++ (parseOr fuel (consumeT ts) ctr).node.expression)
            (max left.depth (parseOr fuel (consumeT ts) ctr).node.depth + 1))
          (parseOr fuel (consumeT ts) ctr).rest
          ((parseOr fuel (consumeT ts) ctr).ctr + 1)
          (fb || (parseOr fuel (consumeT ts) ctr).fb) hfb
        have hfb0 : fb = false ∧ (parseOr fuel (consumeT ts) ctr).fb = false := by
          simpa using hor
        obtain ⟨hfbIn, hfbr⟩ := hfb0
        subst hfbIn
        obtain ⟨T1, hT1, hL1, hNE1, K1⟩ := iOr (consumeT ts) ctr hfbr
        have hts : ts = peekT ts :: consumeT ts := cons_of_peek_ne_eof (by simp [hc])
        refine ⟨rfl, peekT ts :: (T1 ++ Tc), ?_, ?_, ?_, ?_⟩
        · rw [List.cons_append, List.append_assoc, ← hTc, ← hT1, ← hts]
        · intro t ht
          rcases List.mem_cons.mp ht with h | h
          · rw [h, hc]
            decide
          · rcases List.mem_append.mp h with h2 | h2
            · exact hNE1 t h2
            · exact hNEc t h2
        · exact Or.inr ⟨peekT ts, T1 ++ Tc, rfl, hc⟩
        · intro rest2 fuel2 hsafe hfuel
          obtain ⟨hs1, hs2, hs3⟩ := hsafe
          simp only [List.length_cons, List.length_append] at hfuel
          rw [hfbr]
          simp only [Bool.or_self]
          cases fuel2 with
          | zero => omega
          | succ f2 =>
            have hsub : (peekT (Tc ++ rest2)).type ≠ TokType.OR ∧ (peekT (Tc ++ rest2)).type ≠ TokType.AND := by
              rcases hHc with hH | ⟨t0, T0, hT0, ht0⟩
              · subst hH
                exact ⟨hs2, hs3⟩
              · subst hT0
                refine ⟨?_, ?_⟩ <;>
                  (rw [show peekT ((t0 :: T0) ++ rest2) = t0 from rfl, ht0]; decide)
            have h1 : 8 * T1.length + 11 ≤ f2 := by omega
            have h2 : 8 * Tc.length + 12 ≤ f2 := by omega
            have hcall1 := K1 (Tc ++ rest2) f2 hsub h1
            have hcall2 := Kc rest2 f2 ⟨hs1, hs2, hs3⟩ h2
            rw [hfbr] at hcall2
            simp only [Bool.or_self] at hcall2
            simp only [parseXorLoop]
            rw [show (peekT ts :: (T1 ++ Tc)) ++ rest2
                = peekT ts :: (T1 ++ (Tc ++ rest2)) by simp]
            rw [if_pos (show (peekT (peekT ts :: (T1 ++ (Tc ++ rest2)))).type
                = TokType.XOR from hc)]
            rw [show consumeT (peekT ts :: (T1 ++ (Tc ++ rest2)))
                = T1 ++ (Tc ++ rest2) from rfl]
            rw [hcall1]
            dsimp only
            simp only [Bool.false_or]
            exact hcall2
      · simp only [parseXorLoop] at hfb ⊢
        rw [if_neg hc] at hfb ⊢
        have hfbIn : fb = false := hfb
        subst hfbIn
        refine ⟨rfl, [], rfl, ?_, Or.inl rfl, ?_⟩
        · intro t ht
          exact absurd ht (List.not_mem_nil t)
        · intro rest2 fuel2 hsafe hfuel
          cases fuel2 with
          | zero =>
            simp only [List.length_nil] at hfuel
            omega
          | succ f2 =>
            simp only [parseXorLoop]
            rw [show ([] : List Token) ++ rest2 = rest2 from rfl]
            rw [if_neg hsafe.1]
    · intro left ts ctr fb hfb
      by_cases hc : (peekT ts).type = TokType.OR
      · simp only [parseOrLoop] at hfb ⊢
        rw [if_pos hc] at hfb ⊢
        obtain ⟨hor, Tc, hTc, hNEc, hHc, Kc⟩ := iOrL
          (ASTNode.bin (genId (parseAnd fuel (consumeT ts) ctr).ctr) .OR left
            (parseAnd fuel (consumeT ts) ctr).node
            (left.expression ++ " ∨ " ++ (parseAnd fuel (consumeT ts) ctr).node.expression)
            (max left.depth (parseAnd fuel (consumeT ts) ctr).node.depth + 1))
          (parseAnd fuel (consumeT ts) ctr).rest
          ((parseAnd fuel (consumeT ts) ctr).ctr + 1)
          (fb || (parseAnd fuel (consumeT ts) ctr).fb) hfb
        have hfb0 : fb = false ∧ (parseAnd fuel (consumeT ts) ctr).fb = false := by
          simpa using hor
        obtain ⟨hfbIn, hfbr⟩ := hfb0
        subst hfbIn
        obtain ⟨T1, hT1, hL1, hNE1, K1⟩ := iAnd (consumeT ts) ctr hfbr
        have hts : ts = peekT ts :: consumeT ts := cons_of_peek_ne_eof (by simp [hc])
        refine ⟨rfl, peekT ts :: (T1 ++ Tc), ?_, ?_, ?_, ?_⟩
        · rw [List.cons_append, List.append_assoc, ← hTc, ← hT1, ← hts]
        · intro t ht
          rcases List.mem_cons.mp ht with h | h
          · rw [h, hc]
            decide
          · rcases List.mem_append.mp h with h2 | h2
            · exact hNE1 t h2
            · exact hNEc t h2
        · exact Or.inr ⟨peekT ts, T1 ++ Tc, rfl, hc⟩
        · intro rest2 fuel2 hsafe hfuel
          obtain ⟨hs1, hs2⟩ := hsafe
          simp only [List.length_cons, List.length_append] at hfuel
          rw [hfbr]
          simp only [Bool.or_self]
          cases fuel2 with
          | zero => omega
          | succ f2 =>
            have hsub : (peekT (Tc ++ rest2)).type ≠ TokType.AND := by
              rcases hHc with hH | ⟨t0, T0, hT0, ht0⟩
              · subst hH
                exact hs2
              · subst hT0
                rw [show peekT ((t0 :: T0) ++ rest2) = t0 from rfl, ht0]
                decide
            have h1 : 8 * T1.length + 10 ≤ f2 := by omega
            have h2 : 8 * Tc.length + 11 ≤ f2 := by omega
            have hcall1 := K1 (Tc ++ rest2) f2 hsub h1
            have hcall2 := Kc rest2 f2 ⟨hs1, hs2⟩ h2
            rw [hfbr] at hcall2
            simp only [Bool.or_self] at hcall2
            simp only [parseOrLoop]
            rw [show (peekT ts :: (T1 ++ Tc)) ++ rest2
                = peekT ts :: (T1 ++ (Tc ++ rest2)) by simp]
            rw [if_pos (show (peekT (peekT ts :: (T1 ++ (Tc ++ rest2)))).type
                = TokType.OR from hc)]
            rw [show consumeT (peekT ts :: (T1 ++ (Tc ++ rest2)))
                = T1 ++ (Tc ++ rest2) from rfl]
            rw [hcall1]
            dsimp only
            simp only [Bool.false_or]
            exact hcall2
      · simp only [parseOrLoop] at hfb ⊢
        rw [if_neg hc] at hfb ⊢
        have hfbIn : fb = false := hfb
        subst hfbIn
        refine ⟨rfl, [], rfl, ?_, Or.inl rfl, ?_⟩
        · intro t ht
          exact absurd ht (List.not_mem_nil t)
        · intro rest2 fuel2 hsafe hfuel
          cases fuel2 with
          | zero =>
            simp only [List.length_nil] at hfuel
            omega
          | succ f2 =>
            simp only [parseOrLoop]
            rw [show ([] : List Token) ++ rest2 = rest2 from rfl]
            rw [if_neg hsafe.1]
    · intro left ts ctr fb hfb
      by_cases hc : (peekT ts).type = TokType.AND
      · simp only [parseAndLoop] at hfb ⊢
        rw [if_pos hc] at hfb ⊢
        obtain ⟨hor, Tc, hTc, hNEc, hHc, Kc⟩ := iAndL
          (ASTNode.bin (genId (parseNot fuel (consumeT ts) ctr).ctr) .AND left
            (parseNot fuel (consumeT ts) ctr).node
            (left.expression ++ " ∧ " ++ (parseNot fuel (consumeT ts) ctr).node.expression)
            (max left.depth (parseNot fuel (consumeT ts) ctr).node.depth + 1))
          (parseNot fuel (consumeT ts) ctr).rest
          ((parseNot fuel (consumeT ts) ctr).ctr + 1)
          (fb || (parseNot fuel (consumeT ts) ctr).fb) hfb
        have hfb0 : fb = false ∧ (parseNot fuel (consumeT ts) ctr).fb = false := by
          simpa using hor
        obtain ⟨hfbIn, hfbr⟩ := hfb0
        subst hfbIn
        obtain ⟨T1, hT1, hL1, hNE1, K1⟩ := iNot (consumeT ts) ctr hfbr
        have hts : ts = peekT ts :: consumeT ts := cons_of_peek_ne_eof (by simp [hc])
        refine ⟨rfl, peekT ts :: (T1 ++ Tc), ?_, ?_, ?_, ?_⟩
        · rw [List.cons_append, List.append_assoc, ← hTc, ← hT1, ← hts]
        · intro t ht
          rcases List.mem_cons.mp ht with h | h
          · rw [h, hc]
            decide
          · rcases List.mem_append.mp h with h2 | h2
            · exact hNE1 t h2
            · exact hNEc t h2
        · exact Or.inr ⟨peekT ts, T1 ++ Tc, rfl, hc⟩
        · intro rest2 fuel2 hsafe hfuel
          simp only [List.length_cons, List.length_append] at hfuel
          rw [hfbr]
          simp only [Bool.or_self]
          cases fuel2 with
          | zero => omega
          | succ f2 =>
            have h1 : 8 * T1.length + 9 ≤ f2 := by omega
            have h2 : 8 * Tc.length + 10 ≤ f2 := by omega
            have hcall1 := K1 (Tc ++ rest2) f2 trivial h1
            have hcall2 := Kc rest2 f2 hsafe h2
            rw [hfbr] at hcall2
            simp only [Bool.or_self] at hcall2
            simp only [parseAndLoop]
            rw [show (peekT ts :: (T1 ++ Tc)) ++ rest2
                = peekT ts :: (T1 ++ (Tc ++ rest2)) by simp]
            rw [if_pos (show (peekT (peekT ts :: (T1 ++ (Tc ++ rest2)))).type
                = TokType.AND from hc)]
            rw [show consumeT (peekT ts :: (T1 ++ (Tc ++ rest2)))
                = T1 ++ (Tc ++ rest2) from rfl]
            rw [hcall1]
            dsimp only
            simp only [Bool.false_or]
            exact hcall2
      · simp only [parseAndLoop] at hfb ⊢
        rw [if_neg hc] at hfb ⊢
        have hfbIn : fb = false := hfb
        subst hfbIn
        refine ⟨rfl, [], rfl, ?_, Or.inl rfl, ?_⟩
        · intro t ht
          exact absurd ht (List.not_mem_nil t)
        · intro rest2 fuel2 hsafe hfuel
          cases fuel2 with
          | zero =>
            simp only [List.length_nil] at hfuel
            omega
          | succ f2 =>
            simp only [parseAndLoop]
            rw [show ([] : List Token) ++ rest2 = rest2 from rfl]
            rw [if_neg hsafe]

/-! ### C6: the semantic round-trip through the rendered expression -/

/-- C6 (amended): for every formula text accepted by the syntax validator
whose parse finishes without triggering the parser's defensive `'?'`
fallback, re-parsing the rendered `expression` string of the parsed root
returns the very same AST node — whether or not the parse consumed every
token of the original stream — and hence the same truth value under every
assignment.  (For validator-accepted inputs that do hit the fallback the
round-trip fails: `render_roundtrip_counterexample`.) -/
theorem parse_render_roundtrip (s : String)
    (hval : validateSyntax (tokenize s) = none)
    (hfb : (parseTokens (tokenize s)).fb = false) :
    (parseTokens (tokenize ((parseTokens (tokenize s)).node.expression))).node =
      (parseTokens (tokenize s)).node ∧
    ∀ ctx, evaluateAST (parseTokens (tokenize
        ((parseTokens (tokenize s)).node.expression))).node ctx =
      evaluateAST (parseTokens (tokenize s)).node ctx := by
  simp only [parseTokens] at hfb ⊢
  obtain ⟨T, hT, hTlen, hNE, K⟩ :=
    (parser_suffix (parseFuel (tokenize s))).1 (tokenize s) 0 hfb
  obtain ⟨T2, hT2, hE2⟩ := (parser_render (parseFuel (tokenize s))).1 (tokenize s) 0
  have hTT : T2 = T := List.append_cancel_right (hT2.symm.trans hT)
  have hexp : (parseIFF (parseFuel (tokenize s)) (tokenize s) 0).node.expression =
      renderToks T := by
    rw [← hTT]
    exact hE2 hfb
  have hsplit : tokenize s = tokenizeF (normalizeChars s.data).length (normalizeChars s.data)
      ++ [eofToken] := rfl
  have hcanonT : ∀ t ∈ T, CanonTok t := by
    intro t ht
    have hmem : t ∈ tokenize s := by
      rw [hT]
      exact List.mem_append_left _ ht
    rw [hsplit] at hmem
    rcases List.mem_append.mp hmem with h | h
    · exact tokenize_canon s t h
    · rw [List.mem_singleton] at h
      exact absurd (show t.type = TokType.EOF by rw [h]; rfl) (hNE t ht)
  have hadj : noAdjVar T := by
    apply noAdjVar_prefix T ((parseIFF (parseFuel (tokenize s)) (tokenize s) 0).rest)
    rw [← hT]
    obtain ⟨st, hloop⟩ := validateSyntax_none_loop hval
    exact validateLoop_no_adjacent _ _ _ hloop
  have hflen : (flatChars T).length = T.length := flatChars_length T hcanonT
  have hre : tokenize (renderToks T) = T ++ [eofToken] := by
    show tokenizeF (normalizeChars (renderToks T).data).length
        (normalizeChars (renderToks T).data) ++ [eofToken] = T ++ [eofToken]
    rw [normalizeChars_renderToks T hcanonT, hflen,
      tokenizeF_flatChars T T.length hcanonT hadj (le_refl _)]
  have hsafe : (peekT [eofToken]).type ≠ TokType.IFF ∧
      (peekT [eofToken]).type ≠ TokType.IMPLIES ∧ (peekT [eofToken]).type ≠ TokType.XOR ∧
      (peekT [eofToken]).type ≠ TokType.OR ∧ (peekT [eofToken]).type ≠ TokType.AND := by
    decide
  have hfuel : 8 * T.length + 14 ≤ parseFuel (T ++ [eofToken]) := by
    simp only [parseFuel, List.length_append, List.length_cons, List.length_nil]
    omega
  have hK := K [eofToken] (parseFuel (T ++ [eofToken])) hsafe hfuel
  constructor
  · rw [hexp, hre, hK]
  · intro ctx
    rw [hexp, hre, hK]

/-- C6 witness: concrete instantiation on the validator-accepted formula
`(P)Q`, whose fallback-free parse consumes only `(P)` and leaves the `Q`
token behind; the re-parse of the rendered `"(P)"` is the identical node. -/
theorem parse_render_roundtrip_witness :
    validateSyntax (tokenize "(P)Q") = none ∧
    (parseTokens (tokenize "(P)Q")).fb = false ∧
    (parseTokens (tokenize "(P)Q")).node.expression = "(P)" ∧
    (parseTokens (tokenize "(P)Q")).rest ≠ [eofToken] ∧
    (parseTokens (tokenize ((parseTokens (tokenize "(P)Q")).node.expression))).node =
      (parseTokens (tokenize "(P)Q")).node :=
  ⟨rfl, rfl, rfl, by decide, (parse_render_roundtrip "(P)Q" rfl rfl).1⟩


end LogicFlow
